import Mathlib

/-!
# multipartx: a streaming `multipart/form-data` body

A shallow embedding of `multipartx.go` and the properties of its specification.

Go strings and byte slices are byte sequences: both are `Bytes` here, string
concatenation and `append` are list append.  The standard-library functions the
package calls (`fmt.Sprintf`, `bytes.Reader`, `io.MultiReader`, `filepath.Base`,
`os.File.Close`) are modelled from their Go sources and documentation.
-/

namespace Multipartx

/-! ## Bytes, strings, errors -/

/-- A Go string or byte slice: the sequence of its bytes, each given by its
numeric value. -/
abbrev Bytes := List Nat

/-- The bytes of an ASCII string constant. -/
def str (s : String) : Bytes := s.toList.map Char.toNat

/-- Go: `const rn = "\r\n"`. -/
def rn : Bytes := str "\r\n"

/-- Go: `const contentTypePrefix = "multipart/form-data; boundary="`. -/
def contentTypePrefix : Bytes := str "multipart/form-data; boundary="

/-- Go: `const octetType = "application/octet-stream"`. -/
def octetType : Bytes := str "application/octet-stream"

/-- Go `error` values that occur; a nil error is `none : Option GoError`. -/
inductive GoError where
  /-- The value `io.EOF`. -/
  | EOF
  /-- The value built by `fmt.Errorf` in `Read` when `Done` was not called. -/
  | notReady
  /-- The value `os.ErrClosed`, returned by `Close` on a closed file. -/
  | errClosed
  /-- Any other error value (failed open, failed close, failed read). -/
  | other (code : Nat)
  deriving DecidableEq, Repr

/-! ## `fmt.Sprintf` with a format and no operands

`fieldHeader` calls `fmt.Sprintf(format)` with no operands.  `doPrintf` below is
`(*pp).doPrintf` of Go's `fmt/print.go` for `a = nil`: `argNum` stays `0`,
`len(a)` is `0`, the fast path for simple verbs is never taken, and `intFromArg`
finds no operand.  Positions `format[i:]` are passed as the remaining suffix. -/

/-- Go: `tooLarge(x)`, with `const max = 1e6`. -/
def tooLarge (x : Nat) : Bool := decide (x > 1000000)

/-- The loop of `parsenum`: decimal digits are accumulated; on overflow Go returns
`(0, false, end)`, the position at the end of the slice. -/
def parsenumLoop : Nat → Bool → Bytes → Nat × Bool × Bytes
  | num, isnum, [] => (num, isnum, [])
  | num, isnum, c :: s =>
    if 48 ≤ c ∧ c ≤ 57 then
      if tooLarge num then (0, false, [])
      else parsenumLoop (num * 10 + (c - 48)) true s
    else (num, isnum, c :: s)

/-- Go: `parsenum(s, start, end)` on the slice `s[start:end]`, result `(num, isnum, rest)`. -/
def parsenum (s : Bytes) : Nat × Bool × Bytes := parsenumLoop 0 false s

/-- Go: `parseArgNumber(format)` where `format[0] == '['`: result `(index, wid, ok)`. -/
def parseArgNumber (format : Bytes) : Int × Nat × Bool :=
  if format.length < 3 then (0, 1, false)
  else
    let inner := (format.drop 1).takeWhile (fun c => c ≠ 93)
    if inner.length = (format.drop 1).length then (0, 1, false)
    else
      let (width, ok, rest) := parsenum inner
      if !ok || !rest.isEmpty then (0, inner.length + 2, false)
      else ((width : Int) - 1, inner.length + 2, true)

/-- Go: `(*pp).argNumber(argNum, format, i, numArgs)` with `numArgs = 0`; the field
`p.goodArgNum` is threaded as `good`.  Result `((rest, found), good)`; `argNum` is
returned unchanged since no index is below `numArgs`. -/
def argNumber (good : Bool) (s : Bytes) : (Bytes × Bool) × Bool :=
  match s with
  | 91 :: _ =>
    let (index, wid, ok) := parseArgNumber s
    if ok && decide (0 ≤ index) && decide (index < 0) then ((s.drop wid, true), good)
    else ((s.drop wid, ok), false)
  | _ => ((s, false), good)

/-- The flag loop of `doPrintf`: `#`, `0`, `+`, `-` and space are consumed. -/
def skipFlags : Bytes → Bytes
  | c :: s => if c = 35 ∨ c = 48 ∨ c = 43 ∨ c = 45 ∨ c = 32 then skipFlags s else c :: s
  | [] => []

/-- The UTF-8 encoding of `utf8.RuneError` (U+FFFD). -/
def runeError : Bytes := [0xEF, 0xBF, 0xBD]

/-- Go: the table `first` of `unicode/utf8` for a leading byte `>= 0x80`: the size
of the encoding and the accepted range of the second byte, `none` for `xx`. -/
def first (s0 : Nat) : Option (Nat × Nat × Nat) :=
  if 0xC2 ≤ s0 ∧ s0 ≤ 0xDF then some (2, 0x80, 0xBF)
  else if s0 = 0xE0 then some (3, 0xA0, 0xBF)
  else if (0xE1 ≤ s0 ∧ s0 ≤ 0xEC) ∨ s0 = 0xEE ∨ s0 = 0xEF then some (3, 0x80, 0xBF)
  else if s0 = 0xED then some (3, 0x80, 0x9F)
  else if s0 = 0xF0 then some (4, 0x90, 0xBF)
  else if 0xF1 ≤ s0 ∧ s0 ≤ 0xF3 then some (4, 0x80, 0xBF)
  else if s0 = 0xF4 then some (4, 0x80, 0x8F)
  else none

/-- The verb of a format directive: `rune(format[i])`, or
`utf8.DecodeRuneInString(format[i:])` from `0x80` on.  The result is the bytes
`writeRune(verb)` emits (the encoding read, or that of `RuneError` with size 1
when the encoding is invalid) and the rest of the format. -/
def decodeVerb : Bytes → Bytes × Bytes
  | [] => ([], [])
  | s0 :: t =>
    if s0 < 0x80 then ([s0], t)
    else
      match first s0 with
      | none => (runeError, t)
      | some (sz, lo, hi) =>
        if t.length + 1 < sz then (runeError, t)
        else
          let s1 := t.getD 0 0
          let s2 := t.getD 1 0
          let s3 := t.getD 2 0
          if s1 < lo ∨ hi < s1 then (runeError, t)
          else if sz ≤ 2 then ([s0, s1], t.drop 1)
          else if s2 < 0x80 ∨ 0xBF < s2 then (runeError, t)
          else if sz ≤ 3 then ([s0, s1, s2], t.drop 2)
          else if s3 < 0x80 ∨ 0xBF < s3 then (runeError, t)
          else ([s0, s1, s2, s3], t.drop 3)

/-- The width of a directive in `doPrintf`: `*` finds no operand and writes
`%!(BADWIDTH)`, otherwise `parsenum` reads the digits.  Result: the bytes written,
the rest of the format, `afterIndex` and `p.goodArgNum`. -/
def width (s : Bytes) (afterIndex good : Bool) : Bytes × Bytes × Bool × Bool :=
  match s with
  | 42 :: s' => (str "%!(BADWIDTH)", s', false, good)
  | _ =>
    let (_, widPresent, s') := parsenum s
    ([], s', afterIndex, good && !(afterIndex && widPresent))

/-- The precision of a directive in `doPrintf`, after a `.`: an argument index,
then `*` (no operand: `%!(BADPREC)`) or digits. -/
def precision (s : Bytes) (afterIndex good : Bool) : Bytes × Bytes × Bool × Bool :=
  match s with
  | 46 :: s' =>
    let ((s'', afterIndex'), good') := argNumber (good && !afterIndex) s'
    match s'' with
    | 42 :: s3 => (str "%!(BADPREC)", s3, false, good')
    | _ =>
      let (_, _, s3) := parsenum s''
      ([], s3, afterIndex', good')
  | _ => ([], s, afterIndex, good)

/-- One directive of `doPrintf`, from the byte after its `%`: flags, argument
index, width, precision, argument index, verb.  Result: the bytes written and the
rest of the format, `none` when the format ends before the verb (`%!(NOVERB)`,
then `break`).  With no operand every verb but `%` is reported as
`%!verb(BADINDEX)` or `%!verb(MISSING)`. -/
def directive (s0 : Bytes) : Bytes × Option Bytes :=
  let s1 := skipFlags s0
  let ((s2, afterIndex2), good2) := argNumber true s1
  let (out3, s3, afterIndex3, good3) := width s2 afterIndex2 good2
  let (out4, s4, afterIndex4, good4) := precision s3 afterIndex3 good3
  let ((s5, _), good5) :=
    if !afterIndex4 then argNumber good4 s4 else ((s4, afterIndex4), good4)
  match s5 with
  | [] => (out3 ++ out4 ++ str "%!(NOVERB)", none)
  | _ =>
    let (verb, s6) := decodeVerb s5
    let out :=
      if verb = [37] then [37]
      else if !good5 then str "%!" ++ verb ++ str "(BADINDEX)"
      else str "%!" ++ verb ++ str "(MISSING)"
    (out3 ++ out4 ++ out, some s6)

/-- Go: `(*pp).doPrintf(format, nil)`; the result is the buffer written.  Each
round of the loop copies the bytes up to the next `%` and handles one directive;
a directive consumes at least its `%`, so `fuel = len(format) + 1` rounds reach
the end of the format. -/
def doPrintf : Nat → Bytes → Bytes
  | 0, _ => []
  | fuel + 1, format =>
    let lit := format.takeWhile (fun c => c ≠ 37)
    match format.dropWhile (fun c => c ≠ 37) with
    | [] => lit
    | _ :: s0 =>
      match directive s0 with
      | (out, none) => lit ++ out
      | (out, some s6) => lit ++ out ++ doPrintf fuel s6

/-- Go: `fmt.Sprintf(format)` with no operands. -/
def Sprintf (format : Bytes) : Bytes := doPrintf (format.length + 1) format

/-! ## Headers -/

/-- Go: `fieldHeader(fieldName)`; the concatenation is the format string. -/
def fieldHeader (fieldName : Bytes) : Bytes :=
  Sprintf (str "Content-Disposition: form-data; name=\"" ++ fieldName ++ str "\"")

/-- Go: `fileHeader(fieldName, fileName, contentType)`. -/
def fileHeader (fieldName fileName contentType : Bytes) : Bytes :=
  str "Content-Disposition: form-data; name=\"" ++ fieldName ++ str "\"; filename=\""
    ++ fileName ++ str "\"\r\nContent-Type: " ++ contentType

/-! ## The boundary -/

/-- The 30 bytes `io.ReadFull(rand.Reader, buf[:])` stores in `var buf [30]byte`.
A run in which the random source fails panics and has no result; the operations
below take the block read as an argument. -/
structure Block where
  /-- The contents of `buf`. -/
  bytes : Bytes
  /-- The array has 30 elements. -/
  length_eq : bytes.length = 30
  /-- Every element is a byte. -/
  byte_lt : ∀ b ∈ bytes, b < 256

/-- Go: `const ldigits = "0123456789abcdefx"` of `fmt/format.go`. -/
def ldigits : Bytes := str "0123456789abcdefx"

/-- Go: the loop of `fmtSbx` for the verb `%x` on a byte slice: each byte `c`
is written as `digits[c>>4]`, `digits[c&0xF]`. -/
def fmtSbx : Bytes → Bytes
  | [] => []
  | c :: s => ldigits.getD (c / 16) 0 :: ldigits.getD (c % 16) 0 :: fmtSbx s

/-- Go: `randomBoundary()`, given the block read from `rand.Reader`:
`fmt.Sprintf("%x", buf[:])`. -/
def randomBoundary (buf : Block) : Bytes := fmtSbx buf.bytes

/-! ## Readers -/

/-- Go: `*bytes.Reader`: the slice `s` and the read index `i`. -/
structure BytesReader where
  /-- The slice read from. -/
  s : Bytes
  /-- The current reading index. -/
  i : Nat
  deriving DecidableEq, Repr

/-- Go: `bytes.NewReader(b)`. -/
def bytes.NewReader (b : Bytes) : BytesReader := { s := b, i := 0 }

/-- Go: `(*bytes.Reader).Read(b)` for `len(b) = len`: the bytes copied and the error. -/
def BytesReader.Read (r : BytesReader) (len : Nat) :
    (Bytes × Option GoError) × BytesReader :=
  if r.i ≥ r.s.length then (([], some GoError.EOF), r)
  else
    let out := (r.s.drop r.i).take len
    ((out, none), { r with i := r.i + out.length })

/-- One answer of a caller-supplied reader: the bytes it has ready and the error
it returns with the last of them. -/
structure Resp where
  /-- The bytes of this answer. -/
  data : Bytes
  /-- The error returned with them, `none` for nil. -/
  err : Option GoError
  deriving DecidableEq, Repr

/-- A caller-supplied `io.Reader` (also an `*os.File` read by the body), given by
the finite list of answers it will make: short reads, reads of zero bytes, bytes
together with `io.EOF`, and failures are all expressible.  Once the list is used
up the reader reports `io.EOF`. -/
abbrev ExtReader := List Resp

/-- The call `Read(p)` with `len(p) = len` on a caller-supplied reader: an answer
that does not fit in `p` is delivered over several calls. -/
def ExtReader.Read (r : ExtReader) (len : Nat) : (Bytes × Option GoError) × ExtReader :=
  match r with
  | [] => (([], some GoError.EOF), [])
  | a :: rest =>
    if a.data.length ≤ len then ((a.data, a.err), rest)
    else ((a.data.take len, none), { a with data := a.data.drop len } :: rest)

/-- The readers handed to `io.MultiReader`. -/
inductive Leaf where
  /-- A `*bytes.Reader`. -/
  | bytesReader (r : BytesReader)
  /-- A caller-supplied reader. -/
  | external (r : ExtReader)
  deriving DecidableEq, Repr

/-- The method `Read` of a reader handed to `io.MultiReader`. -/
def Leaf.Read (r : Leaf) (len : Nat) : (Bytes × Option GoError) × Leaf :=
  match r with
  | Leaf.bytesReader b => let (res, b') := b.Read len; (res, Leaf.bytesReader b')
  | Leaf.external e => let (res, e') := e.Read len; (res, Leaf.external e')

/-- Go: `(*multiReader).Read(p)` of `io/multi.go` on the remaining `mr.readers`.
The flattening branch concerns a single remaining reader that is itself a
`*multiReader`; it changes no result and the readers here are leaves. -/
def multiReaderRead : List Leaf → Nat → (Bytes × Option GoError) × List Leaf
  | [], _ => (([], some GoError.EOF), [])
  | r :: rest, len =>
    let ((out, err), r') := r.Read len
    let readers := if err = some GoError.EOF then rest else r' :: rest
    if out.length > 0 ∨ err ≠ some GoError.EOF then
      let err' := if err = some GoError.EOF ∧ readers.length > 0 then none else err
      ((out, err'), readers)
    else multiReaderRead rest len

/-- The `io.Reader` values stored in `Multipart.fields`. -/
inductive Reader where
  /-- A `*bytes.Reader`. -/
  | bytesReader (r : BytesReader)
  /-- The result of `io.MultiReader(readers...)`: the remaining readers. -/
  | multiReader (readers : List Leaf)
  deriving DecidableEq, Repr

/-- The method `Read` of a stored source. -/
def Reader.Read (e : Reader) (len : Nat) : (Bytes × Option GoError) × Reader :=
  match e with
  | Reader.bytesReader b => let (res, b') := b.Read len; (res, Reader.bytesReader b')
  | Reader.multiReader rs => let (res, rs') := multiReaderRead rs len; (res, Reader.multiReader rs')

/-! ## Files -/

/-- Go: an `*os.File` obtained from `os.Open`, as the body uses it: it is read
through `reader` and closed through `Close`.  The body reads a file only while
its cursor is on the file's source and closes files only once the cursor is past
every source, so the two uses never interfere. -/
structure OsFile where
  /-- The answers `Read` will make. -/
  reader : ExtReader
  /-- The result of the first `Close` (nil when the close succeeds). -/
  closeErr : Option GoError
  /-- The number of calls of `Close` made so far. -/
  closeCalls : Nat
  deriving DecidableEq, Repr

/-- Go: `(*os.File).Close()`: a second call returns `os.ErrClosed`. -/
def OsFile.Close (f : OsFile) : Option GoError × OsFile :=
  (if f.closeCalls = 0 then f.closeErr else some GoError.errClosed,
   { f with closeCalls := f.closeCalls + 1 })

/-- The result of `os.Open` for every path, at the time of the call. -/
abbrev FileSystem := Bytes → Except GoError OsFile

/-- The first loop of `filepath.Base`: trailing separators are removed. -/
def filepath.stripTrailing (path : Bytes) : Bytes :=
  (path.reverse.dropWhile (fun c => c = 47)).reverse

/-- Go: `filepath.Base(path)` with the Unix separator `/` (no volume name): `.` for
the empty path, `/` for a path of separators only, otherwise the last element. -/
def filepath.Base (path : Bytes) : Bytes :=
  if path = [] then str "."
  else
    let p := filepath.stripTrailing path
    let last := (p.reverse.takeWhile (fun c => c ≠ 47)).reverse
    if last = [] then str "/" else last

/-! ## The body -/

/-- Go: `type Multipart struct`.  `writingIdx` is an `int` that is only ever
incremented from `0`. -/
structure Multipart where
  /-- The part sources. -/
  fields : List Reader
  /-- The boundary, empty until generated. -/
  boundary : Bytes
  /-- The cursor of `Read`. -/
  writingIdx : Nat
  /-- Whether `Done` has run. -/
  closed : Bool
  /-- The files opened by the body. -/
  toClose : List OsFile
  deriving DecidableEq, Repr

/-- The zero value `Multipart{}`. -/
def Multipart.zero : Multipart :=
  { fields := [], boundary := [], writingIdx := 0, closed := false, toClose := [] }

/-- Go: `(*Multipart).ensureBoundary()`; `buf` is what `randomBoundary` reads. -/
def Multipart.ensureBoundary (m : Multipart) (buf : Block) : Multipart :=
  if m.boundary = [] then { m with boundary := randomBoundary buf } else m

/-- Go: `(*Multipart).AddField(name, value)`. -/
def Multipart.AddField (m : Multipart) (buf : Block) (name value : Bytes) : Multipart :=
  let m := m.ensureBoundary buf
  { m with fields := m.fields ++
      [Reader.bytesReader (bytes.NewReader
        (rn ++ str "--" ++ m.boundary ++ rn ++ fieldHeader name ++ rn ++ rn ++ value))] }

/-- Go: `(*Multipart).AddBytesContentType(fieldName, fileName, contentType, data)`. -/
def Multipart.AddBytesContentType (m : Multipart) (buf : Block)
    (fieldName fileName contentType data : Bytes) : Multipart :=
  let m := m.ensureBoundary buf
  let val := rn ++ str "--" ++ m.boundary ++ rn
  let val := val ++ (fileHeader fieldName fileName contentType ++ rn ++ rn)
  let val := val ++ data
  { m with fields := m.fields ++ [Reader.bytesReader (bytes.NewReader val)] }

/-- Go: `(*Multipart).AddBytes(fieldName, fileName, data)`. -/
def Multipart.AddBytes (m : Multipart) (buf : Block)
    (fieldName fileName data : Bytes) : Multipart :=
  m.AddBytesContentType buf fieldName fileName octetType data

/-- Go: `(*Multipart).AddFileContentType(fieldName, fileName, contentType, reader)`. -/
def Multipart.AddFileContentType (m : Multipart) (buf : Block)
    (fieldName fileName contentType : Bytes) (reader : ExtReader) : Multipart :=
  let m := m.ensureBoundary buf
  let val := rn ++ str "--" ++ m.boundary ++ rn
  let val := val ++ (fileHeader fieldName fileName contentType ++ rn ++ rn)
  { m with fields := m.fields ++
      [Reader.multiReader [Leaf.bytesReader (bytes.NewReader val), Leaf.external reader]] }

/-- Go: `(*Multipart).AddFile(fieldName, fileName, reader)`. -/
def Multipart.AddFile (m : Multipart) (buf : Block)
    (fieldName fileName : Bytes) (reader : ExtReader) : Multipart :=
  m.AddFileContentType buf fieldName fileName octetType reader

/-- Go: `(*Multipart).AddFileFromDiskContentType(fieldName, contentType, filePath)`:
the returned error and the body afterwards. -/
def Multipart.AddFileFromDiskContentType (m : Multipart) (fs : FileSystem) (buf : Block)
    (fieldName contentType filePath : Bytes) : Option GoError × Multipart :=
  match fs filePath with
  | Except.error err => (some err, m)
  | Except.ok f =>
    let m := { m with toClose := m.toClose ++ [f] }
    (none, m.AddFileContentType buf fieldName (filepath.Base filePath) contentType f.reader)

/-- Go: `(*Multipart).AddFileFromDisk(fieldName, filePath)`. -/
def Multipart.AddFileFromDisk (m : Multipart) (fs : FileSystem) (buf : Block)
    (fieldName filePath : Bytes) : Option GoError × Multipart :=
  m.AddFileFromDiskContentType fs buf fieldName octetType filePath

/-- Go: `(*Multipart).Done()`. -/
def Multipart.Done (m : Multipart) (buf : Block) : Multipart :=
  let m := m.ensureBoundary buf
  if !m.closed then
    { m with
      closed := true
      fields := m.fields ++
        [Reader.bytesReader (bytes.NewReader (rn ++ str "--" ++ m.boundary ++ str "--" ++ rn))] }
  else m

/-- Go: `(*Multipart).ContentTypeHeaderValue()`: the string returned and the body. -/
def Multipart.ContentTypeHeaderValue (m : Multipart) (buf : Block) : Bytes × Multipart :=
  let m := m.ensureBoundary buf
  ( contentTypePrefix ++ m.boundary, m)

/-- The parts of an `*http.Request` that `AttachToRequest` assigns. -/
structure Request where
  /-- The header `Content-Type`, if set. -/
  contentType : Option Bytes
  /-- The field `TransferEncoding`. -/
  transferEncoding : List Bytes
  /-- Whether `Body` is the body `m` (wrapped by `io.NopCloser`). -/
  bodyIsMultipart : Bool
  deriving DecidableEq, Repr

/-- Go: `(*Multipart).AttachToRequest(r)`. -/
def Multipart.AttachToRequest (m : Multipart) (buf : Block) (r : Request) :
    Multipart × Request :=
  let m := m.Done buf
  let (v, m) := m.ContentTypeHeaderValue buf
  (m, { r with contentType := some v, transferEncoding := [str "chunked"],
               bodyIsMultipart := true })

/-- The loop `for _, f := range m.toClose` of `Read`: the first non-nil result of
`Close`, if any, and the files afterwards. -/
def closeLoop : List OsFile → Option GoError × List OsFile
  | [] => (none, [])
  | f :: fs =>
    match f.Close with
    | (some e, f') => (some e, f' :: fs)
    | (none, f') => let (r, fs') := closeLoop fs; (r, f' :: fs')

/-- Go: `(*Multipart).Read(p)` for `len(p) = len`: the bytes stored in `p[:n]`,
the error, and the body afterwards. -/
def Multipart.Read (m : Multipart) (len : Nat) : (Bytes × Option GoError) × Multipart :=
  -- the named results `n`, `err` are zero and nil on entry
  let err : Option GoError := none
  if !m.closed then (([], some GoError.notReady), m)
  else if m.writingIdx ≥ m.fields.length then
    match closeLoop m.toClose with
    | (some _, files) => (([], err), { m with toClose := files })
    | (none, files) => (([], some GoError.EOF), { m with toClose := files })
  else
    match m.fields.get? m.writingIdx with
    | none => (([], err), m) -- not reached: the index is in range here
    | some e =>
      let ((out, err), e') := e.Read len
      let m := { m with fields := m.fields.set m.writingIdx e' }
      if err = some GoError.EOF then ((out, none), { m with writingIdx := m.writingIdx + 1 })
      else ((out, err), m)

/-! ## Sequences of calls -/

/-- The terminator source appended by `Done` for a boundary. -/
def terminator (boundary : Bytes) : Bytes :=
  rn ++ str "--" ++ boundary ++ str "--" ++ rn

/-- A call that appends a part from memory or from a caller-supplied reader. -/
inductive Op where
  /-- The call `AddField(name, value)`. -/
  | addField (name value : Bytes)
  /-- The call `AddBytesContentType(fieldName, fileName, contentType, data)`. -/
  | addBytesContentType (fieldName fileName contentType data : Bytes)
  /-- The call `AddFileContentType(fieldName, fileName, contentType, reader)`. -/
  | addFileContentType (fieldName fileName contentType : Bytes) (reader : ExtReader)
  deriving DecidableEq, Repr

/-- The effect of one appending call; `buf` is the block the random source yields
if the call generates the boundary. -/
def Op.apply (m : Multipart) (buf : Block) : Op → Multipart
  | Op.addField name value => m.AddField buf name value
  | Op.addBytesContentType f n c d => m.AddBytesContentType buf f n c d
  | Op.addFileContentType f n c r => m.AddFileContentType buf f n c r

/-- A body built from the zero value by a sequence of appending calls. -/
def build (calls : List (Block × Op)) : Multipart :=
  calls.foldl (fun m c => c.2.apply m c.1) Multipart.zero

/-- Every public operation of the package, as one call. -/
inductive Action where
  /-- The call `AddField`. -/
  | addField (name value : Bytes)
  /-- The call `AddBytes`. -/
  | addBytes (fieldName fileName data : Bytes)
  /-- The call `AddBytesContentType`. -/
  | addBytesContentType (fieldName fileName contentType data : Bytes)
  /-- The call `AddFile`. -/
  | addFile (fieldName fileName : Bytes) (reader : ExtReader)
  /-- The call `AddFileContentType`. -/
  | addFileContentType (fieldName fileName contentType : Bytes) (reader : ExtReader)
  /-- The call `AddFileFromDisk`, with the file system it meets. -/
  | addFileFromDisk (fs : FileSystem) (fieldName filePath : Bytes)
  /-- The call `AddFileFromDiskContentType`, with the file system it meets. -/
  | addFileFromDiskContentType (fs : FileSystem) (fieldName contentType filePath : Bytes)
  /-- The call `Done`. -/
  | done
  /-- The call `ContentTypeHeaderValue`. -/
  | contentTypeHeaderValue
  /-- The call `AttachToRequest`. -/
  | attachToRequest (r : Request)
  /-- The call `Read` with a buffer of the given length. -/
  | read (len : Nat)

/-- The body after one call of a public operation. -/
def Action.run (m : Multipart) (buf : Block) : Action → Multipart
  | Action.addField name value => m.AddField buf name value
  | Action.addBytes f n d => m.AddBytes buf f n d
  | Action.addBytesContentType f n c d => m.AddBytesContentType buf f n c d
  | Action.addFile f n r => m.AddFile buf f n r
  | Action.addFileContentType f n c r => m.AddFileContentType buf f n c r
  | Action.addFileFromDisk fs f p => (m.AddFileFromDisk fs buf f p).2
  | Action.addFileFromDiskContentType fs f c p => (m.AddFileFromDiskContentType fs buf f c p).2
  | Action.done => m.Done buf
  | Action.contentTypeHeaderValue => (m.ContentTypeHeaderValue buf).2
  | Action.attachToRequest r => (m.AttachToRequest buf r).1
  | Action.read len => (m.Read len).2

/-- The body after a sequence of calls, starting from `m`. -/
def runAll (m : Multipart) (acts : List (Block × Action)) : Multipart :=
  acts.foldl (fun m a => a.2.run m a.1) m

/-! ## Draining -/

/-- Calling `Read` with buffers of length `len` until it returns `io.EOF`, at most
`fuel` calls: the bytes returned, concatenated, and the body afterwards; `none`
when `io.EOF` did not come within `fuel` calls. -/
def readToEOF : Nat → Multipart → Nat → Option (Bytes × Multipart)
  | 0, _, _ => none
  | fuel + 1, m, len =>
    match m.Read len with
    | ((out, some GoError.EOF), m') => some (out, m')
    | ((out, _), m') =>
      match readToEOF fuel m' len with
      | some (rest, m'') => some (out ++ rest, m'')
      | none => none

/-- Calling `Read` on one source until it returns `io.EOF`, at most `fuel` calls:
the bytes returned, concatenated. -/
def Reader.drain : Nat → Reader → Nat → Option (Bytes)
  | 0, _, _ => none
  | fuel + 1, e, len =>
    match e.Read len with
    | ((out, some GoError.EOF), _) => some out
    | ((out, _), e') =>
      match Reader.drain fuel e' len with
      | some rest => some (out ++ rest)
      | none => none

/-- The bytes a caller-supplied reader delivers up to its first error. -/
def ExtReader.content : ExtReader → Bytes
  | [] => []
  | a :: rest =>
    match a.err with
    | none => a.data ++ ExtReader.content rest
    | some _ => a.data

/-- A caller-supplied reader is error-free when its first error, if any, is `io.EOF`. -/
def ExtReader.errorFree : ExtReader → Bool
  | [] => true
  | a :: rest =>
    match a.err with
    | none => ExtReader.errorFree rest
    | some e => decide (e = GoError.EOF)

/-- The bytes of a part as the specification frames them: the delimiter line, the
header block, a blank line, the payload. -/
def Op.framed (boundary : Bytes) : Op → Bytes
  | Op.addField name value =>
    rn ++ str "--" ++ boundary ++ rn ++ fieldHeader name ++ rn ++ rn ++ value
  | Op.addBytesContentType f n c d =>
    rn ++ str "--" ++ boundary ++ rn ++ fileHeader f n c ++ rn ++ rn ++ d
  | Op.addFileContentType f n c r =>
    rn ++ str "--" ++ boundary ++ rn ++ fileHeader f n c ++ rn ++ rn ++ r.content

/-- Whether the readers of a call are error-free. -/
def Op.errorFree : Op → Bool
  | Op.addFileContentType _ _ _ r => r.errorFree
  | _ => true

/-- The source a call appends to a body whose boundary is `boundary`. -/
def Op.source (boundary : Bytes) : Op → Reader
  | Op.addField name value =>
    Reader.bytesReader (bytes.NewReader
      (rn ++ str "--" ++ boundary ++ rn ++ fieldHeader name ++ rn ++ rn ++ value))
  | Op.addBytesContentType f n c d =>
    Reader.bytesReader (bytes.NewReader
      (rn ++ str "--" ++ boundary ++ rn ++ (fileHeader f n c ++ rn ++ rn) ++ d))
  | Op.addFileContentType f n c r =>
    Reader.multiReader
      [Leaf.bytesReader (bytes.NewReader
        (rn ++ str "--" ++ boundary ++ rn ++ (fileHeader f n c ++ rn ++ rn))),
       Leaf.external r]

/-- A byte sequence carries a boundary when it starts with `\r\n--<boundary>`. -/
def carries (boundary s : Bytes) : Prop := (rn ++ str "--" ++ boundary) <+: s

/-- Every in-memory block of a reader handed to `io.MultiReader` carries the boundary. -/
def Leaf.carries (boundary : Bytes) : Leaf → Prop
  | Leaf.bytesReader r => Multipartx.carries boundary r.s
  | Leaf.external _ => True

/-- Every in-memory block of a source carries the boundary. -/
def Reader.carries (boundary : Bytes) : Reader → Prop
  | Reader.bytesReader r => Multipartx.carries boundary r.s
  | Reader.multiReader ls => ∀ l ∈ ls, l.carries boundary

/-- A byte sequence is the in-memory block of a part when it starts with the
delimiter line `\r\n--<boundary>\r\n`. -/
def isPartBlock (boundary s : Bytes) : Prop := (rn ++ str "--" ++ boundary ++ rn) <+: s

/-- The in-memory block of a reader handed to `io.MultiReader`, if it has one, is
that of a part. -/
def Leaf.isPart (boundary : Bytes) : Leaf → Prop
  | Leaf.bytesReader r => isPartBlock boundary r.s
  | Leaf.external _ => True

/-- A source is that of a part: its in-memory blocks start with the delimiter line. -/
def Reader.isPart (boundary : Bytes) : Reader → Prop
  | Reader.bytesReader r => isPartBlock boundary r.s
  | Reader.multiReader ls => ∀ l ∈ ls, l.isPart boundary

/-- A source is the terminator of `Done`, read up to some index. -/
def Reader.isTerminator (boundary : Bytes) (e : Reader) : Prop :=
  ∃ i, e = Reader.bytesReader ⟨terminator boundary, i⟩

/-- The invariant of the sources of a body: without a boundary there is no source,
every source is a part of the boundary of the body, or, once `Done` has run, a
terminator of that boundary. -/
def SourcesInv (m : Multipart) : Prop :=
  (m.boundary = [] → m.fields = []) ∧
  ∀ e ∈ m.fields, e.isPart m.boundary ∨ (m.closed = true ∧ e.isTerminator m.boundary)

/-- The operations that generate the boundary of a body that has none. -/
def Action.generates : Action → Bool
  | Action.addField _ _ => true
  | Action.addBytesContentType _ _ _ _ => true
  | Action.addFileContentType _ _ _ _ => true
  | Action.done => true
  | Action.contentTypeHeaderValue => true
  | _ => false

/-- A file system in which no file can be opened. -/
def noFiles : FileSystem := fun _ => Except.error (GoError.other 2)

/-! ## What remains to be read -/

/-- The bytes a `*bytes.Reader` has not yet delivered. -/
def BytesReader.remaining (r : BytesReader) : Bytes := r.s.drop r.i

/-- The sum of the lengths of the answers of a caller-supplied reader, plus one
for each answer: a bound on the calls of `Read` that return no error. -/
def ExtReader.cost : ExtReader → Nat
  | [] => 0
  | a :: rest => a.data.length + 1 + ExtReader.cost rest

/-- The bytes a reader handed to `io.MultiReader` delivers up to its first error. -/
def Leaf.content : Leaf → Bytes
  | Leaf.bytesReader r => r.remaining
  | Leaf.external r => r.content

/-- Whether the first error of the reader is `io.EOF`. -/
def Leaf.errorFree : Leaf → Bool
  | Leaf.bytesReader _ => true
  | Leaf.external r => r.errorFree

/-- A bound on the calls of `Read` that return no error. -/
def Leaf.cost : Leaf → Nat
  | Leaf.bytesReader r => r.remaining.length
  | Leaf.external r => r.cost

/-- The bytes the remaining readers of an `io.MultiReader` deliver, in order. -/
def leavesContent : List Leaf → Bytes
  | [] => []
  | l :: ls => l.content ++ leavesContent ls

/-- Whether all remaining readers of an `io.MultiReader` are error-free. -/
def leavesErrorFree : List Leaf → Bool
  | [] => true
  | l :: ls => l.errorFree && leavesErrorFree ls

/-- A bound on the calls of `Read` on an `io.MultiReader` that return no error. -/
def leavesCost : List Leaf → Nat
  | [] => 0
  | l :: ls => l.cost + 1 + leavesCost ls

/-- The bytes a source delivers up to its first error. -/
def Reader.content : Reader → Bytes
  | Reader.bytesReader r => r.remaining
  | Reader.multiReader ls => leavesContent ls

/-- Whether the first error of a source is `io.EOF`. -/
def Reader.errorFree : Reader → Bool
  | Reader.bytesReader _ => true
  | Reader.multiReader ls => leavesErrorFree ls

/-- A bound on the calls of `Read` on a source that return no error. -/
def Reader.cost : Reader → Nat
  | Reader.bytesReader r => r.remaining.length
  | Reader.multiReader ls => leavesCost ls

/-- The bytes a list of sources delivers, in order. -/
def sourcesContent : List Reader → Bytes
  | [] => []
  | e :: es => e.content ++ sourcesContent es

/-- Whether all sources of a list are error-free. -/
def sourcesErrorFree : List Reader → Bool
  | [] => true
  | e :: es => e.errorFree && sourcesErrorFree es

/-- A bound on the calls of `Multipart.Read` needed to pass a list of sources. -/
def sourcesCost : List Reader → Nat
  | [] => 0
  | e :: es => e.cost + 1 + sourcesCost es

/-- The sources at and after the cursor. -/
def Multipart.ahead (m : Multipart) : List Reader := m.fields.drop m.writingIdx

/-- The outcome of one call of `Read` on an error-free reader, in terms of what
the reader had to deliver before (`content`, `cost`) and after (`content'`,
`cost'`): either `io.EOF` with the last bytes, or no error, the bytes delivered
being the next of the content, and a smaller bound on the calls left. -/
def StepSpec (content content' : Bytes) (errorFree' : Bool) (cost cost' : Nat)
    (out : Bytes) (err : Option GoError) : Prop :=
  (err = some GoError.EOF ∧ content = out) ∨
  (err = none ∧ content = out ++ content' ∧ errorFree' = true ∧ cost' < cost)

/-! ## A reference parser of `multipart/form-data`

The parser follows the words of the specification's round-trip property: the body
is split on the delimiter `\r\n--<boundary>`, the headers of a part run up to the
first blank line, and the name and the file name are the quoted parameters of the
`Content-Disposition` header. -/

/-- A part as a parser of `multipart/form-data` returns it. -/
inductive Part where
  /-- A plain field: its name and value. -/
  | field (name value : Bytes)
  /-- A file: its field name, file name, content type and content. -/
  | file (fieldName fileName contentType content : Bytes)
  deriving DecidableEq, Repr

/-- The part a call is expected to be parsed back to. -/
def Op.toPart : Op → Part
  | Op.addField name value => Part.field name value
  | Op.addBytesContentType f n c d => Part.file f n c d
  | Op.addFileContentType f n c r => Part.file f n c r.content

/-- The delimiter `\r\n--<boundary>`. -/
def delimiter (boundary : Bytes) : Bytes := rn ++ str "--" ++ boundary

/-- The first occurrence of `d` in a byte sequence: the bytes before it and the
bytes after it. -/
def findDelim (d : Bytes) : Bytes → Option (Bytes × Bytes)
  | [] => if d = [] then some ([], []) else none
  | c :: s =>
    if d.isPrefixOf (c :: s) then some ([], (c :: s).drop d.length)
    else
      match findDelim d s with
      | some (a, b) => some (c :: a, b)
      | none => none

/-- The pieces between the occurrences of `d`, found from left to right; `fuel`
bounds the number of occurrences looked for. -/
def splitAll (d : Bytes) : Nat → Bytes → List Bytes
  | 0, s => [s]
  | fuel + 1, s =>
    match findDelim d s with
    | none => [s]
    | some (a, b) => a :: splitAll d fuel b

/-- The bytes after a leading `p`, if the sequence starts with `p`. -/
def after (p s : Bytes) : Option Bytes :=
  if p.isPrefixOf s then some (s.drop p.length) else none

/-- A quoted parameter value: the bytes up to the closing quote, and the bytes
after that quote. -/
def quoted (s : Bytes) : Option (Bytes × Bytes) :=
  match s.dropWhile (fun c => c ≠ 34) with
  | [] => none
  | _ :: rest => some (s.takeWhile (fun c => c ≠ 34), rest)

/-- The header block of a part: a `Content-Disposition: form-data` header with a
quoted `name`, alone (a plain field, result `none` for the file data) or with a
quoted `filename` and followed by a `Content-Type` line (a file). -/
def parseHeaders (h : Bytes) : Option (Bytes × Option (Bytes × Bytes)) :=
  match after (str "Content-Disposition: form-data; name=\"") h with
  | none => none
  | some s1 =>
    match quoted s1 with
    | none => none
    | some (name, s2) =>
      if s2 = [] then some (name, none)
      else
        match after (str "; filename=\"") s2 with
        | none => none
        | some s3 =>
          match quoted s3 with
          | none => none
          | some (fileName, s4) =>
            match after (str "\r\nContent-Type: ") s4 with
            | none => none
            | some contentType => some (name, some (fileName, contentType))

/-- One piece between two delimiters: `\r\n`, the headers up to the first blank
line, the content. -/
def parsePart (piece : Bytes) : Option Part :=
  match after rn piece with
  | none => none
  | some s =>
    match findDelim (rn ++ rn) s with
    | none => none
    | some (headers, content) =>
      match parseHeaders headers with
      | none => none
      | some (name, none) => some (Part.field name content)
      | some (name, some (fileName, contentType)) =>
        some (Part.file name fileName contentType content)

/-- The pieces after the first delimiter: parts up to the piece that starts with
`--`, which closes the body. -/
def parsePieces : List Bytes → Option (List Part)
  | [] => none
  | p :: ps =>
    if (str "--").isPrefixOf p then some []
    else
      match parsePart p, parsePieces ps with
      | some part, some parts => some (part :: parts)
      | _, _ => none

/-- The reference parser: the parts of a body for a boundary, in order; `none`
when the body is not well-formed. -/
def parseBody (boundary body : Bytes) : Option (List Part) :=
  match splitAll (delimiter boundary) body.length body with
  | [] :: pieces => parsePieces pieces
  | _ => none

/-- The arguments of a call are safe for a boundary when they cannot be mistaken
for framing: no name or file name contains a double quote or a carriage return,
no field name contains a percent sign, no content type contains a carriage
return, and the payload neither contains the delimiter `\r\n--<boundary>` nor
starts with `--<boundary>`. -/
def Op.safe (boundary : Bytes) : Op → Prop
  | Op.addField name value =>
    34 ∉ name ∧ 13 ∉ name ∧ 37 ∉ name ∧ ¬ delimiter boundary <:+: rn ++ value
  | Op.addBytesContentType f n c d =>
    34 ∉ f ∧ 13 ∉ f ∧ 34 ∉ n ∧ 13 ∉ n ∧ 13 ∉ c ∧ ¬ delimiter boundary <:+: rn ++ d
  | Op.addFileContentType f n c r =>
    34 ∉ f ∧ 13 ∉ f ∧ 34 ∉ n ∧ 13 ∉ n ∧ 13 ∉ c ∧ ¬ delimiter boundary <:+: rn ++ r.content

/-- The bytes of a part between its delimiter and the next one: `\r\n`, the header
block, a blank line, the payload. -/
def Op.piece : Op → Bytes
  | Op.addField name value => rn ++ fieldHeader name ++ rn ++ rn ++ value
  | Op.addBytesContentType f n c d => rn ++ fileHeader f n c ++ rn ++ rn ++ d
  | Op.addFileContentType f n c r => rn ++ fileHeader f n c ++ rn ++ rn ++ r.content

instance Op.decidableSafe (boundary : Bytes) (op : Op) : Decidable (op.safe boundary) := by
  cases op <;> unfold Op.safe <;> infer_instance

/-! ## Sequences of reads and the release of files -/

/-- The body after a sequence of `Read` calls with buffers of the given lengths. -/
def readMany (m : Multipart) (lens : List Nat) : Multipart :=
  lens.foldl (fun m len => (m.Read len).2) m

/-- The errors returned by a sequence of `Read` calls, in the order of the calls. -/
def readErrs : Multipart → List Nat → List (Option GoError)
  | _, [] => []
  | m, len :: lens => (m.Read len).1.2 :: readErrs (m.Read len).2 lens

/-- A call of `Read` finds the body exhausted when `Done` has run and the cursor
is past the last source: the call then runs the loop over `m.toClose`. -/
def Multipart.exhausted (m : Multipart) : Bool :=
  m.closed && decide (m.writingIdx ≥ m.fields.length)

/-- The number of calls of a sequence of `Read` calls that find the body exhausted. -/
def exhaustedReads : Multipart → List Nat → Nat
  | _, [] => 0
  | m, len :: lens =>
    (if m.exhausted then 1 else 0) + exhaustedReads (m.Read len).2 lens

/-- The calls of `Close` made by the loop `for _, f := range m.toClose`, in the
order in which they are made: the position in the list of each handle closed,
counted from `i`.  The loop stops after the first call that fails. -/
def closeLoopCalls : Nat → List OsFile → List Nat
  | _, [] => []
  | i, f :: fs =>
    match f.Close with
    | (some _, _) => [i]
    | (none, _) => i :: closeLoopCalls (i + 1) fs

/-- The calls of `Close` made by one call of `Read`: those of the loop when the
body is exhausted, none otherwise. -/
def Multipart.ReadCloses (m : Multipart) : List Nat :=
  if m.exhausted then closeLoopCalls 0 m.toClose else []

/-- A handle after one more call of `Close`. -/
def OsFile.closedOnce (f : OsFile) : OsFile := { f with closeCalls := f.closeCalls + 1 }

/-- What identifies a handle whatever the number of calls of `Close` made on it. -/
def OsFile.handle (f : OsFile) : ExtReader × Option GoError := (f.reader, f.closeErr)

/-- The file a call opens and registers: the result of a successful `os.Open` in
`AddFileFromDisk` or `AddFileFromDiskContentType`. -/
def Action.opened : Action → Option OsFile
  | Action.addFileFromDisk fs _ p =>
    match fs p with
    | Except.ok f => some f
    | Except.error _ => none
  | Action.addFileFromDiskContentType fs _ _ p =>
    match fs p with
    | Except.ok f => some f
    | Except.error _ => none
  | _ => none

/-- The files registered by a sequence of calls, in the order of registration. -/
def registered (acts : List (Block × Action)) : List OsFile :=
  acts.filterMap (fun a => a.2.opened)

/-- Whether a call is a call of `Read`. -/
def Action.isRead : Action → Bool
  | Action.read _ => true
  | _ => false

/-- A file system in which every path opens a file with the given answers to
`Read` and the given result of `Close`. -/
def oneFile (reader : ExtReader) (closeErr : Option GoError) : FileSystem :=
  fun _ => Except.ok { reader := reader, closeErr := closeErr, closeCalls := 0 }

/-- The body after a sequence of appending calls, starting from `m`. -/
def applyAll (m : Multipart) (calls : List (Block × Op)) : Multipart :=
  calls.foldl (fun m c => c.2.apply m c.1) m

/-- The index of the source a call of `Read` forwards to: `m.writingIdx` when the
call reaches `e := m.fields[m.writingIdx]`, none when it returns before. -/
def Multipart.ReadSource (m : Multipart) : Option Nat :=
  if !m.closed then none
  else if m.writingIdx ≥ m.fields.length then none
  else some m.writingIdx

/-- The indices of the sources read by a sequence of calls, in the order of the
reads: only `Read` reads a source. -/
def readTrace : Multipart → List (Block × Action) → List Nat
  | _, [] => []
  | m, a :: acts =>
    (match a.2 with
      | Action.read _ => m.ReadSource.toList
      | _ => []) ++ readTrace (a.2.run m a.1) acts

/-- A caller-supplied reader reports the end of its stream without bytes when no
answer carries bytes together with `io.EOF` (as for an `*os.File`). -/
def ExtReader.plainEOF (r : ExtReader) : Bool :=
  r.all (fun a => decide (a.err = some GoError.EOF → a.data = []))

/-- A reader handed to `io.MultiReader` reports the end of its stream without
bytes: a `*bytes.Reader` always does. -/
def Leaf.plainEOF : Leaf → Bool
  | Leaf.bytesReader _ => true
  | Leaf.external r => r.plainEOF

/-- Every reader of a source reports the end of its stream without bytes. -/
def Reader.plainEOF : Reader → Bool
  | Reader.bytesReader _ => true
  | Reader.multiReader ls => ls.all Leaf.plainEOF

/-- The lowercase hexadecimal digit of a value below 16, as the specification
describes the token: `0`..`9`, then `a`..`f`. -/
def hexChar (d : Nat) : Nat := if d < 10 then 48 + d else 97 + (d - 10)

/-- A block of thirty zero bytes. -/
def zeroBlock : Block := ⟨List.replicate 30 0, by decide, by decide⟩

/-! ## Basic facts -/

theorem ldigits_getD (k : Nat) (h : k < 16) : ldigits.getD k 0 = hexChar k := by
  interval_cases k <;> rfl

theorem fmtSbx_length (l : Bytes) : (fmtSbx l).length = 2 * l.length := by
  induction l with
  | nil => rfl
  | cons c s ih => simp [fmtSbx, ih]; omega

theorem fmtSbx_eq_bind (l : Bytes) (h : ∀ b ∈ l, b < 256) :
    fmtSbx l = l.flatMap (fun b => [hexChar (b / 16), hexChar (b % 16)]) := by
  induction l with
  | nil => rfl
  | cons c s ih =>
    have hc : c < 256 := h c (List.mem_cons_self _ _)
    have hs : ∀ b ∈ s, b < 256 := fun b hb => h b (List.mem_cons_of_mem _ hb)
    simp only [fmtSbx, List.flatMap_cons, List.cons_append, List.nil_append, ih hs]
    rw [ldigits_getD (c / 16) (by omega), ldigits_getD (c % 16) (by omega)]

theorem hexChar_range (d : Nat) (h : d < 16) :
    (48 ≤ hexChar d ∧ hexChar d ≤ 57) ∨ (97 ≤ hexChar d ∧ hexChar d ≤ 102) := by
  unfold hexChar
  split <;> omega

theorem randomBoundary_length (buf : Block) : (randomBoundary buf).length = 60 := by
  simp [randomBoundary, fmtSbx_length, buf.length_eq]

theorem randomBoundary_digits (buf : Block) :
    ∀ c ∈ randomBoundary buf, (48 ≤ c ∧ c ≤ 57) ∨ (97 ≤ c ∧ c ≤ 102) := by
  intro c hc
  rw [randomBoundary, fmtSbx_eq_bind _ buf.byte_lt] at hc
  simp only [List.mem_flatMap, List.mem_cons, List.mem_singleton, List.not_mem_nil, or_false] at hc
  obtain ⟨b, hb, h | h⟩ := hc
  · have := buf.byte_lt b hb
    rw [h]; exact hexChar_range _ (by omega)
  · rw [h]; exact hexChar_range _ (by omega)

theorem randomBoundary_ne_nil (buf : Block) : randomBoundary buf ≠ [] := by
  intro h
  have := randomBoundary_length buf
  rw [h] at this
  simp at this

theorem ensureBoundary_boundary_ne_nil (m : Multipart) (buf : Block) :
    (m.ensureBoundary buf).boundary ≠ [] := by
  unfold Multipart.ensureBoundary
  split
  · exact randomBoundary_ne_nil buf
  · assumption

theorem ensureBoundary_of_ne_nil (m : Multipart) (buf : Block) (h : m.boundary ≠ []) :
    m.ensureBoundary buf = m := by
  simp [Multipart.ensureBoundary, h]

theorem ensureBoundary_of_nil (m : Multipart) (buf : Block) (h : m.boundary = []) :
    m.ensureBoundary buf = { m with boundary := randomBoundary buf } := by
  simp [Multipart.ensureBoundary, h]

@[simp] theorem ensureBoundary_fields (m : Multipart) (buf : Block) :
    (m.ensureBoundary buf).fields = m.fields := by
  unfold Multipart.ensureBoundary; split <;> rfl

@[simp] theorem ensureBoundary_closed (m : Multipart) (buf : Block) :
    (m.ensureBoundary buf).closed = m.closed := by
  unfold Multipart.ensureBoundary; split <;> rfl

@[simp] theorem ensureBoundary_writingIdx (m : Multipart) (buf : Block) :
    (m.ensureBoundary buf).writingIdx = m.writingIdx := by
  unfold Multipart.ensureBoundary; split <;> rfl

@[simp] theorem ensureBoundary_toClose (m : Multipart) (buf : Block) :
    (m.ensureBoundary buf).toClose = m.toClose := by
  unfold Multipart.ensureBoundary; split <;> rfl

theorem ensureBoundary_idem (m : Multipart) (b1 b2 : Block) :
    (m.ensureBoundary b1).ensureBoundary b2 = m.ensureBoundary b1 :=
  ensureBoundary_of_ne_nil _ _ (ensureBoundary_boundary_ne_nil m b1)

/-! ## `fmt.Sprintf` reaches the end of its format -/

theorem skipFlags_length_le (s : Bytes) : (skipFlags s).length ≤ s.length := by
  induction s with
  | nil => simp [skipFlags]
  | cons c s ih =>
    unfold skipFlags
    split
    · exact Nat.le_succ_of_le ih
    · exact Nat.le_refl _

theorem parsenumLoop_length_le (num : Nat) (isnum : Bool) (s : Bytes) :
    (parsenumLoop num isnum s).2.2.length ≤ s.length := by
  induction s generalizing num isnum with
  | nil => simp [parsenumLoop]
  | cons c s ih =>
    unfold parsenumLoop
    split
    · split
      · simp
      · exact Nat.le_succ_of_le (ih _ _)
    · exact Nat.le_refl _

theorem argNumber_length_le (good : Bool) (s : Bytes) :
    (argNumber good s).1.1.length ≤ s.length := by
  unfold argNumber
  split
  · simp only
    split <;> simp
  · exact Nat.le_refl _

theorem width_length_le (s : Bytes) (afterIndex good : Bool) :
    (width s afterIndex good).2.1.length ≤ s.length := by
  unfold width
  split
  · simp
  · exact parsenumLoop_length_le 0 false s

theorem precision_length_le (s : Bytes) (afterIndex good : Bool) :
    (precision s afterIndex good).2.1.length ≤ s.length := by
  unfold precision
  split
  · rename_i s'
    have h1 := argNumber_length_le (good && !afterIndex) s'
    rcases hq : argNumber (good && !afterIndex) s' with ⟨⟨s'', ai⟩, g⟩
    rw [hq] at h1
    simp only at h1 ⊢
    split
    · simp only [List.length_cons] at h1 ⊢; omega
    · exact Nat.le_trans (parsenumLoop_length_le 0 false s'')
        (Nat.le_trans h1 (Nat.le_succ _))
  · exact Nat.le_refl _

theorem decodeVerb_length_lt (c : Nat) (s : Bytes) :
    (decodeVerb (c :: s)).2.length < (c :: s).length := by
  simp only [decodeVerb]
  split
  · simp
  · cases first c with
    | none => simp
    | some v =>
      obtain ⟨sz, lo, hi⟩ := v
      simp only
      repeat' split
      all_goals simp only [List.length_drop, List.length_cons]; omega

theorem directive_length_lt (s0 out s6 : Bytes) (h : directive s0 = (out, some s6)) :
    s6.length < s0.length + 1 := by
  unfold directive at h
  simp only at h
  have h1 := skipFlags_length_le s0
  have h2 := argNumber_length_le true (skipFlags s0)
  rcases hq2 : argNumber true (skipFlags s0) with ⟨⟨s2, ai2⟩, g2⟩
  rw [hq2] at h h2
  have h3 := width_length_le s2 ai2 g2
  rcases hq3 : width s2 ai2 g2 with ⟨out3, s3, ai3, g3⟩
  rw [hq3] at h h3
  have h4 := precision_length_le s3 ai3 g3
  rcases hq4 : precision s3 ai3 g3 with ⟨out4, s4, ai4, g4⟩
  rw [hq4] at h h4
  simp only at h h2 h3 h4
  have h5 : (if (!ai4) = true then argNumber g4 s4 else ((s4, ai4), g4)).1.1.length ≤ s4.length := by
    split
    · exact argNumber_length_le g4 s4
    · exact Nat.le_refl _
  rcases hq5 : (if (!ai4) = true then argNumber g4 s4 else ((s4, ai4), g4)) with ⟨⟨s5, ai5⟩, g5⟩
  rw [hq5] at h h5
  simp only at h h5
  cases s5 with
  | nil => simp at h
  | cons c s5 =>
    have h6 := decodeVerb_length_lt c s5
    rcases hq6 : decodeVerb (c :: s5) with ⟨verb, s6'⟩
    rw [hq6] at h h6
    simp only [Prod.mk.injEq, Option.some.injEq] at h h6
    rw [← h.2]
    omega

theorem dropWhile_length_le (format : Bytes) (p : Nat → Bool) :
    (format.dropWhile p).length ≤ format.length := by
  induction format with
  | nil => simp
  | cons c s ih =>
    rw [List.dropWhile_cons]
    split
    · exact Nat.le_succ_of_le ih
    · exact Nat.le_refl _

/-- The loop of `doPrintf` ends: any fuel above the length of the format gives the
same result. -/
theorem doPrintf_fuel (fuel1 fuel2 : Nat) (format : Bytes) (h1 : format.length < fuel1)
    (h2 : format.length < fuel2) : doPrintf fuel1 format = doPrintf fuel2 format := by
  induction fuel1 generalizing fuel2 format with
  | zero => omega
  | succ fuel1 ih =>
    cases fuel2 with
    | zero => omega
    | succ fuel2 =>
      unfold doPrintf
      simp only
      have hd := dropWhile_length_le format (fun c => decide (c ≠ 37))
      rcases hq : format.dropWhile (fun c => decide (c ≠ 37)) with _ | ⟨c, s0⟩
      · rfl
      · rw [hq] at hd
        simp only
        rcases hdir : directive s0 with ⟨out, _ | s6⟩
        · rfl
        · have := directive_length_lt s0 out s6 hdir
          simp only [List.length_cons] at hd
          simp only
          rw [ih fuel2 s6 (by omega) (by omega)]

/-- The fuel `Sprintf` gives the loop is enough: more fuel gives the same string. -/
theorem Sprintf_fuel (format : Bytes) (fuel : Nat) (h : format.length < fuel) :
    doPrintf fuel format = Sprintf format :=
  doPrintf_fuel fuel (format.length + 1) format h (Nat.lt_succ_self _)

/-! ## Reading before `Done` -/

/-- C3: on a body that is not finalized (`closed = false`), `Read` with a buffer
of any length returns no bytes and a non-nil error different from `io.EOF`, and
the body is unchanged. -/
theorem Read_before_Done (m : Multipart) (len : Nat) (h : m.closed = false) :
    (m.Read len).1.1 = [] ∧
    (∃ e, (m.Read len).1.2 = some e ∧ e ≠ GoError.EOF) ∧
    (m.Read len).2 = m := by
  simp [Multipart.Read, h]

theorem Read_before_Done_witness :
    Multipart.zero.closed = false ∧
    ((Multipart.zero.Read 8).1.1 = [] ∧
      (∃ e, (Multipart.zero.Read 8).1.2 = some e ∧ e ≠ GoError.EOF) ∧
      (Multipart.zero.Read 8).2 = Multipart.zero) :=
  ⟨rfl, Read_before_Done Multipart.zero 8 rfl⟩

/-! ## The boundary token -/

/-- C8: for every 30-byte block read from the random source, `randomBoundary`
returns 60 characters, each a lowercase hexadecimal digit, the two-digit
hexadecimal encoding of the block byte by byte. -/
theorem randomBoundary_hex (buf : Block) :
    (randomBoundary buf).length = 60 ∧
    (∀ c ∈ randomBoundary buf, (48 ≤ c ∧ c ≤ 57) ∨ (97 ≤ c ∧ c ≤ 102)) ∧
    randomBoundary buf = buf.bytes.flatMap (fun b => [hexChar (b / 16), hexChar (b % 16)]) := by
  exact ⟨randomBoundary_length buf, randomBoundary_digits buf, fmtSbx_eq_bind _ buf.byte_lt⟩

/-! ## `Done` -/

theorem Done_closed (m : Multipart) (buf : Block) : (m.Done buf).closed = true := by
  unfold Multipart.Done
  cases h : m.closed <;> simp [h]

theorem Done_of_closed (m : Multipart) (buf : Block) (h : m.closed = true) :
    m.Done buf = m.ensureBoundary buf := by
  simp [Multipart.Done, h]

theorem Done_boundary (m : Multipart) (buf : Block) :
    (m.Done buf).boundary = (m.ensureBoundary buf).boundary := by
  unfold Multipart.Done
  cases h : m.closed <;> simp [h]

theorem Done_boundary_ne_nil (m : Multipart) (buf : Block) : (m.Done buf).boundary ≠ [] := by
  rw [Done_boundary]; exact ensureBoundary_boundary_ne_nil m buf

theorem Done_Done (m : Multipart) (b1 b2 : Block) : (m.Done b1).Done b2 = m.Done b1 := by
  rw [Done_of_closed _ _ (Done_closed m b1)]
  exact ensureBoundary_of_ne_nil _ _ (Done_boundary_ne_nil m b1)

theorem foldl_Done (m : Multipart) (b : Block) (bs : List Block) :
    (b :: bs).foldl Multipart.Done m = m.Done b := by
  induction bs using List.reverseRecOn with
  | nil => rfl
  | append_singleton bs b' ih =>
    rw [← List.cons_append, List.foldl_append, ih]
    simp [Done_Done]

theorem Done_fields_of_not_closed (m : Multipart) (buf : Block) (h : m.closed = false) :
    (m.Done buf).fields =
      m.fields ++ [Reader.bytesReader (bytes.NewReader (terminator (m.Done buf).boundary))] := by
  rw [Done_boundary]
  simp [Multipart.Done, h, terminator]

/-! ## Appending calls -/

theorem Op.apply_fields (op : Op) (m : Multipart) (buf : Block) :
    (op.apply m buf).fields = m.fields ++ [op.source (m.ensureBoundary buf).boundary] := by
  cases op <;>
    simp [Op.apply, Op.source, Multipart.AddField, Multipart.AddBytesContentType,
      Multipart.AddFileContentType]

theorem Op.apply_boundary (op : Op) (m : Multipart) (buf : Block) :
    (op.apply m buf).boundary = (m.ensureBoundary buf).boundary := by
  cases op <;> rfl

theorem Op.apply_closed (op : Op) (m : Multipart) (buf : Block) :
    (op.apply m buf).closed = m.closed := by
  cases op <;>
    simp [Op.apply, Multipart.AddField, Multipart.AddBytesContentType,
      Multipart.AddFileContentType]

theorem Op.apply_writingIdx (op : Op) (m : Multipart) (buf : Block) :
    (op.apply m buf).writingIdx = m.writingIdx := by
  cases op <;>
    simp [Op.apply, Multipart.AddField, Multipart.AddBytesContentType,
      Multipart.AddFileContentType]

theorem Op.apply_toClose (op : Op) (m : Multipart) (buf : Block) :
    (op.apply m buf).toClose = m.toClose := by
  cases op <;>
    simp [Op.apply, Multipart.AddField, Multipart.AddBytesContentType,
      Multipart.AddFileContentType]

theorem build_append (calls : List (Block × Op)) (c : Block × Op) :
    build (calls ++ [c]) = c.2.apply (build calls) c.1 := by
  simp [build, List.foldl_append]

/-- The state of a body built from the zero value: one source per call, in the
order of the calls, all with the boundary of the body. -/
theorem build_state (calls : List (Block × Op)) :
    (build calls).fields = calls.map (fun c => c.2.source (build calls).boundary) ∧
    (build calls).closed = false ∧ (build calls).writingIdx = 0 ∧
    (build calls).toClose = [] ∧ (calls = [] → (build calls).boundary = []) ∧
    (calls ≠ [] → (build calls).boundary ≠ []) := by
  induction calls using List.reverseRecOn with
  | nil => simp [build, Multipart.zero]
  | append_singleton calls c ih =>
    obtain ⟨hf, hc, hw, ht, hnil, hne⟩ := ih
    rw [build_append]
    refine ⟨?_, ?_, ?_, ?_, ?_, ?_⟩
    · rw [Op.apply_fields, Op.apply_boundary, List.map_append, List.map_singleton]
      congr 1
      by_cases hcalls : calls = []
      · subst hcalls; simp [build, Multipart.zero]
      · rw [ensureBoundary_of_ne_nil _ _ (hne hcalls)]; exact hf
    · rw [Op.apply_closed]; exact hc
    · rw [Op.apply_writingIdx]; exact hw
    · rw [Op.apply_toClose]; exact ht
    · intro h; simp at h
    · intro _; rw [Op.apply_boundary]; exact ensureBoundary_boundary_ne_nil _ _

theorem rn_eq : rn = [13, 10] := rfl
theorem str_dashes : str "--" = [45, 45] := rfl

theorem Op.source_ne_terminator (boundary : Bytes) (op : Op) :
    op.source boundary ≠ Reader.bytesReader (bytes.NewReader (terminator boundary)) := by
  cases op <;> simp [Op.source, bytes.NewReader, terminator, rn_eq, str_dashes]

/-! ## The invariant of the sources -/

theorem BytesReader.Read_s (r : BytesReader) (len : Nat) : (r.Read len).2.s = r.s := by
  unfold BytesReader.Read; split <;> rfl

theorem leaf_Read_isPart (boundary : Bytes) (l : Leaf) (len : Nat) (h : l.isPart boundary) :
    (l.Read len).2.isPart boundary := by
  cases l with
  | bytesReader r =>
    simp only [Leaf.Read, Leaf.isPart] at h ⊢
    rw [BytesReader.Read_s]; exact h
  | external r => simp [Leaf.Read, Leaf.isPart]

theorem multiReaderRead_isPart (boundary : Bytes) (len : Nat) (ls : List Leaf)
    (h : ∀ l ∈ ls, l.isPart boundary) :
    ∀ l ∈ (multiReaderRead ls len).2, l.isPart boundary := by
  induction ls with
  | nil => simp [multiReaderRead]
  | cons r rest ih =>
    have hr : r.isPart boundary := h r (List.mem_cons_self _ _)
    have hrest : ∀ l ∈ rest, l.isPart boundary := fun l hl => h l (List.mem_cons_of_mem _ hl)
    have hr' := leaf_Read_isPart boundary r len hr
    unfold multiReaderRead
    rcases hread : r.Read len with ⟨⟨out, err⟩, r'⟩
    rw [hread] at hr'
    simp only
    split
    · split
      · exact hrest
      · intro l hl
        rcases List.mem_cons.mp hl with h1 | h1
        · rw [h1]; exact hr'
        · exact hrest l h1
    · exact ih hrest

theorem reader_Read_isPart (boundary : Bytes) (e : Reader) (len : Nat)
    (h : e.isPart boundary) : (e.Read len).2.isPart boundary := by
  cases e with
  | bytesReader r =>
    simp only [Reader.Read, Reader.isPart] at h ⊢
    rw [BytesReader.Read_s]; exact h
  | multiReader ls =>
    simp only [Reader.Read, Reader.isPart] at h ⊢
    exact multiReaderRead_isPart boundary len ls h

theorem reader_Read_isTerminator (boundary : Bytes) (e : Reader) (len : Nat)
    (h : e.isTerminator boundary) : (e.Read len).2.isTerminator boundary := by
  obtain ⟨i, rfl⟩ := h
  refine ⟨((⟨terminator boundary, i⟩ : BytesReader).Read len).2.i, ?_⟩
  have := BytesReader.Read_s ⟨terminator boundary, i⟩ len
  simp only [Reader.Read]
  rcases hr : (⟨terminator boundary, i⟩ : BytesReader).Read len with ⟨res, ⟨s', i'⟩⟩
  rw [hr] at this
  simp at this
  simp [this]

theorem SourcesInv.zero : SourcesInv Multipart.zero := by
  simp [SourcesInv, Multipart.zero]

theorem SourcesInv.ensureBoundary {m : Multipart} (h : SourcesInv m) (buf : Block) :
    SourcesInv (m.ensureBoundary buf) := by
  by_cases hb : m.boundary = []
  · rw [ensureBoundary_of_nil _ _ hb]
    have hf := h.1 hb
    exact ⟨fun _ => hf, by simp [hf]⟩
  · rw [ensureBoundary_of_ne_nil _ _ hb]; exact h

theorem SourcesInv.append {m : Multipart} (h : SourcesInv m) (e : Reader)
    (hb : m.boundary ≠ []) (he : e.isPart m.boundary) :
    SourcesInv { m with fields := m.fields ++ [e] } := by
  refine ⟨fun h' => absurd h' hb, ?_⟩
  intro e' he'
  simp only [List.mem_append, List.mem_singleton] at he'
  rcases he' with h1 | h1
  · exact h.2 e' h1
  · left; rw [h1]; exact he

theorem SourcesInv.toClose {m : Multipart} (h : SourcesInv m) (files : List OsFile) :
    SourcesInv { m with toClose := files } := h

theorem isPartBlock_append (boundary rest : Bytes) :
    isPartBlock boundary (rn ++ str "--" ++ boundary ++ rn ++ rest) :=
  List.prefix_append _ _

theorem Op.source_isPart (boundary : Bytes) (op : Op) : (op.source boundary).isPart boundary := by
  cases op with
  | addField n v =>
    simp only [Op.source, Reader.isPart, bytes.NewReader, List.append_assoc]
    simpa using isPartBlock_append boundary _
  | addBytesContentType f n c d =>
    simp only [Op.source, Reader.isPart, bytes.NewReader, List.append_assoc]
    simpa using isPartBlock_append boundary _
  | addFileContentType f n c r =>
    simp only [Op.source, Reader.isPart, bytes.NewReader, List.append_assoc]
    intro l hl
    simp only [List.mem_cons, List.mem_singleton, List.not_mem_nil, or_false] at hl
    rcases hl with h | h
    · rw [h]; simpa [Leaf.isPart] using isPartBlock_append boundary _
    · rw [h]; trivial

theorem Op.apply_eq (op : Op) (m : Multipart) (buf : Block) :
    op.apply m buf =
      { m.ensureBoundary buf with
        fields := (m.ensureBoundary buf).fields ++ [op.source (m.ensureBoundary buf).boundary] } := by
  cases op <;> rfl

theorem SourcesInv.apply {m : Multipart} (h : SourcesInv m) (op : Op) (buf : Block) :
    SourcesInv (op.apply m buf) := by
  rw [Op.apply_eq]
  exact (h.ensureBoundary buf).append _ (ensureBoundary_boundary_ne_nil m buf)
    (Op.source_isPart _ op)

theorem SourcesInv.Done {m : Multipart} (h : SourcesInv m) (buf : Block) :
    SourcesInv (m.Done buf) := by
  have h' := h.ensureBoundary buf
  have hb := ensureBoundary_boundary_ne_nil m buf
  unfold Multipart.Done
  cases hc : m.closed
  · simp only [ensureBoundary_closed, hc, Bool.not_false, if_true]
    refine ⟨fun hh => absurd hh hb, ?_⟩
    intro e he
    simp only [List.mem_append, List.mem_singleton] at he
    rcases he with h1 | h1
    · rcases h'.2 e h1 with h2 | h2
      · exact Or.inl h2
      · exact Or.inr ⟨rfl, h2.2⟩
    · exact Or.inr ⟨rfl, 0, by rw [h1]; rfl⟩
  · simpa [hc] using h'

theorem SourcesInv.Read {m : Multipart} (h : SourcesInv m) (len : Nat) :
    SourcesInv (m.Read len).2 := by
  unfold Multipart.Read
  simp only
  split
  · exact h
  · split
    · split <;> exact h
    · split
      · exact h
      · rename_i e he
        have hmem : e ∈ m.fields := List.get?_mem he
        have key : ∀ e' ∈ m.fields.set m.writingIdx (e.Read len).2,
            e'.isPart m.boundary ∨ (m.closed = true ∧ e'.isTerminator m.boundary) := by
          intro e' he'
          rcases List.mem_or_eq_of_mem_set he' with h1 | h1
          · exact h.2 e' h1
          · rcases h.2 e hmem with h2 | h2
            · left; rw [h1]; exact reader_Read_isPart _ _ _ h2
            · right; rw [h1]; exact ⟨h2.1, reader_Read_isTerminator _ _ _ h2.2⟩
        have hnil : m.boundary = [] → m.fields.set m.writingIdx (e.Read len).2 = [] := by
          intro hb; simp [h.1 hb]
        rcases hread : e.Read len with ⟨⟨out, err⟩, e'⟩
        rw [hread] at key hnil
        simp only
        split <;> exact ⟨hnil, key⟩

theorem SourcesInv.run {m : Multipart} (h : SourcesInv m) (a : Action) (buf : Block) :
    SourcesInv (a.run m buf) := by
  cases a with
  | addField n v => exact h.apply (Op.addField n v) buf
  | addBytes f n d => exact h.apply (Op.addBytesContentType f n octetType d) buf
  | addBytesContentType f n c d => exact h.apply (Op.addBytesContentType f n c d) buf
  | addFile f n r => exact h.apply (Op.addFileContentType f n octetType r) buf
  | addFileContentType f n c r => exact h.apply (Op.addFileContentType f n c r) buf
  | addFileFromDisk fs f p =>
    simp only [Action.run, Multipart.AddFileFromDisk, Multipart.AddFileFromDiskContentType]
    split
    · exact h
    · rename_i file _
      exact (h.toClose (m.toClose ++ [file])).apply
        (Op.addFileContentType f (filepath.Base p) octetType file.reader) buf
  | addFileFromDiskContentType fs f c p =>
    simp only [Action.run, Multipart.AddFileFromDiskContentType]
    split
    · exact h
    · rename_i file _
      exact (h.toClose (m.toClose ++ [file])).apply
        (Op.addFileContentType f (filepath.Base p) c file.reader) buf
  | done => exact h.Done buf
  | contentTypeHeaderValue => exact h.ensureBoundary buf
  | attachToRequest r => exact (h.Done buf).ensureBoundary buf
  | read len => exact h.Read len

theorem SourcesInv.runAll {m : Multipart} (h : SourcesInv m) (acts : List (Block × Action)) :
    SourcesInv (runAll m acts) := by
  induction acts generalizing m with
  | nil => exact h
  | cons a acts ih => exact ih (h.run a.2 a.1)

/-! ## `Done` is idempotent -/

theorem not_isPartBlock_terminator (boundary : Bytes) :
    ¬ isPartBlock boundary (terminator boundary) := by
  unfold isPartBlock terminator
  rw [List.append_assoc (rn ++ str "--" ++ boundary), List.prefix_append_right_inj]
  decide

theorem Reader.isPart_ne_terminator (boundary : Bytes) (e : Reader) (h : e.isPart boundary) :
    e ≠ Reader.bytesReader (bytes.NewReader (terminator boundary)) := by
  intro he
  rw [he] at h
  exact not_isPartBlock_terminator boundary h

/-- C4: `Done` is idempotent.  A second `Done`, and the `Done` inside
`AttachToRequest`, leave a finalized body as it is; on a body that was not
finalized, one or more calls of `Done` append exactly one source, the terminator
`\r\n--<boundary>--\r\n`, after the sources present; and in a body reached from
the zero value and not yet finalized, the terminator then occurs exactly once
among the sources. -/
theorem Done_idempotent (m : Multipart) (b b' : Block) (bs : List Block) (r : Request)
    (acts : List (Block × Action)) :
    (m.Done b).Done b' = m.Done b ∧
    ((m.Done b).AttachToRequest b' r).1 = m.Done b ∧
    (m.closed = false →
      ((b :: bs).foldl Multipart.Done m).fields =
        m.fields ++ [Reader.bytesReader (bytes.NewReader
          (terminator ((b :: bs).foldl Multipart.Done m).boundary))]) ∧
    ((runAll Multipart.zero acts).closed = false →
      ((b :: bs).foldl Multipart.Done (runAll Multipart.zero acts)).fields.count
        (Reader.bytesReader (bytes.NewReader
          (terminator ((b :: bs).foldl Multipart.Done (runAll Multipart.zero acts)).boundary)))
        = 1) := by
  refine ⟨Done_Done m b b', ?_, ?_, ?_⟩
  · simp only [Multipart.AttachToRequest, Multipart.ContentTypeHeaderValue]
    rw [Done_Done]
    exact ensureBoundary_of_ne_nil _ _ (Done_boundary_ne_nil m b)
  · intro h
    rw [foldl_Done]
    exact Done_fields_of_not_closed m b h
  · intro h
    have hinv : SourcesInv (runAll Multipart.zero acts) := SourcesInv.zero.runAll acts
    generalize runAll Multipart.zero acts = m0 at h hinv
    rw [foldl_Done, Done_fields_of_not_closed m0 b h, List.count_append,
      List.count_singleton_self, Done_boundary]
    have : List.count (Reader.bytesReader (bytes.NewReader
        (terminator (m0.ensureBoundary b).boundary))) m0.fields = 0 := by
      rw [List.count_eq_zero]
      intro hmem
      by_cases hb : m0.boundary = []
      · rw [hinv.1 hb] at hmem; simp at hmem
      · rw [ensureBoundary_of_ne_nil _ _ hb] at hmem
        rcases hinv.2 _ hmem with h1 | h1
        · exact Reader.isPart_ne_terminator _ _ h1 rfl
        · rw [h] at h1; simp at h1
    rw [this]

theorem Done_idempotent_witness :
    Multipart.zero.closed = false ∧
    (runAll Multipart.zero [(zeroBlock, Action.addField (str "a") (str "b"))]).closed = false ∧
    ([zeroBlock, zeroBlock].foldl Multipart.Done Multipart.zero).fields =
      Multipart.zero.fields ++ [Reader.bytesReader (bytes.NewReader
        (terminator ([zeroBlock, zeroBlock].foldl Multipart.Done Multipart.zero).boundary))] ∧
    ([zeroBlock, zeroBlock].foldl Multipart.Done
        (runAll Multipart.zero [(zeroBlock, Action.addField (str "a") (str "b"))])).fields.count
      (Reader.bytesReader (bytes.NewReader
        (terminator ([zeroBlock, zeroBlock].foldl Multipart.Done
          (runAll Multipart.zero
            [(zeroBlock, Action.addField (str "a") (str "b"))])).boundary))) = 1 :=
  ⟨rfl, rfl,
   (Done_idempotent Multipart.zero zeroBlock zeroBlock [zeroBlock] ⟨none, [], false⟩
      [(zeroBlock, Action.addField (str "a") (str "b"))]).2.2.1 rfl,
   (Done_idempotent Multipart.zero zeroBlock zeroBlock [zeroBlock] ⟨none, [], false⟩
      [(zeroBlock, Action.addField (str "a") (str "b"))]).2.2.2 rfl⟩

/-! ## The bytes of a part -/

/-- C6: `AddBytesContentType` appends one in-memory source whose bytes are the
delimiter line `\r\n--<boundary>\r\n`, the header
`Content-Disposition: form-data; name="<fieldName>"; filename="<fileName>"`, `\r\n`,
`Content-Type: <contentType>`, `\r\n\r\n` and the data, the three strings and the
data embedded unchanged. -/
theorem AddBytesContentType_bytes (m : Multipart) (buf : Block)
    (fieldName fileName contentType data : Bytes) :
    (m.AddBytesContentType buf fieldName fileName contentType data).fields =
      m.fields ++ [Reader.bytesReader (bytes.NewReader
        (str "\r\n--" ++ (m.AddBytesContentType buf fieldName fileName contentType data).boundary
          ++ str "\r\n"
          ++ str "Content-Disposition: form-data; name=\"" ++ fieldName
          ++ str "\"; filename=\"" ++ fileName ++ str "\""
          ++ str "\r\n" ++ str "Content-Type: " ++ contentType
          ++ str "\r\n\r\n" ++ data))] := by
  have h1 : str "\r\n--" = rn ++ str "--" := by decide
  have h2 : str "\"\r\nContent-Type: " = str "\"" ++ (str "\r\n" ++ str "Content-Type: ") := by
    decide
  have h3 : str "\r\n\r\n" = rn ++ rn := by decide
  have h4 : str "\r\n" = rn := rfl
  simp only [Multipart.AddBytesContentType, fileHeader, ensureBoundary_fields, h1, h2, h3, h4,
    List.append_assoc]

theorem Sprintf_of_no_percent (format : Bytes) (h : 37 ∉ format) : Sprintf format = format := by
  have h1 : format.takeWhile (fun c => decide (c ≠ 37)) = format := by
    rw [List.takeWhile_eq_self_iff]
    intro c hc
    simp only [decide_eq_true_eq]
    rintro rfl
    exact h hc
  have h2 : format.dropWhile (fun c => decide (c ≠ 37)) = [] := by
    rw [List.dropWhile_eq_nil_iff]
    intro c hc
    simp only [decide_eq_true_eq]
    rintro rfl
    exact h hc
  simp only [Sprintf, doPrintf, h1, h2]

theorem fieldHeader_of_no_percent (name : Bytes) (h : 37 ∉ name) :
    fieldHeader name = str "Content-Disposition: form-data; name=\"" ++ name ++ str "\"" := by
  unfold fieldHeader
  apply Sprintf_of_no_percent
  simp only [List.mem_append, not_or]
  exact ⟨⟨by decide, h⟩, by decide⟩

/-- C5, at the failing input: `AddField("%d", "v")` on the zero-value body, with the
random source yielding thirty zero bytes, appends a source in which the name reads
`%!d(MISSING)`, which is not the text claimed for it. -/
theorem AddField_percent_name :
    (Multipart.zero.AddField zeroBlock (str "%d") (str "v")).fields =
      [Reader.bytesReader (bytes.NewReader
        (str "\r\n--" ++ randomBoundary zeroBlock ++ str "\r\n"
          ++ str "Content-Disposition: form-data; name=\"%!d(MISSING)\""
          ++ str "\r\n\r\n" ++ str "v"))] ∧
    (Multipart.zero.AddField zeroBlock (str "%d") (str "v")).fields ≠
      [Reader.bytesReader (bytes.NewReader
        (str "\r\n--" ++ randomBoundary zeroBlock ++ str "\r\n"
          ++ str "Content-Disposition: form-data; name=\"" ++ str "%d" ++ str "\""
          ++ str "\r\n\r\n" ++ str "v"))] := by
  decide

/-! ## The boundary is generated once -/

theorem Read_boundary (m : Multipart) (len : Nat) : (m.Read len).2.boundary = m.boundary := by
  unfold Multipart.Read
  simp only
  split
  · rfl
  · split
    · split <;> rfl
    · split
      · rfl
      · rename_i e _
        rcases e.Read len with ⟨⟨out, err⟩, e'⟩
        simp only
        split <;> rfl

theorem Action.run_boundary (a : Action) (m : Multipart) (buf : Block) :
    (a.run m buf).boundary = m.boundary ∨
      (a.run m buf).boundary = (m.ensureBoundary buf).boundary := by
  cases a with
  | addField n v => exact Or.inr rfl
  | addBytes f n d => exact Or.inr rfl
  | addBytesContentType f n c d => exact Or.inr rfl
  | addFile f n r => exact Or.inr rfl
  | addFileContentType f n c r => exact Or.inr rfl
  | addFileFromDisk fs f p =>
    simp only [Action.run, Multipart.AddFileFromDisk, Multipart.AddFileFromDiskContentType]
    split
    · exact Or.inl rfl
    · right
      simp only [Multipart.AddFileContentType, Multipart.ensureBoundary]
      split <;> rfl
  | addFileFromDiskContentType fs f c p =>
    simp only [Action.run, Multipart.AddFileFromDiskContentType]
    split
    · exact Or.inl rfl
    · right
      simp only [Multipart.AddFileContentType, Multipart.ensureBoundary]
      split <;> rfl
  | done => exact Or.inr (Done_boundary m buf)
  | contentTypeHeaderValue => exact Or.inr rfl
  | attachToRequest r =>
    right
    simp only [Action.run, Multipart.AttachToRequest, Multipart.ContentTypeHeaderValue]
    rw [ensureBoundary_of_ne_nil _ _ (Done_boundary_ne_nil m buf), Done_boundary]
  | read len => exact Or.inl (Read_boundary m len)

theorem Action.run_boundary_of_generates (a : Action) (m : Multipart) (buf : Block)
    (h : a.generates = true) : (a.run m buf).boundary = (m.ensureBoundary buf).boundary := by
  cases a <;> simp [Action.generates] at h
  · rfl
  · rfl
  · rfl
  · exact Done_boundary m buf
  · rfl

theorem Reader.carries_of_isPart (boundary : Bytes) (e : Reader) (h : e.isPart boundary) :
    e.carries boundary := by
  have key : ∀ s, isPartBlock boundary s → Multipartx.carries boundary s :=
    fun s hs => (List.prefix_append _ _).trans hs
  cases e with
  | bytesReader r => exact key _ h
  | multiReader ls =>
    intro l hl
    have := h l hl
    cases l with
    | bytesReader r => exact key _ this
    | external r => trivial

theorem Reader.carries_of_isTerminator (boundary : Bytes) (e : Reader)
    (h : e.isTerminator boundary) : e.carries boundary := by
  obtain ⟨i, rfl⟩ := h
  simp only [Reader.carries, Multipartx.carries, terminator, List.append_assoc]
  exact List.prefix_append (rn ++ (str "--" ++ boundary)) (str "--" ++ rn)

/-- C9: the boundary invariant.  On a body that has no boundary yet, each of
`AddField`, `AddBytesContentType`, `AddFileContentType`, `Done` and
`ContentTypeHeaderValue` sets it to the (non-empty) token generated from the block
read; once the boundary is non-empty no public operation changes it; and in every
body reached from the zero value every in-memory block of a source, delimiter
lines and terminator alike, starts with `\r\n--` followed by the boundary of the
body. -/
theorem boundary_invariant (m : Multipart) (buf : Block) (a : Action)
    (acts : List (Block × Action)) :
    (m.boundary = [] → a.generates = true →
      (a.run m buf).boundary = randomBoundary buf ∧ randomBoundary buf ≠ []) ∧
    (m.boundary ≠ [] → (a.run m buf).boundary = m.boundary) ∧
    (∀ e ∈ (runAll Multipart.zero acts).fields,
      e.carries (runAll Multipart.zero acts).boundary) := by
  refine ⟨?_, ?_, ?_⟩
  · intro hb hg
    rw [Action.run_boundary_of_generates a m buf hg, ensureBoundary_of_nil _ _ hb]
    exact ⟨rfl, randomBoundary_ne_nil buf⟩
  · intro hb
    rcases Action.run_boundary a m buf with h | h
    · exact h
    · rw [h, ensureBoundary_of_ne_nil _ _ hb]
  · intro e he
    rcases (SourcesInv.zero.runAll acts).2 e he with h | h
    · exact Reader.carries_of_isPart _ _ h
    · exact Reader.carries_of_isTerminator _ _ h.2

theorem boundary_invariant_witness :
    Multipart.zero.boundary = [] ∧ Action.done.generates = true ∧
    (Multipart.zero.Done zeroBlock).boundary ≠ [] ∧
    ((Action.run Multipart.zero zeroBlock Action.done).boundary = randomBoundary zeroBlock ∧
      randomBoundary zeroBlock ≠ []) ∧
    (Action.run (Multipart.zero.Done zeroBlock) zeroBlock (Action.read 4)).boundary =
      (Multipart.zero.Done zeroBlock).boundary :=
  ⟨rfl, rfl, Done_boundary_ne_nil _ _,
   (boundary_invariant Multipart.zero zeroBlock Action.done []).1 rfl rfl,
   (boundary_invariant (Multipart.zero.Done zeroBlock) zeroBlock (Action.read 4) []).2.1
     (Done_boundary_ne_nil _ _)⟩

/-! ## A file that cannot be opened -/

/-- C10: when opening `filePath` fails with an error, `AddFileFromDiskContentType`
and `AddFileFromDisk` return that error and the body is unchanged (no source, no
owned file, same boundary, cursor and flag); each returns nil exactly when the
open succeeds. -/
theorem AddFileFromDisk_open_fails (m : Multipart) (fs : FileSystem) (buf : Block)
    (fieldName contentType filePath : Bytes) :
    (∀ e, fs filePath = Except.error e →
      m.AddFileFromDiskContentType fs buf fieldName contentType filePath = (some e, m) ∧
      m.AddFileFromDisk fs buf fieldName filePath = (some e, m)) ∧
    ((m.AddFileFromDiskContentType fs buf fieldName contentType filePath).1 = none ↔
      ∃ f, fs filePath = Except.ok f) ∧
    ((m.AddFileFromDisk fs buf fieldName filePath).1 = none ↔
      ∃ f, fs filePath = Except.ok f) := by
  unfold Multipart.AddFileFromDisk Multipart.AddFileFromDiskContentType
  cases h : fs filePath <;> simp

theorem AddFileFromDisk_open_fails_witness :
    noFiles (str "x") = Except.error (GoError.other 2) ∧
    Multipart.zero.AddFileFromDiskContentType noFiles zeroBlock (str "f") octetType (str "x")
      = (some (GoError.other 2), Multipart.zero) ∧
    Multipart.zero.AddFileFromDisk noFiles zeroBlock (str "f") (str "x")
      = (some (GoError.other 2), Multipart.zero) :=
  ⟨rfl, (AddFileFromDisk_open_fails Multipart.zero noFiles zeroBlock (str "f") octetType
    (str "x")).1 (GoError.other 2) rfl⟩

/-! ## One call of `Read` on an error-free reader -/

theorem take_append_drop_length_take (l : Bytes) (len : Nat) :
    l = l.take len ++ l.drop (l.take len).length := by
  rw [List.length_take]
  rcases Nat.le_total len l.length with h | h
  · rw [Nat.min_eq_left h, List.take_append_drop]
  · rw [Nat.min_eq_right h, List.take_of_length_le h, List.drop_length, List.append_nil]

theorem bytesReader_Read_spec (r : BytesReader) (len : Nat) (hlen : 1 ≤ len) :
    StepSpec r.remaining (r.Read len).2.remaining true r.remaining.length
      (r.Read len).2.remaining.length (r.Read len).1.1 (r.Read len).1.2 := by
  unfold BytesReader.Read
  by_cases h : r.i ≥ r.s.length
  · left
    simp only [h, if_true, true_and]
    exact List.drop_eq_nil_of_le h
  · right
    simp only [h, if_false, true_and, BytesReader.remaining]
    have hlt : r.i < r.s.length := Nat.lt_of_not_le h
    have hdrop : ((r.s.drop r.i).take len).length = min len (r.s.length - r.i) := by
      rw [List.length_take, List.length_drop]
    refine ⟨?_, ?_⟩
    · rw [← List.drop_drop]
      exact take_append_drop_length_take _ _
    · rw [List.length_drop, List.length_drop, hdrop]
      omega

theorem extReader_Read_spec (r : ExtReader) (len : Nat) (hlen : 1 ≤ len)
    (hef : r.errorFree = true) :
    StepSpec r.content (r.Read len).2.content (r.Read len).2.errorFree r.cost
      (r.Read len).2.cost (r.Read len).1.1 (r.Read len).1.2 := by
  cases r with
  | nil => left; exact ⟨rfl, rfl⟩
  | cons a rest =>
    obtain ⟨data, err⟩ := a
    unfold ExtReader.Read
    by_cases h : data.length ≤ len
    · simp only [h, if_true]
      cases err with
      | none =>
        right
        simp only [ExtReader.errorFree] at hef
        refine ⟨rfl, rfl, hef, ?_⟩
        simp only [ExtReader.cost]; omega
      | some e =>
        left
        simp only [ExtReader.errorFree, decide_eq_true_eq] at hef
        exact ⟨by rw [hef], rfl⟩
    · simp only [h, if_false]
      right
      refine ⟨rfl, ?_, ?_, ?_⟩
      · cases err with
        | none =>
          simp only [ExtReader.content]
          rw [← List.append_assoc, List.take_append_drop]
        | some e =>
          simp only [ExtReader.content]
          rw [List.take_append_drop]
      · cases err <;> simpa [ExtReader.errorFree] using hef
      · simp only [ExtReader.cost, List.length_drop]; omega

theorem leaf_Read_spec (l : Leaf) (len : Nat) (hlen : 1 ≤ len) (hef : l.errorFree = true) :
    StepSpec l.content (l.Read len).2.content (l.Read len).2.errorFree l.cost
      (l.Read len).2.cost (l.Read len).1.1 (l.Read len).1.2 := by
  cases l with
  | bytesReader r => exact bytesReader_Read_spec r len hlen
  | external r => exact extReader_Read_spec r len hlen hef

theorem multiReaderRead_spec (len : Nat) (hlen : 1 ≤ len) (ls : List Leaf)
    (hef : leavesErrorFree ls = true) :
    StepSpec (leavesContent ls) (leavesContent (multiReaderRead ls len).2)
      (leavesErrorFree (multiReaderRead ls len).2) (leavesCost ls)
      (leavesCost (multiReaderRead ls len).2) (multiReaderRead ls len).1.1
      (multiReaderRead ls len).1.2 := by
  induction ls with
  | nil => left; exact ⟨rfl, rfl⟩
  | cons r rest ih =>
    simp only [leavesErrorFree, Bool.and_eq_true] at hef
    have hr := leaf_Read_spec r len hlen hef.1
    have ih' := ih hef.2
    unfold multiReaderRead
    rcases hread : r.Read len with ⟨⟨out, err⟩, r'⟩
    rw [hread] at hr
    simp only at hr ⊢
    rcases hr with ⟨he, hc⟩ | ⟨he, hc, hef', hcost⟩
    · subst he
      simp only [if_true, ne_eq, not_true_eq_false, or_false, true_and]
      by_cases hout : out.length > 0
      · simp only [hout, if_true]
        by_cases hrest : rest.length > 0
        · right
          simp only [hrest, if_true, leavesContent, leavesCost, hc, true_and]
          exact ⟨hef.2, by omega⟩
        · left
          have : rest = [] := List.length_eq_zero.mp (by omega)
          subst this
          simp [leavesContent, hc]
      · simp only [hout, if_false]
        have hnil : out = [] := List.length_eq_zero.mp (by omega)
        rcases ih' with ⟨h1, h2⟩ | ⟨h1, h2, h3, h4⟩
        · left
          exact ⟨h1, by simp only [leavesContent, hc, hnil, List.nil_append]; exact h2⟩
        · right
          refine ⟨h1, ?_, h3, ?_⟩
          · simp only [leavesContent, hc, hnil, List.nil_append]; exact h2
          · simp only [leavesCost]; omega
    · subst he
      right
      simp only [reduceCtorEq, if_false, ne_eq, not_false_eq_true, or_true, if_true, false_and,
        leavesContent, leavesErrorFree, leavesCost, hc, List.append_assoc, true_and,
        Bool.and_eq_true]
      exact ⟨⟨hef', hef.2⟩, by omega⟩

theorem reader_Read_spec (e : Reader) (len : Nat) (hlen : 1 ≤ len) (hef : e.errorFree = true) :
    StepSpec e.content (e.Read len).2.content (e.Read len).2.errorFree e.cost
      (e.Read len).2.cost (e.Read len).1.1 (e.Read len).1.2 := by
  cases e with
  | bytesReader r => exact bytesReader_Read_spec r len hlen
  | multiReader ls => exact multiReaderRead_spec len hlen ls hef

/-! ## Draining one source -/

theorem reader_drain_spec (len : Nat) (hlen : 1 ≤ len) (fuel : Nat) (e : Reader)
    (hef : e.errorFree = true) (hfuel : e.cost < fuel) :
    Reader.drain fuel e len = some e.content := by
  induction fuel generalizing e with
  | zero => omega
  | succ fuel ih =>
    have hspec := reader_Read_spec e len hlen hef
    unfold Reader.drain
    rcases hread : e.Read len with ⟨⟨out, err⟩, e'⟩
    rw [hread] at hspec
    simp only at hspec ⊢
    rcases hspec with ⟨he, hc⟩ | ⟨he, hc, hef', hcost⟩
    · subst he; simp only [hc]
    · subst he
      simp only [ih e' hef' (by omega), hc]

/-! ## Draining the body -/

theorem ahead_of_lt (m : Multipart) (h : m.writingIdx < m.fields.length) :
    m.ahead = m.fields[m.writingIdx] :: m.fields.drop (m.writingIdx + 1) := by
  unfold Multipart.ahead
  exact List.drop_eq_getElem_cons h

theorem Read_step (m : Multipart) (len : Nat) (hlen : 1 ≤ len) (hclosed : m.closed = true)
    (hef : sourcesErrorFree m.ahead = true) (hlt : m.writingIdx < m.fields.length) :
    (m.Read len).1.2 = none ∧
    sourcesContent m.ahead = (m.Read len).1.1 ++ sourcesContent (m.Read len).2.ahead ∧
    (m.Read len).2.closed = true ∧
    sourcesErrorFree (m.Read len).2.ahead = true ∧
    (m.Read len).2.toClose = m.toClose ∧
    sourcesCost (m.Read len).2.ahead < sourcesCost m.ahead := by
  have hahead := ahead_of_lt m hlt
  rw [hahead] at hef ⊢
  simp only [sourcesErrorFree, Bool.and_eq_true] at hef
  have hspec := reader_Read_spec m.fields[m.writingIdx] len hlen hef.1
  have hget : m.fields.get? m.writingIdx = some m.fields[m.writingIdx] := by
    rw [List.get?_eq_getElem?]; exact List.getElem?_eq_getElem hlt
  unfold Multipart.Read
  simp only [hclosed, Bool.not_true, Bool.false_eq_true, if_false, ge_iff_le,
    Nat.not_le.mpr hlt, hget]
  rcases hread : (m.fields[m.writingIdx]).Read len with ⟨⟨out, err⟩, e'⟩
  rw [hread] at hspec
  simp only at hspec ⊢
  rcases hspec with ⟨he, hc⟩ | ⟨he, hc, hef', hcost⟩
  · subst he
    simp only [if_true, Multipart.ahead, sourcesContent, sourcesCost, hc, true_and]
    rw [List.drop_set_of_lt _ _ (Nat.lt_succ_self _)]
    simp only [Nat.succ_eq_add_one]
    exact ⟨trivial, hef.2, by omega⟩
  · subst he
    have hdrop : (m.fields.set m.writingIdx e').drop m.writingIdx =
        e' :: m.fields.drop (m.writingIdx + 1) := by
      rw [List.drop_set, if_neg (Nat.lt_irrefl _), List.drop_eq_getElem_cons hlt, Nat.sub_self]
      rfl
    simp only [reduceCtorEq, if_false, Multipart.ahead, hdrop, sourcesContent, sourcesCost,
      sourcesErrorFree, hc, List.append_assoc, true_and, Bool.and_eq_true]
    exact ⟨⟨hef', hef.2⟩, by omega⟩

theorem Read_at_end (m : Multipart) (len : Nat) (hclosed : m.closed = true)
    (hclose : (closeLoop m.toClose).1 = none) (hge : m.fields.length ≤ m.writingIdx) :
    (m.Read len).1 = ([], some GoError.EOF) ∧ sourcesContent m.ahead = [] := by
  refine ⟨?_, ?_⟩
  · unfold Multipart.Read
    simp only [hclosed, Bool.not_true, Bool.false_eq_true, if_false, ge_iff_le, hge, if_true]
    rcases hcl : closeLoop m.toClose with ⟨r, files⟩
    rw [hcl] at hclose
    simp only at hclose
    subst hclose
    rfl
  · unfold Multipart.ahead
    rw [List.drop_eq_nil_of_le hge]; rfl

theorem readToEOF_spec (len : Nat) (hlen : 1 ≤ len) (fuel : Nat) (m : Multipart)
    (hclosed : m.closed = true) (hef : sourcesErrorFree m.ahead = true)
    (hclose : (closeLoop m.toClose).1 = none) (hfuel : sourcesCost m.ahead < fuel) :
    ∃ m', readToEOF fuel m len = some (sourcesContent m.ahead, m') := by
  induction fuel generalizing m with
  | zero => omega
  | succ fuel ih =>
    unfold readToEOF
    by_cases hlt : m.writingIdx < m.fields.length
    · obtain ⟨h1, h2, h3, h4, h5, h6⟩ := Read_step m len hlen hclosed hef hlt
      rcases hread : m.Read len with ⟨⟨out, err⟩, m1⟩
      rw [hread] at h1 h2 h3 h4 h5 h6
      simp only at h1 h2 h3 h4 h5 h6
      subst h1
      obtain ⟨m', hm'⟩ := ih m1 h3 h4 (by rw [h5]; exact hclose) (by omega)
      exact ⟨m', by simp only [hm', h2]⟩
    · obtain ⟨h1, h2⟩ := Read_at_end m len hclosed hclose (Nat.le_of_not_lt hlt)
      rcases hread : m.Read len with ⟨⟨out, err⟩, m1⟩
      rw [hread] at h1
      simp only [Prod.mk.injEq] at h1
      obtain ⟨rfl, rfl⟩ := h1
      exact ⟨m1, by simp only [h2]⟩

theorem sourcesContent_append (l1 l2 : List Reader) :
    sourcesContent (l1 ++ l2) = sourcesContent l1 ++ sourcesContent l2 := by
  induction l1 with
  | nil => rfl
  | cons e es ih =>
    rw [List.cons_append]
    simp only [sourcesContent, ih, List.append_assoc]

theorem sourcesErrorFree_append (l1 l2 : List Reader) :
    sourcesErrorFree (l1 ++ l2) = (sourcesErrorFree l1 && sourcesErrorFree l2) := by
  induction l1 with
  | nil => rfl
  | cons e es ih =>
    rw [List.cons_append]
    simp only [sourcesErrorFree, ih, Bool.and_assoc]

theorem Op.source_content (boundary : Bytes) (op : Op) :
    (op.source boundary).content = op.framed boundary := by
  cases op <;>
    simp [Op.source, Op.framed, Reader.content, BytesReader.remaining, bytes.NewReader,
      leavesContent, Leaf.content]

theorem Op.source_errorFree (boundary : Bytes) (op : Op) :
    (op.source boundary).errorFree = op.errorFree := by
  cases op <;>
    simp [Op.source, Op.errorFree, Reader.errorFree, leavesErrorFree, Leaf.errorFree]

theorem sourcesContent_map_source (boundary : Bytes) (calls : List (Block × Op)) :
    sourcesContent (calls.map (fun c => c.2.source boundary)) =
      calls.flatMap (fun c => c.2.framed boundary) := by
  induction calls with
  | nil => rfl
  | cons c cs ih =>
    simp only [List.map_cons, sourcesContent, ih, List.flatMap_cons, Op.source_content]

theorem sourcesErrorFree_map_source (boundary : Bytes) (calls : List (Block × Op))
    (h : ∀ c ∈ calls, c.2.errorFree = true) :
    sourcesErrorFree (calls.map (fun c => c.2.source boundary)) = true := by
  induction calls with
  | nil => rfl
  | cons c cs ih =>
    simp only [List.map_cons, sourcesErrorFree, Op.source_errorFree, Bool.and_eq_true]
    exact ⟨h c (List.mem_cons_self _ _), ih (fun c' hc' => h c' (List.mem_cons_of_mem _ hc'))⟩

/-- The state of a body built from the zero value and finalized: the sources of
the calls, in order, then the terminator, all with the boundary of the body. -/
theorem build_Done_state (calls : List (Block × Op)) (buf : Block) :
    ((build calls).Done buf).fields =
      calls.map (fun c => c.2.source ((build calls).Done buf).boundary) ++
        [Reader.bytesReader (bytes.NewReader (terminator ((build calls).Done buf).boundary))] ∧
    ((build calls).Done buf).closed = true ∧ ((build calls).Done buf).writingIdx = 0 ∧
    ((build calls).Done buf).toClose = [] := by
  obtain ⟨hf, hc, hw, ht, hnil, hne⟩ := build_state calls
  refine ⟨?_, Done_closed _ _, ?_, ?_⟩
  · rw [Done_fields_of_not_closed _ _ hc]
    congr 1
    by_cases hcalls : calls = []
    · subst hcalls; simp [build, Multipart.zero]
    · rw [Done_boundary, ensureBoundary_of_ne_nil _ _ (hne hcalls)]; exact hf
  · simp [Multipart.Done, hc, hw]
  · simp [Multipart.Done, hc, ht]

theorem content_terminator (boundary : Bytes) :
    sourcesContent [Reader.bytesReader (bytes.NewReader (terminator boundary))] =
      terminator boundary := by
  simp [sourcesContent, Reader.content, BytesReader.remaining, bytes.NewReader]

/-- The bytes a built and finalized body has to deliver, and that `Read` reaches
`io.EOF` within a bounded number of calls delivering exactly them. -/
theorem build_Done_readToEOF (calls : List (Block × Op)) (buf : Block) (len : Nat)
    (hlen : 1 ≤ len) (hef : ∀ c ∈ calls, c.2.errorFree = true) :
    ∀ fuel, sourcesCost ((build calls).Done buf).fields < fuel →
      ∃ m', readToEOF fuel ((build calls).Done buf) len =
        some (calls.flatMap (fun c => c.2.framed ((build calls).Done buf).boundary)
                ++ terminator ((build calls).Done buf).boundary, m') := by
  intro fuel hfuel
  obtain ⟨hf, hc, hw, ht⟩ := build_Done_state calls buf
  have hahead : ((build calls).Done buf).ahead = ((build calls).Done buf).fields := by
    simp [Multipart.ahead, hw]
  have hcontent : sourcesContent ((build calls).Done buf).ahead =
      calls.flatMap (fun c => c.2.framed ((build calls).Done buf).boundary)
        ++ terminator ((build calls).Done buf).boundary := by
    rw [hahead, hf, sourcesContent_append, sourcesContent_map_source, content_terminator]
  have hEF : sourcesErrorFree ((build calls).Done buf).ahead = true := by
    rw [hahead, hf, sourcesErrorFree_append, sourcesErrorFree_map_source _ _ hef]
    rfl
  obtain ⟨m', hm'⟩ := readToEOF_spec len hlen fuel _ hc hEF (by rw [ht]; rfl)
    (by rw [hahead]; exact hfuel)
  exact ⟨m', by rw [hm', hcontent]⟩

/-! ## Reading a finalized body to the end -/

/-- C1: for a body built from the zero value by `AddField`, `AddBytesContentType`
and `AddFileContentType` calls over error-free readers and then finalized by `Done`,
and for a buffer of any length `>= 1`, calling `Read` until it returns `io.EOF`
ends within a bounded number of calls, and the bytes returned, concatenated, are
the framed bytes of every part in the order of the calls, followed by the
terminator `\r\n--<boundary>--\r\n` once. -/
theorem Read_to_EOF (calls : List (Block × Op)) (buf : Block) (len : Nat)
    (hlen : 1 ≤ len) (hef : ∀ c ∈ calls, c.2.errorFree = true) :
    ∃ n, ∀ fuel, n ≤ fuel →
      ∃ m', readToEOF fuel ((build calls).Done buf) len =
        some (calls.flatMap (fun c => c.2.framed ((build calls).Done buf).boundary)
                ++ terminator ((build calls).Done buf).boundary, m') :=
  ⟨sourcesCost ((build calls).Done buf).fields + 1, fun fuel h =>
    build_Done_readToEOF calls buf len hlen hef fuel (by omega)⟩

theorem Read_to_EOF_witness :
    1 ≤ 3 ∧
    (∀ c ∈ [(zeroBlock, Op.addField (str "a") (str "b")),
            (zeroBlock, Op.addFileContentType (str "f") (str "n") octetType
              [⟨str "xy", none⟩, ⟨str "z", some GoError.EOF⟩])],
      c.2.errorFree = true) ∧
    ∃ n, ∀ fuel, n ≤ fuel →
      ∃ m', readToEOF fuel
          ((build [(zeroBlock, Op.addField (str "a") (str "b")),
            (zeroBlock, Op.addFileContentType (str "f") (str "n") octetType
              [⟨str "xy", none⟩, ⟨str "z", some GoError.EOF⟩])]).Done zeroBlock) 3 =
        some (([(zeroBlock, Op.addField (str "a") (str "b")),
            (zeroBlock, Op.addFileContentType (str "f") (str "n") octetType
              [⟨str "xy", none⟩, ⟨str "z", some GoError.EOF⟩])] : List (Block × Op)).flatMap
              (fun c => c.2.framed ((build [(zeroBlock, Op.addField (str "a") (str "b")),
            (zeroBlock, Op.addFileContentType (str "f") (str "n") octetType
              [⟨str "xy", none⟩, ⟨str "z", some GoError.EOF⟩])]).Done zeroBlock).boundary)
                ++ terminator ((build [(zeroBlock, Op.addField (str "a") (str "b")),
            (zeroBlock, Op.addFileContentType (str "f") (str "n") octetType
              [⟨str "xy", none⟩, ⟨str "z", some GoError.EOF⟩])]).Done zeroBlock).boundary, m') :=
  ⟨by decide, by decide,
   Read_to_EOF _ zeroBlock 3 (by decide) (by decide)⟩

/-! ## A part read from a caller-supplied reader -/

/-- C7: for an error-free reader `r`, the source appended by `AddFileContentType`
and the source appended by `AddBytesContentType` with the content of `r` as data
deliver, read to `io.EOF` with buffers of any length `>= 1`, the same bytes: the
delimiter line and the file header block, then the bytes of `r` in order, and
nothing else. -/
theorem AddFileContentType_refines (m : Multipart) (buf : Block)
    (fieldName fileName contentType : Bytes) (r : ExtReader) (len : Nat)
    (hlen : 1 ≤ len) (hr : r.errorFree = true) :
    ∃ src1 src2 n,
      (m.AddFileContentType buf fieldName fileName contentType r).fields = m.fields ++ [src1] ∧
      (m.AddBytesContentType buf fieldName fileName contentType r.content).fields
        = m.fields ++ [src2] ∧
      ∀ fuel, n ≤ fuel →
        Reader.drain fuel src1 len =
          some (rn ++ str "--" ++ (m.ensureBoundary buf).boundary ++ rn
            ++ fileHeader fieldName fileName contentType ++ rn ++ rn ++ r.content) ∧
        Reader.drain fuel src2 len = Reader.drain fuel src1 len := by
  refine ⟨(Op.addFileContentType fieldName fileName contentType r).source
      (m.ensureBoundary buf).boundary,
    (Op.addBytesContentType fieldName fileName contentType r.content).source
      (m.ensureBoundary buf).boundary,
    ((Op.addFileContentType fieldName fileName contentType r).source
      (m.ensureBoundary buf).boundary).cost +
    ((Op.addBytesContentType fieldName fileName contentType r.content).source
      (m.ensureBoundary buf).boundary).cost + 1,
    Op.apply_fields (Op.addFileContentType fieldName fileName contentType r) m buf,
    Op.apply_fields (Op.addBytesContentType fieldName fileName contentType r.content) m buf, ?_⟩
  intro fuel hfuel
  have h1 := reader_drain_spec len hlen fuel
    ((Op.addFileContentType fieldName fileName contentType r).source
      (m.ensureBoundary buf).boundary)
    (by rw [Op.source_errorFree]; exact hr) (by omega)
  have h2 := reader_drain_spec len hlen fuel
    ((Op.addBytesContentType fieldName fileName contentType r.content).source
      (m.ensureBoundary buf).boundary)
    (by rw [Op.source_errorFree]; rfl) (by omega)
  rw [h1, h2, Op.source_content, Op.source_content]
  exact ⟨rfl, rfl⟩

theorem AddFileContentType_refines_witness :
    1 ≤ 2 ∧ ExtReader.errorFree [⟨str "xy", none⟩, ⟨str "z", some GoError.EOF⟩] = true ∧
    ∃ src1 src2 n,
      (Multipart.zero.AddFileContentType zeroBlock (str "f") (str "n") octetType
        [⟨str "xy", none⟩, ⟨str "z", some GoError.EOF⟩]).fields = Multipart.zero.fields ++ [src1] ∧
      (Multipart.zero.AddBytesContentType zeroBlock (str "f") (str "n") octetType
        (ExtReader.content [⟨str "xy", none⟩, ⟨str "z", some GoError.EOF⟩])).fields
        = Multipart.zero.fields ++ [src2] ∧
      ∀ fuel, n ≤ fuel →
        Reader.drain fuel src1 2 =
          some (rn ++ str "--" ++ (Multipart.zero.ensureBoundary zeroBlock).boundary ++ rn
            ++ fileHeader (str "f") (str "n") octetType ++ rn ++ rn
            ++ ExtReader.content [⟨str "xy", none⟩, ⟨str "z", some GoError.EOF⟩]) ∧
        Reader.drain fuel src2 2 = Reader.drain fuel src1 2 :=
  ⟨by decide, by decide,
   AddFileContentType_refines Multipart.zero zeroBlock (str "f") (str "n") octetType
     [⟨str "xy", none⟩, ⟨str "z", some GoError.EOF⟩] 2 (by decide) (by decide)⟩

/-! ## Finding a delimiter -/

theorem findDelim_append_self (d rest : Bytes) (hd : d ≠ []) :
    findDelim d (d ++ rest) = some ([], rest) := by
  cases d with
  | nil => exact absurd rfl hd
  | cons c d' =>
    have h : (c :: d') <+: (c :: (d' ++ rest)) := List.prefix_append (c :: d') rest
    rw [List.cons_append, findDelim, if_pos (List.isPrefixOf_iff_prefix.mpr h),
      ← List.cons_append, List.drop_left]

theorem findDelim_cons_of_not_isPrefix (d : Bytes) (c : Nat) (s a b : Bytes)
    (hn : ¬ d <+: c :: s) (h : findDelim d s = some (a, b)) :
    findDelim d (c :: s) = some (c :: a, b) := by
  simp only [findDelim, List.isPrefixOf_iff_prefix, hn, if_false, h]

theorem findDelim_skip (c0 : Nat) (d' u s a b : Bytes) (hu : c0 ∉ u)
    (h : findDelim (c0 :: d') s = some (a, b)) :
    findDelim (c0 :: d') (u ++ s) = some (u ++ a, b) := by
  induction u with
  | nil => exact h
  | cons x u ih =>
    have hx : c0 ≠ x := fun hx => hu (hx ▸ List.mem_cons_self _ _)
    have hu' : c0 ∉ u := fun hm => hu (List.mem_cons_of_mem _ hm)
    rw [List.cons_append, List.cons_append]
    apply findDelim_cons_of_not_isPrefix _ _ _ _ _ _ (ih hu')
    intro hp
    exact hx (List.cons_prefix_cons.mp hp).1

/-- A delimiter whose first byte does not occur again in it is found right after a
byte sequence that does not contain it. -/
theorem findDelim_of_not_isInfix (c0 : Nat) (d' a rest : Bytes) (hc : c0 ∉ d')
    (ha : ¬ (c0 :: d') <:+: a) :
    findDelim (c0 :: d') (a ++ (c0 :: d') ++ rest) = some (a, rest) := by
  induction a with
  | nil => exact findDelim_append_self _ _ (List.cons_ne_nil _ _)
  | cons x a ih =>
    have ha' : ¬ (c0 :: d') <:+: a := fun h => ha (List.infix_cons h)
    rw [List.cons_append, List.cons_append]
    apply findDelim_cons_of_not_isPrefix _ _ _ _ _ _ (ih ha')
    intro hp
    rw [List.append_assoc, ← List.cons_append] at hp
    rcases Nat.le_total (c0 :: d').length (x :: a).length with hle | hle
    · exact ha (List.prefix_of_prefix_length_le hp (List.prefix_append _ _) hle).isInfix
    · obtain ⟨w, hw⟩ := List.prefix_of_prefix_length_le (List.prefix_append _ _) hp hle
      rw [← hw, List.append_assoc, List.prefix_append_right_inj] at hp
      have hd' : d' = a ++ w := by
        have := hw
        rw [List.cons_append] at this
        exact (List.cons.inj this).2.symm
      cases w with
      | nil =>
        rw [List.append_nil] at hw
        exact ha (hw ▸ List.infix_refl _)
      | cons y w =>
        have hy : y = c0 := by
          rw [List.cons_append, List.cons_append] at hp
          rw [List.cons_append] at hw
          exact (List.cons_prefix_cons.mp hp).1.trans (List.cons.inj hw).1
        apply hc
        rw [hd', hy]
        exact List.mem_append_right _ (List.mem_cons_self _ _)

/-! ## Parsing one part back -/

theorem delimiter_eq (boundary : Bytes) : delimiter boundary = 13 :: 10 :: 45 :: 45 :: boundary :=
  rfl

theorem rnrn_eq : rn ++ rn = 13 :: [10, 13, 10] := rfl

theorem dispositionText_eq : str "Content-Disposition: form-data; name=\"" =
    67 :: str "ontent-Disposition: form-data; name=\"" := by decide

theorem filenameText_eq : str "\"; filename=\"" = 34 :: str "; filename=\"" := by decide

theorem contentTypeText_eq : str "\"\r\nContent-Type: " =
    34 :: 13 :: 10 :: 67 :: str "ontent-Type: " := by decide

theorem quoteText_eq : str "\"" = [34] := by decide

theorem Op.framed_eq (boundary : Bytes) (op : Op) :
    op.framed boundary = delimiter boundary ++ op.piece := by
  cases op <;> simp [Op.framed, Op.piece, delimiter, List.append_assoc]

theorem terminator_eq (boundary : Bytes) :
    terminator boundary = delimiter boundary ++ (str "--" ++ rn) := by
  simp [terminator, delimiter, List.append_assoc]

/-- The shape of the piece of a plain field whose name has no percent sign. -/
theorem piece_addField (name value : Bytes) (h : 37 ∉ name) :
    (Op.addField name value).piece =
      13 :: ((10 :: (str "Content-Disposition: form-data; name=\"" ++ name ++ [34])) ++
        (13 :: ([10] ++ (rn ++ value)))) := by
  simp [Op.piece, fieldHeader_of_no_percent name h, rn_eq, quoteText_eq, List.append_assoc]

/-- The shape of the piece of a file. -/
theorem piece_file (f n c d : Bytes) :
    rn ++ fileHeader f n c ++ rn ++ rn ++ d =
      13 :: ((10 :: (str "Content-Disposition: form-data; name=\"" ++ f ++
          str "\"; filename=\"" ++ n ++ [34])) ++
        (13 :: ((10 :: 67 :: (str "ontent-Type: " ++ c)) ++
          (13 :: ([10] ++ (rn ++ d)))))) := by
  simp [fileHeader, rn_eq, contentTypeText_eq, List.append_assoc]

theorem findDelim_tail (boundary payload rest : Bytes) (hB : 13 ∉ boundary)
    (h : ¬ delimiter boundary <:+: rn ++ payload) :
    findDelim (delimiter boundary) (13 :: ([10] ++ ((rn ++ payload) ++ delimiter boundary ++ rest)))
      = some (13 :: ([10] ++ (rn ++ payload)), rest) := by
  have h1 : findDelim (delimiter boundary) ((rn ++ payload) ++ delimiter boundary ++ rest) =
      some (rn ++ payload, rest) := by
    rw [delimiter_eq] at h ⊢
    exact findDelim_of_not_isInfix 13 _ _ _ (by simp; exact hB) h
  have h2 := findDelim_skip 13 (10 :: 45 :: 45 :: boundary) [10] _ _ _ (by decide) h1
  exact findDelim_cons_of_not_isPrefix _ _ _ _ _
    (by simp [delimiter_eq, rn_eq]) h2

theorem findDelim_piece_field (boundary name value rest : Bytes) (hB : 13 ∉ boundary)
    (hsafe : (Op.addField name value).safe boundary) :
    findDelim (delimiter boundary)
        ((Op.addField name value).piece ++ delimiter boundary ++ rest) =
      some ((Op.addField name value).piece, rest) := by
  obtain ⟨_, h13, h37, hinf⟩ := hsafe
  have h3 := findDelim_tail boundary value rest hB hinf
  have hu : 13 ∉ 10 :: (str "Content-Disposition: form-data; name=\"" ++ name ++ [34]) := by
    simp only [List.mem_cons, List.mem_append, List.mem_singleton, List.not_mem_nil, not_or]
    exact ⟨by decide, ⟨by decide, h13⟩, by decide, not_false⟩
  have h4 := findDelim_skip 13 (10 :: 45 :: 45 :: boundary) _ _ _ _ hu h3
  have h5 := findDelim_cons_of_not_isPrefix (delimiter boundary) 13 _ _ _
    (by simp [delimiter_eq, dispositionText_eq]) h4
  rw [piece_addField name value h37]
  simpa [List.append_assoc] using h5

theorem findDelim_piece_file (boundary f n c d rest : Bytes) (hB : 13 ∉ boundary)
    (hsafe : (Op.addBytesContentType f n c d).safe boundary) :
    findDelim (delimiter boundary)
        ((rn ++ fileHeader f n c ++ rn ++ rn ++ d) ++ delimiter boundary ++ rest) =
      some (rn ++ fileHeader f n c ++ rn ++ rn ++ d, rest) := by
  obtain ⟨_, hf13, _, hn13, hc13, hinf⟩ := hsafe
  have h3 := findDelim_tail boundary d rest hB hinf
  have hu2 : 13 ∉ 10 :: 67 :: (str "ontent-Type: " ++ c) := by
    simp only [List.mem_cons, List.mem_append, not_or]
    exact ⟨by decide, by decide, by decide, hc13⟩
  have h4 := findDelim_skip 13 (10 :: 45 :: 45 :: boundary) _ _ _ _ hu2 h3
  have h5 := findDelim_cons_of_not_isPrefix (delimiter boundary) 13 _ _ _
    (by simp [delimiter_eq]) h4
  have hu1 : 13 ∉ 10 :: (str "Content-Disposition: form-data; name=\"" ++ f ++
      str "\"; filename=\"" ++ n ++ [34]) := by
    simp only [List.mem_cons, List.mem_append, List.mem_singleton, List.not_mem_nil, not_or]
    exact ⟨by decide, ⟨⟨⟨by decide, hf13⟩, by decide⟩, hn13⟩, by decide, not_false⟩
  have h6 := findDelim_skip 13 (10 :: 45 :: 45 :: boundary) _ _ _ _ hu1 h5
  have h7 := findDelim_cons_of_not_isPrefix (delimiter boundary) 13 _ _ _
    (by simp [delimiter_eq, dispositionText_eq]) h6
  rw [piece_file f n c d]
  simpa [List.append_assoc] using h7

theorem findDelim_piece (boundary : Bytes) (op : Op) (rest : Bytes) (hB : 13 ∉ boundary)
    (hsafe : op.safe boundary) :
    findDelim (delimiter boundary) (op.piece ++ delimiter boundary ++ rest) =
      some (op.piece, rest) := by
  cases op with
  | addField name value => exact findDelim_piece_field boundary name value rest hB hsafe
  | addBytesContentType f n c d => exact findDelim_piece_file boundary f n c d rest hB hsafe
  | addFileContentType f n c r => exact findDelim_piece_file boundary f n c r.content rest hB hsafe

theorem after_append (p s : Bytes) : after p (p ++ s) = some s := by
  unfold after
  rw [if_pos (List.isPrefixOf_iff_prefix.mpr (List.prefix_append p s)), List.drop_left]

theorem quoted_append (a t : Bytes) (h : 34 ∉ a) : quoted (a ++ 34 :: t) = some (a, t) := by
  have hp : ∀ c ∈ a, (fun c : Nat => decide (c ≠ 34)) c = true := by
    intro c hc
    simp only [decide_eq_true_eq]
    rintro rfl
    exact h hc
  unfold quoted
  rw [List.dropWhile_append_of_pos hp, List.takeWhile_append_of_pos hp]
  simp

theorem parseHeaders_field (name : Bytes) (h : 34 ∉ name) :
    parseHeaders (str "Content-Disposition: form-data; name=\"" ++ name ++ [34]) =
      some (name, none) := by
  unfold parseHeaders
  simp only [List.append_assoc, after_append, List.singleton_append, quoted_append name [] h,
    if_true]

theorem parseHeaders_file (f n c : Bytes) (hf : 34 ∉ f) (hn : 34 ∉ n) :
    parseHeaders (fileHeader f n c) = some (f, some (n, c)) := by
  have e : fileHeader f n c = str "Content-Disposition: form-data; name=\"" ++
      (f ++ 34 :: (str "; filename=\"" ++
        (n ++ 34 :: (str "\r\nContent-Type: " ++ c)))) := by
    have h3 : str "\"\r\nContent-Type: " = 34 :: str "\r\nContent-Type: " := by decide
    simp [fileHeader, filenameText_eq, h3, List.append_assoc]
  have hne : str "; filename=\"" ++ (n ++ 34 :: (str "\r\nContent-Type: " ++ c)) ≠ [] := by
    have h2 : str "; filename=\"" = 59 :: str " filename=\"" := by decide
    rw [h2]; simp
  unfold parseHeaders
  rw [e]
  simp only [after_append, quoted_append f _ hf, hne, if_false, quoted_append n _ hn]

theorem findDelim_blank_field (name value : Bytes) (h13 : 13 ∉ name) :
    findDelim (rn ++ rn)
        (str "Content-Disposition: form-data; name=\"" ++ name ++ [34] ++ rn ++ rn ++ value) =
      some (str "Content-Disposition: form-data; name=\"" ++ name ++ [34], value) := by
  have hu : 13 ∉ str "Content-Disposition: form-data; name=\"" ++ name ++ [34] := by
    simp only [List.mem_append, List.mem_singleton, not_or]
    exact ⟨⟨by decide, h13⟩, by decide⟩
  have h1 := findDelim_append_self (rn ++ rn) value (by decide)
  rw [rnrn_eq] at h1 ⊢
  have h2 := findDelim_skip 13 [10, 13, 10] _ _ _ _ hu h1
  simpa [rn_eq, List.append_assoc] using h2

theorem findDelim_blank_file (f n c d : Bytes) (hf : 13 ∉ f) (hn : 13 ∉ n) (hc : 13 ∉ c) :
    findDelim (rn ++ rn) (fileHeader f n c ++ rn ++ rn ++ d) = some (fileHeader f n c, d) := by
  have e : fileHeader f n c =
      (str "Content-Disposition: form-data; name=\"" ++ f ++ str "\"; filename=\"" ++ n ++ [34])
        ++ 13 :: ((10 :: 67 :: (str "ontent-Type: " ++ c)) ++ []) := by
    simp [fileHeader, contentTypeText_eq, List.append_assoc]
  have h1 := findDelim_append_self (rn ++ rn) d (by decide)
  rw [rnrn_eq] at h1 ⊢
  have hu2 : 13 ∉ 10 :: 67 :: (str "ontent-Type: " ++ c) := by
    simp only [List.mem_cons, List.mem_append, not_or]
    exact ⟨by decide, by decide, by decide, hc⟩
  have h2 := findDelim_skip 13 [10, 13, 10] _ _ _ _ hu2 h1
  have h3 := findDelim_cons_of_not_isPrefix (13 :: [10, 13, 10]) 13 _ _ _ (by simp) h2
  have hu1 : 13 ∉ str "Content-Disposition: form-data; name=\"" ++ f ++
      str "\"; filename=\"" ++ n ++ [34] := by
    simp only [List.mem_append, List.mem_singleton, not_or]
    exact ⟨⟨⟨⟨by decide, hf⟩, by decide⟩, hn⟩, by decide⟩
  have h4 := findDelim_skip 13 [10, 13, 10] _ _ _ _ hu1 h3
  rw [e]
  simpa [rn_eq, List.append_assoc] using h4

theorem parsePart_piece (boundary : Bytes) (op : Op) (hsafe : op.safe boundary) :
    parsePart op.piece = some op.toPart := by
  cases op with
  | addField name value =>
    obtain ⟨h34, h13, h37, _⟩ := hsafe
    unfold parsePart
    simp only [Op.piece, Op.toPart, fieldHeader_of_no_percent name h37, quoteText_eq,
      List.append_assoc]
    rw [after_append]
    have := findDelim_blank_field name value h13
    simp only [List.append_assoc] at this
    simp only [this, parseHeaders_field name h34]
    have := parseHeaders_field name h34
    simp only [List.append_assoc] at this
    simp only [this]
  | addBytesContentType f n c d =>
    obtain ⟨hf34, hf13, hn34, hn13, hc13, _⟩ := hsafe
    unfold parsePart
    simp only [Op.piece, Op.toPart, List.append_assoc]
    rw [after_append]
    have := findDelim_blank_file f n c d hf13 hn13 hc13
    simp only [List.append_assoc] at this
    simp only [this, parseHeaders_file f n c hf34 hn34]
  | addFileContentType f n c r =>
    obtain ⟨hf34, hf13, hn34, hn13, hc13, _⟩ := hsafe
    unfold parsePart
    simp only [Op.piece, Op.toPart, List.append_assoc]
    rw [after_append]
    have := findDelim_blank_file f n c r.content hf13 hn13 hc13
    simp only [List.append_assoc] at this
    simp only [this, parseHeaders_file f n c hf34 hn34]

/-! ## Parsing the whole body back -/

theorem splitAll_pieces (d : Bytes) (last : Bytes) (hlast : findDelim d last = none)
    (pieces : List Bytes)
    (hgood : ∀ p ∈ pieces, ∀ rest, findDelim d (p ++ d ++ rest) = some (p, rest))
    (fuel : Nat) (hfuel : pieces.length ≤ fuel) :
    splitAll d fuel (pieces.flatMap (fun p => p ++ d) ++ last) = pieces ++ [last] := by
  induction pieces generalizing fuel with
  | nil =>
    cases fuel with
    | zero => rfl
    | succ fuel => simp [splitAll, hlast]
  | cons p ps ih =>
    cases fuel with
    | zero => simp at hfuel
    | succ fuel =>
      have hp := hgood p (List.mem_cons_self _ _) (ps.flatMap (fun p => p ++ d) ++ last)
      have hps := ih (fun q hq => hgood q (List.mem_cons_of_mem _ hq)) fuel
        (by simpa using hfuel)
      rw [List.flatMap_cons, List.append_assoc]
      simp only [splitAll, hp, hps, List.cons_append]

theorem stream_eq (boundary : Bytes) (calls : List (Block × Op)) :
    calls.flatMap (fun c => c.2.framed boundary) ++ terminator boundary =
      delimiter boundary ++
        ((calls.map (fun c => c.2.piece)).flatMap (fun p => p ++ delimiter boundary)
          ++ (str "--" ++ rn)) := by
  induction calls with
  | nil => simp [terminator_eq]
  | cons c cs ih =>
    rw [List.flatMap_cons, List.append_assoc, ih, Op.framed_eq]
    simp [List.append_assoc]

theorem stream_length (boundary : Bytes) (calls : List (Block × Op)) :
    calls.length + 1 ≤
      (calls.flatMap (fun c => c.2.framed boundary) ++ terminator boundary).length := by
  induction calls with
  | nil => simp [terminator, rn_eq]
  | cons c cs ih =>
    rw [List.flatMap_cons, List.append_assoc, List.length_append, Op.framed_eq,
      List.length_append, delimiter_eq]
    simp only [List.length_cons] at ih ⊢
    omega

theorem findDelim_last (boundary : Bytes) :
    findDelim (delimiter boundary) (str "--" ++ rn) = none := by
  have : str "--" ++ rn = [45, 45, 13, 10] := rfl
  rw [this, delimiter_eq]
  simp [findDelim]

theorem piece_not_close (op : Op) : (str "--").isPrefixOf op.piece = false := by
  have h : ∀ s : Bytes, (str "--").isPrefixOf (rn ++ s) = false := by
    intro s
    rw [rn_eq, str_dashes]
    simp [List.isPrefixOf]
  cases op <;> simp only [Op.piece, List.append_assoc, h]

theorem parsePieces_pieces (boundary : Bytes) (calls : List (Block × Op))
    (hsafe : ∀ c ∈ calls, c.2.safe boundary) :
    parsePieces (calls.map (fun c => c.2.piece) ++ [str "--" ++ rn]) =
      some (calls.map (fun c => c.2.toPart)) := by
  induction calls with
  | nil =>
    have : (str "--").isPrefixOf (str "--" ++ rn) = true := by decide
    simp [parsePieces, this]
  | cons c cs ih =>
    have h1 := parsePart_piece boundary c.2 (hsafe c (List.mem_cons_self _ _))
    have h2 := ih (fun c' hc' => hsafe c' (List.mem_cons_of_mem _ hc'))
    simp only [List.map_cons, List.cons_append, parsePieces, piece_not_close, h1,
      List.append_eq, h2]
    simp

/-- The reference parser recovers the parts of a stream of framed parts closed by
the terminator, when the arguments of the calls are safe for the boundary. -/
theorem parseBody_stream (boundary : Bytes) (hB : 13 ∉ boundary) (calls : List (Block × Op))
    (hsafe : ∀ c ∈ calls, c.2.safe boundary) :
    parseBody boundary
        (calls.flatMap (fun c => c.2.framed boundary) ++ terminator boundary) =
      some (calls.map (fun c => c.2.toPart)) := by
  have hlen := stream_length boundary calls
  unfold parseBody
  rw [stream_eq] at hlen ⊢
  have hsplit := splitAll_pieces (delimiter boundary) (str "--" ++ rn) (findDelim_last boundary)
    ([] :: calls.map (fun c => c.2.piece))
    (by
      intro p hp rest
      rcases List.mem_cons.mp hp with h | h
      · rw [h]; exact findDelim_append_self _ _ (by rw [delimiter_eq]; simp)
      · obtain ⟨c, hc, rfl⟩ := List.mem_map.mp h
        exact findDelim_piece boundary c.2 rest hB (hsafe c hc))
    (delimiter boundary ++
      ((calls.map (fun c => c.2.piece)).flatMap (fun p => p ++ delimiter boundary)
        ++ (str "--" ++ rn))).length
    (by rw [List.length_cons, List.length_map]; exact hlen)
  rw [List.flatMap_cons, List.nil_append, List.append_assoc] at hsplit
  rw [hsplit]
  exact parsePieces_pieces boundary calls hsafe

theorem build_boundary_hex (calls : List (Block × Op)) :
    (build calls).boundary = [] ∨ ∃ b, (build calls).boundary = randomBoundary b := by
  induction calls using List.reverseRecOn with
  | nil => left; rfl
  | append_singleton calls c ih =>
    rw [build_append, Op.apply_boundary]
    unfold Multipart.ensureBoundary
    split
    · exact Or.inr ⟨c.1, rfl⟩
    · exact ih

theorem build_Done_boundary_hex (calls : List (Block × Op)) (buf : Block) :
    ∃ b, ((build calls).Done buf).boundary = randomBoundary b := by
  rw [Done_boundary]
  unfold Multipart.ensureBoundary
  split
  · exact ⟨buf, rfl⟩
  · rename_i h
    rcases build_boundary_hex calls with h1 | h1
    · exact absurd h1 h
    · exact h1

theorem cr_not_mem_boundary (calls : List (Block × Op)) (buf : Block) :
    13 ∉ ((build calls).Done buf).boundary := by
  obtain ⟨b, hb⟩ := build_Done_boundary_hex calls buf
  rw [hb]
  intro h
  have := randomBoundary_digits b 13 h
  omega

/-! ## The round trip -/

set_option maxRecDepth 1000000 in
/-- C2, at a failing input: the body built by `AddField("a\"b", "v")` and `Done`
is read to `io.EOF` (buffers of 64 bytes), and the reference parser does not
recover the field `a"b` = `v` from the bytes read: the quote in the name closes
the quoted parameter. -/
theorem roundtrip_quote_counterexample :
    (readToEOF 16 ((build [(zeroBlock, Op.addField (str "a\"b") (str "v"))]).Done zeroBlock)
        64).isSome = true ∧
    (readToEOF 16 ((build [(zeroBlock, Op.addField (str "a\"b") (str "v"))]).Done zeroBlock)
        64).map (fun r => parseBody
          ((build [(zeroBlock, Op.addField (str "a\"b") (str "v"))]).Done zeroBlock).boundary
          r.1) ≠
      some (some [Part.field (str "a\"b") (str "v")]) := by
  decide

/-- C2, amended: for every sequence of `AddField`, `AddBytesContentType` and
`AddFileContentType` calls over error-free readers followed by `Done`, whose
arguments are safe for the boundary of the body (no double quote or carriage
return in a name or file name, no percent sign in a field name, no carriage return
in a content type, no payload that contains `\r\n--<boundary>` or starts with
`--<boundary>`), reading the body to `io.EOF` with buffers of any length `>= 1`
ends, and the reference parser recovers from the bytes read, in order, every
field's name and value and every file's field name, file name, content type and
content. -/
theorem roundtrip_safe (calls : List (Block × Op)) (buf : Block) (len : Nat)
    (hlen : 1 ≤ len) (hef : ∀ c ∈ calls, c.2.errorFree = true)
    (hsafe : ∀ c ∈ calls, c.2.safe ((build calls).Done buf).boundary) :
    ∃ n, ∀ fuel, n ≤ fuel →
      ∃ out m', readToEOF fuel ((build calls).Done buf) len = some (out, m') ∧
        parseBody ((build calls).Done buf).boundary out =
          some (calls.map (fun c => c.2.toPart)) := by
  refine ⟨sourcesCost ((build calls).Done buf).fields + 1, fun fuel h => ?_⟩
  obtain ⟨m', hm'⟩ := build_Done_readToEOF calls buf len hlen hef fuel (by omega)
  exact ⟨_, m', hm', parseBody_stream _ (cr_not_mem_boundary calls buf) calls hsafe⟩

theorem roundtrip_safe_witness :
    1 ≤ 5 ∧
    (∀ c ∈ [(zeroBlock, Op.addField (str "test1") (str "value1")),
            (zeroBlock, Op.addBytesContentType (str "bytes") (str "data.bin") octetType
              (str "hello!"))],
      c.2.errorFree = true) ∧
    (∀ c ∈ [(zeroBlock, Op.addField (str "test1") (str "value1")),
            (zeroBlock, Op.addBytesContentType (str "bytes") (str "data.bin") octetType
              (str "hello!"))],
      c.2.safe ((build [(zeroBlock, Op.addField (str "test1") (str "value1")),
            (zeroBlock, Op.addBytesContentType (str "bytes") (str "data.bin") octetType
              (str "hello!"))]).Done zeroBlock).boundary) ∧
    ∃ n, ∀ fuel, n ≤ fuel →
      ∃ out m', readToEOF fuel
          ((build [(zeroBlock, Op.addField (str "test1") (str "value1")),
            (zeroBlock, Op.addBytesContentType (str "bytes") (str "data.bin") octetType
              (str "hello!"))]).Done zeroBlock) 5 = some (out, m') ∧
        parseBody ((build [(zeroBlock, Op.addField (str "test1") (str "value1")),
            (zeroBlock, Op.addBytesContentType (str "bytes") (str "data.bin") octetType
              (str "hello!"))]).Done zeroBlock).boundary out =
          some [Part.field (str "test1") (str "value1"),
                Part.file (str "bytes") (str "data.bin") octetType (str "hello!")] :=
  ⟨by decide, by decide, by decide,
   roundtrip_safe _ zeroBlock 5 (by decide) (by decide) (by decide)⟩

/-! ## The frame of the appending operations -/

/-- C15: each of `AddField`, `AddBytes`, `AddBytesContentType`, `AddFile`,
`AddFileContentType` and, when the open succeeds, `AddFileFromDisk` and
`AddFileFromDiskContentType` makes the sequence of sources one longer, the new
source being the last and the sources present before staying as they were and in
their order; the cursor and the finalized flag are unchanged. -/
theorem append_frame (m : Multipart) (buf : Block) (fs : FileSystem)
    (name value fileName contentType data filePath : Bytes) (reader : ExtReader) :
    (∃ e, (m.AddField buf name value).fields = m.fields ++ [e]) ∧
    (m.AddField buf name value).writingIdx = m.writingIdx ∧
    (m.AddField buf name value).closed = m.closed ∧
    (∃ e, (m.AddBytes buf name fileName data).fields = m.fields ++ [e]) ∧
    (m.AddBytes buf name fileName data).writingIdx = m.writingIdx ∧
    (m.AddBytes buf name fileName data).closed = m.closed ∧
    (∃ e, (m.AddBytesContentType buf name fileName contentType data).fields = m.fields ++ [e]) ∧
    (m.AddBytesContentType buf name fileName contentType data).writingIdx = m.writingIdx ∧
    (m.AddBytesContentType buf name fileName contentType data).closed = m.closed ∧
    (∃ e, (m.AddFile buf name fileName reader).fields = m.fields ++ [e]) ∧
    (m.AddFile buf name fileName reader).writingIdx = m.writingIdx ∧
    (m.AddFile buf name fileName reader).closed = m.closed ∧
    (∃ e, (m.AddFileContentType buf name fileName contentType reader).fields
      = m.fields ++ [e]) ∧
    (m.AddFileContentType buf name fileName contentType reader).writingIdx = m.writingIdx ∧
    (m.AddFileContentType buf name fileName contentType reader).closed = m.closed ∧
    ((∃ f, fs filePath = Except.ok f) →
      (∃ e, (m.AddFileFromDisk fs buf name filePath).2.fields = m.fields ++ [e]) ∧
      (m.AddFileFromDisk fs buf name filePath).2.writingIdx = m.writingIdx ∧
      (m.AddFileFromDisk fs buf name filePath).2.closed = m.closed ∧
      (∃ e, (m.AddFileFromDiskContentType fs buf name contentType filePath).2.fields
        = m.fields ++ [e]) ∧
      (m.AddFileFromDiskContentType fs buf name contentType filePath).2.writingIdx
        = m.writingIdx ∧
      (m.AddFileFromDiskContentType fs buf name contentType filePath).2.closed = m.closed) := by
  refine ⟨⟨_, Op.apply_fields (Op.addField name value) m buf⟩,
    Op.apply_writingIdx (Op.addField name value) m buf,
    Op.apply_closed (Op.addField name value) m buf,
    ⟨_, Op.apply_fields (Op.addBytesContentType name fileName octetType data) m buf⟩,
    Op.apply_writingIdx (Op.addBytesContentType name fileName octetType data) m buf,
    Op.apply_closed (Op.addBytesContentType name fileName octetType data) m buf,
    ⟨_, Op.apply_fields (Op.addBytesContentType name fileName contentType data) m buf⟩,
    Op.apply_writingIdx (Op.addBytesContentType name fileName contentType data) m buf,
    Op.apply_closed (Op.addBytesContentType name fileName contentType data) m buf,
    ⟨_, Op.apply_fields (Op.addFileContentType name fileName octetType reader) m buf⟩,
    Op.apply_writingIdx (Op.addFileContentType name fileName octetType reader) m buf,
    Op.apply_closed (Op.addFileContentType name fileName octetType reader) m buf,
    ⟨_, Op.apply_fields (Op.addFileContentType name fileName contentType reader) m buf⟩,
    Op.apply_writingIdx (Op.addFileContentType name fileName contentType reader) m buf,
    Op.apply_closed (Op.addFileContentType name fileName contentType reader) m buf, ?_⟩
  rintro ⟨f, hf⟩
  simp only [Multipart.AddFileFromDisk, Multipart.AddFileFromDiskContentType, hf]
  exact ⟨⟨_, Op.apply_fields (Op.addFileContentType name (filepath.Base filePath) octetType
      f.reader) { m with toClose := m.toClose ++ [f] } buf⟩,
    Op.apply_writingIdx (Op.addFileContentType name (filepath.Base filePath) octetType
      f.reader) { m with toClose := m.toClose ++ [f] } buf,
    Op.apply_closed (Op.addFileContentType name (filepath.Base filePath) octetType
      f.reader) { m with toClose := m.toClose ++ [f] } buf,
    ⟨_, Op.apply_fields (Op.addFileContentType name (filepath.Base filePath) contentType
      f.reader) { m with toClose := m.toClose ++ [f] } buf⟩,
    Op.apply_writingIdx (Op.addFileContentType name (filepath.Base filePath) contentType
      f.reader) { m with toClose := m.toClose ++ [f] } buf,
    Op.apply_closed (Op.addFileContentType name (filepath.Base filePath) contentType
      f.reader) { m with toClose := m.toClose ++ [f] } buf⟩

theorem append_frame_witness :
    (∃ f, oneFile [] none (str "a") = Except.ok f) ∧
    (∃ e, (Multipart.zero.AddFileFromDisk (oneFile [] none) zeroBlock (str "f")
      (str "a")).2.fields = Multipart.zero.fields ++ [e]) :=
  ⟨⟨_, rfl⟩,
   ((append_frame Multipart.zero zeroBlock (oneFile [] none) (str "f") [] [] [] []
      (str "a") []).2.2.2.2.2.2.2.2.2.2.2.2.2.2.2 ⟨_, rfl⟩).1⟩

/-! ## The variants without a content type -/

/-- C16: the variants without a content-type parameter are the content-type
variants applied to `application/octet-stream`, in the resulting body and in the
error returned. -/
theorem default_content_type (m : Multipart) (buf : Block) (fs : FileSystem)
    (f n d p : Bytes) (r : ExtReader) :
    m.AddBytes buf f n d =
      m.AddBytesContentType buf f n (str "application/octet-stream") d ∧
    m.AddFile buf f n r =
      m.AddFileContentType buf f n (str "application/octet-stream") r ∧
    m.AddFileFromDisk fs buf f p =
      m.AddFileFromDiskContentType fs buf f (str "application/octet-stream") p :=
  ⟨rfl, rfl, rfl⟩

/-! ## A file that is opened -/

theorem Base_of_no_separator (name : Bytes) (hne : name ≠ []) (h : 47 ∉ name) :
    filepath.Base name = name := by
  have hrev : name.reverse ≠ [] := by simpa using hne
  have hp : ∀ c ∈ name.reverse, (fun c : Nat => decide (c ≠ 47)) c = true := by
    intro c hc
    simp only [decide_eq_true_eq]
    rintro rfl
    exact h (List.mem_reverse.mp hc)
  have hstrip : filepath.stripTrailing name = name := by
    unfold filepath.stripTrailing
    cases hr : name.reverse with
    | nil => exact absurd hr hrev
    | cons x t =>
      have hx : x ≠ 47 := by
        have := hp x (by rw [hr]; exact List.mem_cons_self _ _)
        simpa using this
      rw [List.dropWhile_cons_of_neg (by simpa using hx), ← hr, List.reverse_reverse]
  unfold filepath.Base
  simp only [hne, if_false, hstrip]
  have htake : name.reverse.takeWhile (fun c => decide (c ≠ 47)) = name.reverse := by
    rw [List.takeWhile_eq_self_iff]; exact hp
  simp only [htake, List.reverse_reverse, hne, if_false]

theorem Base_of_dir (dir name : Bytes) (hne : name ≠ []) (h : 47 ∉ name) :
    filepath.Base (dir ++ 47 :: name) = name := by
  have hrev : name.reverse ≠ [] := by simpa using hne
  have hp : ∀ c ∈ name.reverse, (fun c : Nat => decide (c ≠ 47)) c = true := by
    intro c hc
    simp only [decide_eq_true_eq]
    rintro rfl
    exact h (List.mem_reverse.mp hc)
  have hpath : (dir ++ 47 :: name).reverse = name.reverse ++ 47 :: dir.reverse := by simp
  have hstrip : filepath.stripTrailing (dir ++ 47 :: name) = dir ++ 47 :: name := by
    unfold filepath.stripTrailing
    rw [hpath]
    cases hr : name.reverse with
    | nil => exact absurd hr hrev
    | cons x t =>
      have hx : x ≠ 47 := by
        have := hp x (by rw [hr]; exact List.mem_cons_self _ _)
        simpa using this
      rw [List.cons_append, List.dropWhile_cons_of_neg (by simpa using hx), ← List.cons_append,
        ← hr, ← hpath, List.reverse_reverse]
  unfold filepath.Base
  have hne' : dir ++ 47 :: name ≠ [] := by simp
  simp only [hne', if_false, hstrip, hpath]
  rw [List.takeWhile_append_of_pos hp]
  simp [hne]

theorem Base_nil : filepath.Base [] = str "." := rfl

theorem Base_of_separators (path : Bytes) (hne : path ≠ []) (h : ∀ c ∈ path, c = 47) :
    filepath.Base path = str "/" := by
  have hp : ∀ c ∈ path.reverse, (fun c : Nat => decide (c = 47)) c = true := by
    intro c hc
    simp only [decide_eq_true_eq]
    exact h c (List.mem_reverse.mp hc)
  have hstrip : filepath.stripTrailing path = [] := by
    unfold filepath.stripTrailing
    rw [List.dropWhile_eq_nil_iff.mpr hp]
    rfl
  unfold filepath.Base
  simp only [hne, if_false, hstrip]
  rfl

/-- The last element of a path: after the trailing separators are removed, the
name that follows the last separator, or the whole of what is left when it has
no separator. -/
theorem Base_of_last_element (pre name trail : Bytes) (hne : name ≠ []) (h : 47 ∉ name)
    (ht : ∀ c ∈ trail, c = 47) (hpre : pre = [] ∨ ∃ d, pre = d ++ [47]) :
    filepath.Base (pre ++ name ++ trail) = name := by
  have hrev : name.reverse ≠ [] := by simpa using hne
  have hpn : ∀ c ∈ name.reverse, (fun c : Nat => decide (c ≠ 47)) c = true := by
    intro c hc
    simp only [decide_eq_true_eq]
    rintro rfl
    exact h (List.mem_reverse.mp hc)
  have hpt : ∀ c ∈ trail.reverse, (fun c : Nat => decide (c = 47)) c = true := by
    intro c hc
    simp only [decide_eq_true_eq]
    exact ht c (List.mem_reverse.mp hc)
  have hpath : (pre ++ name ++ trail).reverse = trail.reverse ++ (name.reverse ++ pre.reverse) := by
    simp
  have hstrip : filepath.stripTrailing (pre ++ name ++ trail) = pre ++ name := by
    unfold filepath.stripTrailing
    rw [hpath, List.dropWhile_append_of_pos hpt]
    cases hr : name.reverse with
    | nil => exact absurd hr hrev
    | cons x t =>
      have hx : x ≠ 47 := by
        have := hpn x (by rw [hr]; exact List.mem_cons_self _ _)
        simpa using this
      rw [List.cons_append, List.dropWhile_cons_of_neg (by simpa using hx), ← List.cons_append,
        ← hr]
      simp
  have hne' : pre ++ name ++ trail ≠ [] := by
    cases name with
    | nil => exact absurd rfl hne
    | cons x t => simp
  have htake : (pre.reverse).takeWhile (fun c : Nat => decide (c ≠ 47)) = [] := by
    rcases hpre with hpre | ⟨d, hpre⟩
    · rw [hpre]; rfl
    · rw [hpre]; simp
  unfold filepath.Base
  simp only [hne', if_false, hstrip, List.reverse_append]
  rw [List.takeWhile_append_of_pos hpn, htake]
  simp [hne]

/-- Every path is empty, made of separators only, or ends with a last element
followed by separators only. -/
theorem path_cases (path : Bytes) :
    path = [] ∨ (path ≠ [] ∧ ∀ c ∈ path, c = 47) ∨
    ∃ pre name trail, name ≠ [] ∧ 47 ∉ name ∧ (∀ c ∈ trail, c = 47) ∧
      (pre = [] ∨ ∃ d, pre = d ++ [47]) ∧ path = pre ++ name ++ trail := by
  by_cases hnil : path = []
  · exact Or.inl hnil
  right
  by_cases hall : ∀ c ∈ path, c = 47
  · exact Or.inl ⟨hnil, hall⟩
  right
  have h1 := List.takeWhile_append_dropWhile (fun c : Nat => decide (c = 47)) path.reverse
  have hr1 : path.reverse.dropWhile (fun c : Nat => decide (c = 47)) ≠ [] := by
    intro hh
    apply hall
    intro c hc
    have := List.dropWhile_eq_nil_iff.mp hh c (List.mem_reverse.mpr hc)
    simpa using this
  have h2 := List.takeWhile_append_dropWhile (fun c : Nat => decide (c ≠ 47))
    (path.reverse.dropWhile (fun c : Nat => decide (c = 47)))
  have hpath : path =
      ((path.reverse.dropWhile (fun c : Nat => decide (c = 47))).dropWhile
          (fun c : Nat => decide (c ≠ 47))).reverse ++
        ((path.reverse.dropWhile (fun c : Nat => decide (c = 47))).takeWhile
          (fun c : Nat => decide (c ≠ 47))).reverse ++
        (path.reverse.takeWhile (fun c : Nat => decide (c = 47))).reverse := by
    rw [← List.reverse_append, ← List.reverse_append, h2, h1,
      List.reverse_reverse]
  refine ⟨_, _, _, ?_, ?_, ?_, ?_, hpath⟩
  · -- the name is not empty: what follows the trailing separators starts with another byte
    intro hh
    have hhead := List.head_dropWhile_not (fun c : Nat => decide (c = 47)) path.reverse hr1
    rw [List.reverse_eq_nil_iff] at hh
    cases hd : path.reverse.dropWhile (fun c : Nat => decide (c = 47)) with
    | nil => exact hr1 hd
    | cons x t =>
      simp only [hd, List.head_cons, decide_eq_false_iff_not] at hhead
      rw [hd, List.takeWhile_cons] at hh
      simp [hhead] at hh
  · intro hmem
    have := List.mem_takeWhile_imp (List.mem_reverse.mp hmem)
    simp at this
  · intro c hc
    have := List.mem_takeWhile_imp (List.mem_reverse.mp hc)
    simpa using this
  · cases hd : (path.reverse.dropWhile (fun c : Nat => decide (c = 47))).dropWhile
        (fun c : Nat => decide (c ≠ 47)) with
    | nil => exact Or.inl rfl
    | cons x t =>
      right
      have hne : (path.reverse.dropWhile (fun c : Nat => decide (c = 47))).dropWhile
          (fun c : Nat => decide (c ≠ 47)) ≠ [] := by rw [hd]; simp
      have hhead := List.head_dropWhile_not (fun c : Nat => decide (c ≠ 47)) _ hne
      simp only [hd, List.head_cons, decide_eq_false_iff_not, ne_eq, not_not] at hhead
      exact ⟨t.reverse, by rw [hhead]; simp⟩

/-- C11: when opening `filePath` succeeds with the handle `f`,
`AddFileFromDiskContentType` returns nil, appends `f`, and only `f`, at the end of
the owned files, and otherwise has the effect of `AddFileContentType` with the file
name `filepath.Base(filePath)` and `f` as reader; the base is the last element of
the path: with the trailing separators set aside, the name after the last
separator, or the whole of it when it has none (`.` for the empty path and `/` for
a path of separators only, the two paths without an element); every path is of one
of these forms. -/
theorem AddFileFromDisk_open_succeeds (m : Multipart) (fs : FileSystem) (buf : Block)
    (fieldName contentType filePath : Bytes) (f : OsFile) (h : fs filePath = Except.ok f) :
    (m.AddFileFromDiskContentType fs buf fieldName contentType filePath).1 = none ∧
    (m.AddFileFromDiskContentType fs buf fieldName contentType filePath).2.toClose
      = m.toClose ++ [f] ∧
    (m.AddFileFromDiskContentType fs buf fieldName contentType filePath).2 =
      { m.AddFileContentType buf fieldName (filepath.Base filePath) contentType f.reader with
        toClose := m.toClose ++ [f] } ∧
    (∀ dir name, name ≠ [] → 47 ∉ name → filePath = dir ++ 47 :: name →
      filepath.Base filePath = name) ∧
    (filePath ≠ [] → 47 ∉ filePath → filepath.Base filePath = filePath) ∧
    (∀ pre name trail, name ≠ [] → 47 ∉ name → (∀ c ∈ trail, c = 47) →
      (pre = [] ∨ ∃ d, pre = d ++ [47]) → filePath = pre ++ name ++ trail →
      filepath.Base filePath = name) ∧
    (filePath = [] → filepath.Base filePath = str ".") ∧
    (filePath ≠ [] → (∀ c ∈ filePath, c = 47) → filepath.Base filePath = str "/") ∧
    (filePath = [] ∨ (filePath ≠ [] ∧ ∀ c ∈ filePath, c = 47) ∨
      ∃ pre name trail, name ≠ [] ∧ 47 ∉ name ∧ (∀ c ∈ trail, c = 47) ∧
        (pre = [] ∨ ∃ d, pre = d ++ [47]) ∧ filePath = pre ++ name ++ trail) := by
  refine ⟨?_, ?_, ?_, ?_, ?_, ?_, ?_, ?_, path_cases filePath⟩
  · simp [Multipart.AddFileFromDiskContentType, h]
  · simp only [Multipart.AddFileFromDiskContentType, h]
    exact Op.apply_toClose (Op.addFileContentType fieldName (filepath.Base filePath)
      contentType f.reader) { m with toClose := m.toClose ++ [f] } buf
  · simp only [Multipart.AddFileFromDiskContentType, h, Multipart.AddFileContentType,
      Multipart.ensureBoundary]
    split <;> rfl
  · intro dir name hne hs hp
    rw [hp]; exact Base_of_dir dir name hne hs
  · intro hne hs
    exact Base_of_no_separator filePath hne hs
  · intro pre name trail hne hs ht hpre hp
    rw [hp]; exact Base_of_last_element pre name trail hne hs ht hpre
  · intro hp
    rw [hp]; exact Base_nil
  · intro hne hs
    exact Base_of_separators filePath hne hs

theorem AddFileFromDisk_open_succeeds_witness :
    oneFile [⟨str "x", none⟩] none (str "./fixture/test.txt") =
      Except.ok ⟨[⟨str "x", none⟩], none, 0⟩ ∧
    oneFile [] none (str "sub//dir///") = Except.ok ⟨[], none, 0⟩ ∧
    (Multipart.zero.AddFileFromDiskContentType (oneFile [⟨str "x", none⟩] none) zeroBlock
      (str "file") octetType (str "./fixture/test.txt")).2.toClose =
      Multipart.zero.toClose ++ [⟨[⟨str "x", none⟩], none, 0⟩] ∧
    filepath.Base (str "./fixture/test.txt") = str "test.txt" ∧
    filepath.Base (str "sub//dir///") = str "dir" :=
  ⟨rfl, rfl,
   (AddFileFromDisk_open_succeeds Multipart.zero (oneFile [⟨str "x", none⟩] none) zeroBlock
      (str "file") octetType (str "./fixture/test.txt") ⟨[⟨str "x", none⟩], none, 0⟩ rfl).2.1,
   (AddFileFromDisk_open_succeeds Multipart.zero (oneFile [⟨str "x", none⟩] none) zeroBlock
      (str "file") octetType (str "./fixture/test.txt") ⟨[⟨str "x", none⟩], none, 0⟩
      rfl).2.2.2.1 (str "./fixture") (str "test.txt") (by decide) (by decide) (by decide),
   (AddFileFromDisk_open_succeeds Multipart.zero (oneFile [] none) zeroBlock
      (str "file") octetType (str "sub//dir///") ⟨[], none, 0⟩
      rfl).2.2.2.2.2.1 (str "sub//") (str "dir") (str "///") (by decide) (by decide)
      (by decide) (Or.inr ⟨str "sub/", by decide⟩) (by decide)⟩

/-! ## Sequences of calls from a reachable body -/

theorem runAll_append (m : Multipart) (acts acts' : List (Block × Action)) :
    runAll m (acts ++ acts') = runAll (runAll m acts) acts' := by
  simp [runAll, List.foldl_append]

theorem runAll_cons (m : Multipart) (a : Block × Action) (acts : List (Block × Action)) :
    runAll m (a :: acts) = runAll (a.2.run m a.1) acts := rfl

theorem runAll_boundary (m : Multipart) (acts : List (Block × Action)) (h : m.boundary ≠ []) :
    (runAll m acts).boundary = m.boundary := by
  induction acts generalizing m with
  | nil => rfl
  | cons a acts ih =>
    have h1 : (a.2.run m a.1).boundary = m.boundary := by
      rcases Action.run_boundary a.2 m a.1 with h' | h'
      · exact h'
      · rw [h', ensureBoundary_of_ne_nil _ _ h]
    rw [runAll_cons, ih _ (by rw [h1]; exact h), h1]

/-! ## The header value -/

/-- C17: `ContentTypeHeaderValue` returns `multipart/form-data; boundary=` followed
by the boundary of the body, generating it when the body has none (so also as the
first operation on the zero value) and changing nothing else; in a body reached
from the zero value, whatever calls come before and after, every source is a part
whose delimiter line carries that boundary or the terminator of `Done` for that
boundary. -/
theorem ContentTypeHeaderValue_boundary (m : Multipart) (buf : Block)
    (acts acts' : List (Block × Action)) :
    (m.ContentTypeHeaderValue buf).1 =
      str "multipart/form-data; boundary=" ++ (m.ContentTypeHeaderValue buf).2.boundary ∧
    (m.ContentTypeHeaderValue buf).2 = m.ensureBoundary buf ∧
    (Multipart.zero.ContentTypeHeaderValue buf).1 =
      str "multipart/form-data; boundary=" ++ randomBoundary buf ∧
    (runAll ((runAll Multipart.zero acts).ContentTypeHeaderValue buf).2 acts').boundary =
      ((runAll Multipart.zero acts).ContentTypeHeaderValue buf).2.boundary ∧
    (∀ e ∈ (runAll ((runAll Multipart.zero acts).ContentTypeHeaderValue buf).2 acts').fields,
      e.isPart ((runAll Multipart.zero acts).ContentTypeHeaderValue buf).2.boundary ∨
      e.isTerminator ((runAll Multipart.zero acts).ContentTypeHeaderValue buf).2.boundary) := by
  have hb : ((runAll Multipart.zero acts).ContentTypeHeaderValue buf).2.boundary ≠ [] :=
    ensureBoundary_boundary_ne_nil _ buf
  have hrun := runAll_boundary _ acts' hb
  refine ⟨rfl, rfl, rfl, hrun, ?_⟩
  intro e he
  have hinv : SourcesInv
      (runAll ((runAll Multipart.zero acts).ContentTypeHeaderValue buf).2 acts') :=
    ((SourcesInv.zero.runAll acts).ensureBoundary buf).runAll acts'
  rw [← hrun]
  rcases hinv.2 e he with h | h
  · exact Or.inl h
  · exact Or.inr h.2

/-! ## The cursor -/

/-- What one call of `Read` does to the sources and the cursor: nothing, or the
source under the cursor is replaced by its state after the read and the cursor
stays or advances by one. -/
theorem Read_frame (m : Multipart) (len : Nat) :
    ((m.Read len).2.fields = m.fields ∧ (m.Read len).2.writingIdx = m.writingIdx) ∨
    (m.writingIdx < m.fields.length ∧
      (∃ e', (m.Read len).2.fields = m.fields.set m.writingIdx e') ∧
      ((m.Read len).2.writingIdx = m.writingIdx ∨
        (m.Read len).2.writingIdx = m.writingIdx + 1)) := by
  unfold Multipart.Read
  simp only
  split
  · exact Or.inl ⟨rfl, rfl⟩
  · split
    · split <;> exact Or.inl ⟨rfl, rfl⟩
    · rename_i hlt
      split
      · exact Or.inl ⟨rfl, rfl⟩
      · rename_i e _
        right
        refine ⟨Nat.lt_of_not_le hlt, ?_⟩
        rcases e.Read len with ⟨⟨out, err⟩, e'⟩
        simp only
        split
        · exact ⟨⟨e', rfl⟩, Or.inr rfl⟩
        · exact ⟨⟨e', rfl⟩, Or.inl rfl⟩

/-- What a call other than `Read` does to the sources and the cursor: the cursor
stays, the sources stay or one source is appended. -/
theorem Action.run_frame (a : Action) (m : Multipart) (buf : Block) (h : a.isRead = false) :
    (a.run m buf).writingIdx = m.writingIdx ∧
    ((a.run m buf).fields = m.fields ∨ ∃ e, (a.run m buf).fields = m.fields ++ [e]) := by
  have hop : ∀ (op : Op) (m : Multipart), (op.apply m buf).writingIdx = m.writingIdx ∧
      ((op.apply m buf).fields = m.fields ∨ ∃ e, (op.apply m buf).fields = m.fields ++ [e]) :=
    fun op m => ⟨Op.apply_writingIdx op m buf, Or.inr ⟨_, Op.apply_fields op m buf⟩⟩
  have hdone : ∀ m : Multipart, (m.Done buf).writingIdx = m.writingIdx ∧
      ((m.Done buf).fields = m.fields ∨ ∃ e, (m.Done buf).fields = m.fields ++ [e]) := by
    intro m
    unfold Multipart.Done
    cases hc : m.closed <;> simp [hc]
  cases a with
  | addField n v => exact hop (Op.addField n v) m
  | addBytes f n d => exact hop (Op.addBytesContentType f n octetType d) m
  | addBytesContentType f n c d => exact hop (Op.addBytesContentType f n c d) m
  | addFile f n r => exact hop (Op.addFileContentType f n octetType r) m
  | addFileContentType f n c r => exact hop (Op.addFileContentType f n c r) m
  | addFileFromDisk fs f p =>
    simp only [Action.run, Multipart.AddFileFromDisk, Multipart.AddFileFromDiskContentType]
    split
    · exact ⟨rfl, Or.inl rfl⟩
    · rename_i file _
      exact hop (Op.addFileContentType f (filepath.Base p) octetType file.reader)
        { m with toClose := m.toClose ++ [file] }
  | addFileFromDiskContentType fs f c p =>
    simp only [Action.run, Multipart.AddFileFromDiskContentType]
    split
    · exact ⟨rfl, Or.inl rfl⟩
    · rename_i file _
      exact hop (Op.addFileContentType f (filepath.Base p) c file.reader)
        { m with toClose := m.toClose ++ [file] }
  | done => exact hdone m
  | contentTypeHeaderValue =>
    exact ⟨ensureBoundary_writingIdx m buf, Or.inl (ensureBoundary_fields m buf)⟩
  | attachToRequest r =>
    simp only [Action.run, Multipart.AttachToRequest, Multipart.ContentTypeHeaderValue,
      ensureBoundary_writingIdx, ensureBoundary_fields]
    exact hdone m
  | read len => simp [Action.isRead] at h

/-- One call of any operation, on a body whose cursor is within bounds: the cursor
stays within bounds, does not go back, and the sources before it are untouched. -/
theorem Action.run_cursor (a : Action) (m : Multipart) (buf : Block)
    (h : m.writingIdx ≤ m.fields.length) :
    (a.run m buf).writingIdx ≤ (a.run m buf).fields.length ∧
    m.writingIdx ≤ (a.run m buf).writingIdx ∧
    (a.run m buf).fields.take m.writingIdx = m.fields.take m.writingIdx := by
  cases hr : a.isRead with
  | false =>
    obtain ⟨h1, h2⟩ := Action.run_frame a m buf hr
    rw [h1]
    rcases h2 with h2 | ⟨e, h2⟩
    · rw [h2]; exact ⟨h, Nat.le_refl _, rfl⟩
    · rw [h2]
      exact ⟨by simp only [List.length_append, List.length_singleton]; omega, Nat.le_refl _,
        List.take_append_of_le_length h⟩
  | true =>
    cases a <;> simp [Action.isRead] at hr
    rename_i len
    simp only [Action.run]
    rcases Read_frame m len with ⟨h1, h2⟩ | ⟨hlt, ⟨e', h1⟩, h2⟩
    · rw [h1, h2]; exact ⟨h, Nat.le_refl _, rfl⟩
    · rw [h1, List.length_set]
      refine ⟨by omega, by omega, ?_⟩
      rw [List.set_take, List.set_eq_of_length_le (by rw [List.length_take]; omega)]

theorem runAll_cursor (m : Multipart) (acts : List (Block × Action))
    (h : m.writingIdx ≤ m.fields.length) :
    (runAll m acts).writingIdx ≤ (runAll m acts).fields.length ∧
    m.writingIdx ≤ (runAll m acts).writingIdx ∧
    (runAll m acts).fields.take m.writingIdx = m.fields.take m.writingIdx := by
  induction acts generalizing m with
  | nil => exact ⟨h, Nat.le_refl _, rfl⟩
  | cons a acts ih =>
    obtain ⟨h1, h2, h3⟩ := Action.run_cursor a.2 m a.1 h
    obtain ⟨k1, k2, k3⟩ := ih (a.2.run m a.1) h1
    rw [runAll_cons]
    refine ⟨k1, Nat.le_trans h2 k2, ?_⟩
    have := congrArg (List.take m.writingIdx) k3
    rw [List.take_take, List.take_take, Nat.min_eq_left h2] at this
    rw [this, h3]

theorem ReadSource_eq_some (m : Multipart) (i : Nat) (h : m.ReadSource = some i) :
    i = m.writingIdx ∧ m.closed = true ∧ m.writingIdx < m.fields.length := by
  unfold Multipart.ReadSource at h
  cases hc : m.closed
  · simp [hc] at h
  · by_cases hge : m.writingIdx ≥ m.fields.length
    · simp [hc, hge] at h
    · simp only [hc, Bool.not_true, Bool.false_eq_true, if_false, hge, Option.some.injEq] at h
      exact ⟨h.symm, rfl, Nat.lt_of_not_le hge⟩

theorem Read_of_ReadSource_none (m : Multipart) (len : Nat) (h : m.ReadSource = none) :
    (m.Read len).2.fields = m.fields ∧ (m.Read len).2.writingIdx = m.writingIdx := by
  unfold Multipart.ReadSource at h
  unfold Multipart.Read
  simp only
  split
  · exact ⟨rfl, rfl⟩
  · rename_i hc
    rw [if_neg hc] at h
    split
    · split <;> exact ⟨rfl, rfl⟩
    · rename_i hge
      rw [if_neg hge] at h
      exact absurd h (by simp)

theorem readTrace_ge (m : Multipart) (acts : List (Block × Action))
    (h : m.writingIdx ≤ m.fields.length) :
    ∀ i ∈ readTrace m acts, m.writingIdx ≤ i := by
  induction acts generalizing m with
  | nil => intro i hi; simp [readTrace] at hi
  | cons a acts ih =>
    obtain ⟨h1, h2, _⟩ := Action.run_cursor a.2 m a.1 h
    intro i hi
    simp only [readTrace, List.mem_append] at hi
    rcases hi with hi | hi
    · split at hi
      · simp only [Option.mem_toList, Option.mem_def] at hi
        exact Nat.le_of_eq (ReadSource_eq_some m i hi).1.symm
      · simp at hi
    · exact Nat.le_trans h2 (ih _ h1 i hi)

/-- C19: the cursor invariant.  In every body reached from the zero value the
cursor is at most the number of sources; a call of `Read` leaves the cursor or
advances it by one, and no other operation changes it; `Read` indexes the sources
only at the cursor and only when the cursor is below their number, and otherwise
leaves sources and cursor as they are; and whatever calls follow, the sources read
are at or after the cursor and the sources before the cursor stay as they are. -/
theorem cursor_invariant (acts acts' : List (Block × Action)) (m : Multipart) (buf : Block)
    (a : Action) (len : Nat) :
    (runAll Multipart.zero acts).writingIdx ≤ (runAll Multipart.zero acts).fields.length ∧
    ((m.Read len).2.writingIdx = m.writingIdx ∨
      (m.Read len).2.writingIdx = m.writingIdx + 1) ∧
    (a.isRead = false → (a.run m buf).writingIdx = m.writingIdx) ∧
    (∀ i, m.ReadSource = some i → i = m.writingIdx ∧ ∃ e, m.fields.get? i = some e) ∧
    (m.ReadSource = none →
      (m.Read len).2.fields = m.fields ∧ (m.Read len).2.writingIdx = m.writingIdx) ∧
    (∀ i ∈ readTrace (runAll Multipart.zero acts) acts',
      (runAll Multipart.zero acts).writingIdx ≤ i) ∧
    (runAll (runAll Multipart.zero acts) acts').fields.take
        (runAll Multipart.zero acts).writingIdx =
      (runAll Multipart.zero acts).fields.take (runAll Multipart.zero acts).writingIdx := by
  have h0 : (runAll Multipart.zero acts).writingIdx ≤
      (runAll Multipart.zero acts).fields.length :=
    (runAll_cursor Multipart.zero acts (Nat.le_refl _)).1
  refine ⟨h0, ?_, fun h => (Action.run_frame a m buf h).1, ?_, Read_of_ReadSource_none m len,
    readTrace_ge _ acts' h0, (runAll_cursor _ acts' h0).2.2⟩
  · rcases Read_frame m len with ⟨_, h2⟩ | ⟨_, _, h2⟩
    · exact Or.inl h2
    · exact h2
  · intro i hi
    obtain ⟨h1, _, h3⟩ := ReadSource_eq_some m i hi
    refine ⟨h1, m.fields[m.writingIdx], ?_⟩
    rw [h1, List.get?_eq_getElem?]
    exact List.getElem?_eq_getElem h3

theorem cursor_invariant_witness :
    Action.done.isRead = false ∧
    (Multipart.zero.Done zeroBlock).ReadSource = some 0 ∧
    Multipart.zero.ReadSource = none ∧
    (Action.run Multipart.zero zeroBlock Action.done).writingIdx = Multipart.zero.writingIdx ∧
    (0 = (Multipart.zero.Done zeroBlock).writingIdx ∧
      ∃ e, (Multipart.zero.Done zeroBlock).fields.get? 0 = some e) ∧
    ((Multipart.zero.Read 4).2.fields = Multipart.zero.fields ∧
      (Multipart.zero.Read 4).2.writingIdx = Multipart.zero.writingIdx) :=
  ⟨rfl, by decide, rfl,
   (cursor_invariant [] [] Multipart.zero zeroBlock Action.done 4).2.2.1 rfl,
   (cursor_invariant [] [] (Multipart.zero.Done zeroBlock) zeroBlock Action.done 4).2.2.2.1 0
     (by decide),
   (cursor_invariant [] [] Multipart.zero zeroBlock Action.done 4).2.2.2.2.1 rfl⟩

/-! ## Appending after `Done` -/

theorem applyAll_cons (m : Multipart) (c : Block × Op) (cs : List (Block × Op)) :
    applyAll m (c :: cs) = applyAll (c.2.apply m c.1) cs := rfl

/-- The state after appending calls on a body that has its boundary. -/
theorem applyAll_state (m : Multipart) (later : List (Block × Op)) (hb : m.boundary ≠ []) :
    (applyAll m later).fields = m.fields ++ later.map (fun c => c.2.source m.boundary) ∧
    (applyAll m later).boundary = m.boundary ∧ (applyAll m later).closed = m.closed ∧
    (applyAll m later).writingIdx = m.writingIdx ∧ (applyAll m later).toClose = m.toClose := by
  induction later generalizing m with
  | nil => simp [applyAll]
  | cons c cs ih =>
    have hb1 : (c.2.apply m c.1).boundary = m.boundary := by
      rw [Op.apply_boundary, ensureBoundary_of_ne_nil _ _ hb]
    obtain ⟨h1, h2, h3, h4, h5⟩ := ih (c.2.apply m c.1) (by rw [hb1]; exact hb)
    rw [applyAll_cons]
    refine ⟨?_, by rw [h2, hb1], by rw [h3, Op.apply_closed], by rw [h4, Op.apply_writingIdx],
      by rw [h5, Op.apply_toClose]⟩
    rw [h1, hb1, Op.apply_fields, ensureBoundary_of_ne_nil _ _ hb]
    simp

theorem apply_Done_of_closed (m : Multipart) (op : Op) (buf b' : Block)
    (h : m.closed = true) : (op.apply m buf).Done b' = op.apply m buf := by
  rw [Done_of_closed _ _ (by rw [Op.apply_closed]; exact h)]
  exact ensureBoundary_of_ne_nil _ _
    (by rw [Op.apply_boundary]; exact ensureBoundary_boundary_ne_nil m buf)

theorem getLast?_sources (boundary : Bytes) (pre : List Reader) (later : List (Block × Op)) :
    (pre ++ [Reader.bytesReader (bytes.NewReader (terminator boundary))] ++
        later.map (fun c => c.2.source boundary)).getLast? =
      some (Reader.bytesReader (bytes.NewReader (terminator boundary))) ↔ later = [] := by
  rcases List.eq_nil_or_concat later with h | ⟨L, c, h⟩
  · subst h
    simp
  · subst h
    rw [List.concat_eq_append, List.map_append, List.map_singleton, ← List.append_assoc,
      List.getLast?_concat]
    constructor
    · intro hh
      exact absurd (Option.some.inj hh) (Op.source_ne_terminator boundary c.2)
    · intro hh
      simp at hh

/-- C20: appending is not blocked after `Done`.  On a finalized body an appending
call still appends its source at the end, and a later `Done` changes nothing; for
a body built from the zero value, finalized, and then appended to, the sources are
those of the first calls, the terminator, those of the later calls; the terminator
is the last source exactly when there is no later call; and reading to `io.EOF`
(error-free readers, buffers of any length `>= 1`) delivers the framed bytes of
the later calls after the terminator. -/
theorem append_after_Done (calls later : List (Block × Op)) (buf b' : Block) (m : Multipart)
    (op : Op) (len : Nat) (hlen : 1 ≤ len) (hef : ∀ c ∈ calls, c.2.errorFree = true)
    (hef' : ∀ c ∈ later, c.2.errorFree = true) :
    (m.closed = true →
      (op.apply m buf).fields = m.fields ++ [op.source (op.apply m buf).boundary] ∧
      (op.apply m buf).closed = true ∧
      (op.apply m buf).Done b' = op.apply m buf) ∧
    (applyAll ((build calls).Done buf) later).fields =
      calls.map (fun c => c.2.source ((build calls).Done buf).boundary) ++
        [Reader.bytesReader (bytes.NewReader (terminator ((build calls).Done buf).boundary))] ++
        later.map (fun c => c.2.source ((build calls).Done buf).boundary) ∧
    ((applyAll ((build calls).Done buf) later).fields.getLast? =
        some (Reader.bytesReader (bytes.NewReader
          (terminator ((build calls).Done buf).boundary))) ↔ later = []) ∧
    (applyAll ((build calls).Done buf) later).Done b' = applyAll ((build calls).Done buf) later ∧
    ∃ n, ∀ fuel, n ≤ fuel →
      ∃ m', readToEOF fuel (applyAll ((build calls).Done buf) later) len =
        some (calls.flatMap (fun c => c.2.framed ((build calls).Done buf).boundary)
          ++ terminator ((build calls).Done buf).boundary
          ++ later.flatMap (fun c => c.2.framed ((build calls).Done buf).boundary), m') := by
  obtain ⟨hf, hc, hw, ht⟩ := build_Done_state calls buf
  obtain ⟨a1, a2, a3, a4, a5⟩ := applyAll_state ((build calls).Done buf) later
    (Done_boundary_ne_nil _ _)
  have hfields : (applyAll ((build calls).Done buf) later).fields =
      calls.map (fun c => c.2.source ((build calls).Done buf).boundary) ++
        [Reader.bytesReader (bytes.NewReader (terminator ((build calls).Done buf).boundary))] ++
        later.map (fun c => c.2.source ((build calls).Done buf).boundary) := by
    rw [a1, hf]
  refine ⟨?_, hfields, ?_, ?_, ?_⟩
  · intro hm
    exact ⟨by rw [Op.apply_fields, Op.apply_boundary],
      by rw [Op.apply_closed]; exact hm, apply_Done_of_closed m op buf b' hm⟩
  · rw [hfields]; exact getLast?_sources _ _ later
  · rw [Done_of_closed _ _ (by rw [a3]; exact hc)]
    exact ensureBoundary_of_ne_nil _ _ (by rw [a2]; exact Done_boundary_ne_nil _ _)
  · have hahead : (applyAll ((build calls).Done buf) later).ahead =
        (applyAll ((build calls).Done buf) later).fields := by
      simp [Multipart.ahead, a4, hw]
    have hcontent : sourcesContent (applyAll ((build calls).Done buf) later).ahead =
        calls.flatMap (fun c => c.2.framed ((build calls).Done buf).boundary)
          ++ terminator ((build calls).Done buf).boundary
          ++ later.flatMap (fun c => c.2.framed ((build calls).Done buf).boundary) := by
      rw [hahead, hfields, sourcesContent_append, sourcesContent_append,
        sourcesContent_map_source, sourcesContent_map_source, content_terminator]
    have hEF : sourcesErrorFree (applyAll ((build calls).Done buf) later).ahead = true := by
      rw [hahead, hfields, sourcesErrorFree_append, sourcesErrorFree_append,
        sourcesErrorFree_map_source _ _ hef, sourcesErrorFree_map_source _ _ hef']
      rfl
    refine ⟨sourcesCost (applyAll ((build calls).Done buf) later).ahead + 1, fun fuel hfuel => ?_⟩
    obtain ⟨m', hm'⟩ := readToEOF_spec len hlen fuel _ (by rw [a3]; exact hc) hEF
      (by rw [a5, ht]; rfl) (by omega)
    exact ⟨m', by rw [hm', hcontent]⟩

theorem append_after_Done_witness :
    1 ≤ 7 ∧
    (∀ c ∈ [(zeroBlock, Op.addField (str "a") (str "b"))], c.2.errorFree = true) ∧
    (∀ c ∈ [(zeroBlock, Op.addField (str "c") (str "d"))], c.2.errorFree = true) ∧
    (Multipart.zero.Done zeroBlock).closed = true ∧
    (applyAll ((build [(zeroBlock, Op.addField (str "a") (str "b"))]).Done zeroBlock)
        [(zeroBlock, Op.addField (str "c") (str "d"))]).Done zeroBlock =
      applyAll ((build [(zeroBlock, Op.addField (str "a") (str "b"))]).Done zeroBlock)
        [(zeroBlock, Op.addField (str "c") (str "d"))] ∧
    ((Op.addField (str "c") (str "d")).apply (Multipart.zero.Done zeroBlock) zeroBlock).closed
      = true :=
  ⟨by decide, by decide, by decide, rfl,
   (append_after_Done [(zeroBlock, Op.addField (str "a") (str "b"))]
      [(zeroBlock, Op.addField (str "c") (str "d"))] zeroBlock zeroBlock Multipart.zero
      (Op.addField (str "c") (str "d")) 7 (by decide) (by decide) (by decide)).2.2.2.1,
   ((append_after_Done [(zeroBlock, Op.addField (str "a") (str "b"))]
      [(zeroBlock, Op.addField (str "c") (str "d"))] zeroBlock zeroBlock
      (Multipart.zero.Done zeroBlock)
      (Op.addField (str "c") (str "d")) 7 (by decide) (by decide) (by decide)).1 rfl).2.1⟩

/-! ## The loop that closes the files -/

theorem Close_eq (f : OsFile) :
    f.Close = (if f.closeCalls = 0 then f.closeErr else some GoError.errClosed, f.closedOnce) :=
  rfl

theorem closeLoop_handles (fs : List OsFile) :
    (closeLoop fs).2.map OsFile.handle = fs.map OsFile.handle := by
  induction fs with
  | nil => rfl
  | cons f fs ih =>
    unfold closeLoop
    rw [Close_eq]
    split
    · rename_i e f' h
      simp only [Prod.mk.injEq] at h
      simp only [List.map_cons, ← h.2]
      rfl
    · rename_i f' h
      simp only [Prod.mk.injEq] at h
      simp only [List.map_cons, ← h.2, ih]
      rfl

theorem closeLoop_length (fs : List OsFile) : (closeLoop fs).2.length = fs.length := by
  have := congrArg List.length (closeLoop_handles fs)
  simpa using this

/-- When the loop ends without a failed `Close`, it has called `Close` once on
every file, in the order of the list, each call being the first on its file and
returning nil. -/
theorem closeLoop_none (fs : List OsFile) (i : Nat) (h : (closeLoop fs).1 = none) :
    (closeLoop fs).2 = fs.map OsFile.closedOnce ∧
    closeLoopCalls i fs = List.range' i fs.length ∧
    ∀ f ∈ fs, f.closeCalls = 0 ∧ f.closeErr = none := by
  induction fs generalizing i with
  | nil => exact ⟨rfl, rfl, by simp⟩
  | cons f fs ih =>
    unfold closeLoop at h ⊢
    unfold closeLoopCalls
    rw [Close_eq] at h ⊢
    cases hres : (if f.closeCalls = 0 then f.closeErr else some GoError.errClosed) with
    | some e => rw [hres] at h; simp at h
    | none =>
      rw [hres] at h
      simp only at h ⊢
      obtain ⟨h1, h2, h3⟩ := ih (i + 1) h
      refine ⟨by rw [h1]; rfl, by rw [h2]; rfl, ?_⟩
      intro g hg
      rcases List.mem_cons.mp hg with hg | hg
      · subst hg
        by_cases hz : g.closeCalls = 0
        · rw [if_pos hz] at hres; exact ⟨hz, hres⟩
        · rw [if_neg hz] at hres; simp at hres
      · exact h3 g hg

/-- When a `Close` fails in the loop, the first file has been closed at least
once afterwards. -/
theorem closeLoop_some (fs : List OsFile) (e : GoError) (h : (closeLoop fs).1 = some e) :
    ∃ f rest, (closeLoop fs).2 = f :: rest ∧ f.closeCalls ≠ 0 := by
  cases fs with
  | nil => simp [closeLoop] at h
  | cons f fs =>
    unfold closeLoop
    rw [Close_eq]
    split
    · rename_i e' f' hh
      simp only [Prod.mk.injEq] at hh
      exact ⟨f', fs, rfl, by rw [← hh.2]; simp [OsFile.closedOnce]⟩
    · rename_i f' hh
      simp only [Prod.mk.injEq] at hh
      exact ⟨f', _, rfl, by rw [← hh.2]; simp [OsFile.closedOnce]⟩

/-- A loop over files the first of which is already closed fails at once. -/
theorem closeLoop_of_closed (f : OsFile) (rest : List OsFile) (h : f.closeCalls ≠ 0) :
    closeLoop (f :: rest) = (some GoError.errClosed, f.closedOnce :: rest) := by
  unfold closeLoop
  rw [Close_eq, if_neg h]

/-- Every file is closed at most once by one run of the loop. -/
theorem closeLoop_bound (fs : List OsFile) :
    List.Forall₂ (fun f f' => f'.closeCalls ≤ f.closeCalls + 1) fs (closeLoop fs).2 := by
  induction fs with
  | nil => exact List.Forall₂.nil
  | cons f fs ih =>
    unfold closeLoop
    rw [Close_eq]
    split
    · rename_i e f' h
      simp only [Prod.mk.injEq] at h
      refine List.Forall₂.cons (by rw [← h.2]; exact Nat.le_refl _) ?_
      exact List.forall₂_same.mpr (fun x _ => Nat.le_succ _)
    · rename_i f' h
      simp only [Prod.mk.injEq] at h
      exact List.Forall₂.cons (by rw [← h.2]; exact Nat.le_refl _) ih

/-! ## `Read` on an exhausted body -/

theorem Read_of_exhausted (m : Multipart) (len : Nat) (h : m.exhausted = true) :
    m.Read len =
      (match closeLoop m.toClose with
       | (some _, files) => (([], none), { m with toClose := files })
       | (none, files) => (([], some GoError.EOF), { m with toClose := files })) := by
  simp only [Multipart.exhausted, Bool.and_eq_true, decide_eq_true_eq] at h
  unfold Multipart.Read
  simp only [h.1, Bool.not_true, Bool.false_eq_true, if_false, h.2, if_true]

theorem Read_of_not_exhausted (m : Multipart) (len : Nat) (h : m.exhausted = false) :
    (m.Read len).2.toClose = m.toClose ∧ (m.Read len).1.2 ≠ some GoError.EOF ∧
    (m.Read len).2.closed = m.closed := by
  unfold Multipart.Read
  simp only
  split
  · exact ⟨rfl, by simp, rfl⟩
  · rename_i hc
    have hc' : m.closed = true := by simpa using hc
    split
    · rename_i hge
      simp [Multipart.exhausted, hc', hge] at h
    · split
      · exact ⟨rfl, by simp, rfl⟩
      · rename_i e _
        rcases e.Read len with ⟨⟨out, err⟩, e'⟩
        simp only
        split
        · exact ⟨rfl, by simp, rfl⟩
        · rename_i hne
          exact ⟨rfl, hne, rfl⟩

theorem Read_eq_EOF (m : Multipart) (len : Nat) (h : (m.Read len).1.2 = some GoError.EOF) :
    m.exhausted = true ∧ (closeLoop m.toClose).1 = none ∧
    (m.Read len).2 = { m with toClose := (closeLoop m.toClose).2 } := by
  cases hex : m.exhausted with
  | false => exact absurd h (Read_of_not_exhausted m len hex).2.1
  | true =>
    rw [Read_of_exhausted m len hex] at h ⊢
    rcases hcl : closeLoop m.toClose with ⟨_ | e, files⟩
    · exact ⟨rfl, rfl, rfl⟩
    · rw [hcl] at h; simp at h

/-! ## A file that cannot be closed -/

/-- C12, on the code: on a finalized body whose cursor is past the last source,
when a `Close` fails with the error `e` in the loop of `Read`, that call of `Read`
returns no bytes and a nil error: the statement `return 0, err` returns the named
result `err`, which is nil there, and not `e`. -/
theorem Read_close_failure (m : Multipart) (len : Nat) (e : GoError) (files : List OsFile)
    (hex : m.exhausted = true) (hcl : closeLoop m.toClose = (some e, files)) :
    m.Read len = (([], none), { m with toClose := files }) := by
  rw [Read_of_exhausted m len hex, hcl]

set_option maxRecDepth 1000000 in
theorem Read_close_failure_witness :
    (readMany ((Multipart.zero.AddFileFromDisk (oneFile [] (some (GoError.other 5))) zeroBlock
        (str "file") (str "a.txt")).2.Done zeroBlock) [4096, 4096, 4096, 4096]).exhausted
      = true ∧
    (closeLoop (readMany ((Multipart.zero.AddFileFromDisk (oneFile [] (some (GoError.other 5)))
        zeroBlock (str "file") (str "a.txt")).2.Done zeroBlock)
        [4096, 4096, 4096, 4096]).toClose).1 = some (GoError.other 5) ∧
    ((readMany ((Multipart.zero.AddFileFromDisk (oneFile [] (some (GoError.other 5))) zeroBlock
        (str "file") (str "a.txt")).2.Done zeroBlock) [4096, 4096, 4096, 4096]).Read 4096).1
      = ([], none) :=
  ⟨by decide, by decide,
   congrArg Prod.fst (Read_close_failure
     (readMany ((Multipart.zero.AddFileFromDisk (oneFile [] (some (GoError.other 5))) zeroBlock
        (str "file") (str "a.txt")).2.Done zeroBlock) [4096, 4096, 4096, 4096])
     4096 (GoError.other 5) [⟨[], some (GoError.other 5), 1⟩] (by decide) (by decide))⟩

/-! ## Every file is closed when `io.EOF` is returned -/

theorem Action.run_toClose (a : Action) (m : Multipart) (buf : Block) :
    (a.run m buf).toClose.map OsFile.handle =
      m.toClose.map OsFile.handle ++ a.opened.toList.map OsFile.handle := by
  have hdone : ∀ m : Multipart, (m.Done buf).toClose = m.toClose := by
    intro m
    unfold Multipart.Done
    cases hc : m.closed <;> simp [hc]
  have hop : ∀ (op : Op) (m : Multipart), (op.apply m buf).toClose = m.toClose :=
    fun op m => Op.apply_toClose op m buf
  cases a with
  | addField n v =>
    have := hop (Op.addField n v) m
    simp only [Op.apply] at this
    simp [Action.run, Action.opened, this]
  | addBytes f n d =>
    have := hop (Op.addBytesContentType f n octetType d) m
    simp only [Op.apply] at this
    simp [Action.run, Action.opened, Multipart.AddBytes, this]
  | addBytesContentType f n c d =>
    have := hop (Op.addBytesContentType f n c d) m
    simp only [Op.apply] at this
    simp [Action.run, Action.opened, this]
  | addFile f n r =>
    have := hop (Op.addFileContentType f n octetType r) m
    simp only [Op.apply] at this
    simp [Action.run, Action.opened, Multipart.AddFile, this]
  | addFileContentType f n c r =>
    have := hop (Op.addFileContentType f n c r) m
    simp only [Op.apply] at this
    simp [Action.run, Action.opened, this]
  | addFileFromDisk fs f p =>
    simp only [Action.run, Action.opened, Multipart.AddFileFromDisk,
      Multipart.AddFileFromDiskContentType]
    cases hfs : fs p with
    | error e => simp
    | ok file =>
      have := hop (Op.addFileContentType f (filepath.Base p) octetType file.reader)
        { m with toClose := m.toClose ++ [file] }
      simp only [Op.apply] at this
      simp [this]
  | addFileFromDiskContentType fs f c p =>
    simp only [Action.run, Action.opened, Multipart.AddFileFromDiskContentType]
    cases hfs : fs p with
    | error e => simp
    | ok file =>
      have := hop (Op.addFileContentType f (filepath.Base p) c file.reader)
        { m with toClose := m.toClose ++ [file] }
      simp only [Op.apply] at this
      simp [this]
  | done => simp [Action.run, Action.opened, hdone]
  | contentTypeHeaderValue =>
    simp [Action.run, Action.opened, Multipart.ContentTypeHeaderValue]
  | attachToRequest r =>
    simp [Action.run, Action.opened, Multipart.AttachToRequest,
      Multipart.ContentTypeHeaderValue, hdone]
  | read len =>
    simp only [Action.run, Action.opened, Option.toList, List.map_nil, List.append_nil]
    cases hex : m.exhausted with
    | false => rw [(Read_of_not_exhausted m len hex).1]
    | true =>
      rw [Read_of_exhausted m len hex]
      have := closeLoop_handles m.toClose
      rcases hcl : closeLoop m.toClose with ⟨_ | e, files⟩ <;> rw [hcl] at this <;> exact this

/-- The files owned by a body are the files registered by the calls made on it, in
the order of registration. -/
theorem runAll_toClose (m : Multipart) (acts : List (Block × Action)) :
    (runAll m acts).toClose.map OsFile.handle =
      m.toClose.map OsFile.handle ++ (registered acts).map OsFile.handle := by
  induction acts generalizing m with
  | nil => simp [runAll, registered]
  | cons a acts ih =>
    rw [runAll_cons, ih, Action.run_toClose, List.append_assoc]
    congr 1
    cases h : a.2.opened <;> simp [registered, List.filterMap_cons, h]

/-- C14: whenever a call of `Read` on a body reached from the zero value returns
`io.EOF`, the files owned by the body are the files registered by `AddFileFromDisk`
and `AddFileFromDiskContentType`, in the order of registration, and that call has
called `Close` on every one of them, once each and in that order, whatever was
read from the sources before. -/
theorem Read_EOF_closes_all (acts : List (Block × Action)) (len : Nat)
    (h : ((runAll Multipart.zero acts).Read len).1.2 = some GoError.EOF) :
    (runAll Multipart.zero acts).closed = true ∧
    (runAll Multipart.zero acts).toClose.map OsFile.handle =
      (registered acts).map OsFile.handle ∧
    (runAll Multipart.zero acts).ReadCloses =
      List.range (runAll Multipart.zero acts).toClose.length ∧
    ((runAll Multipart.zero acts).Read len).2.toClose =
      (runAll Multipart.zero acts).toClose.map OsFile.closedOnce ∧
    (∀ f ∈ ((runAll Multipart.zero acts).Read len).2.toClose, 1 ≤ f.closeCalls) := by
  obtain ⟨hex, hcl, hst⟩ := Read_eq_EOF _ len h
  obtain ⟨h1, h2, _⟩ := closeLoop_none _ 0 hcl
  have htc : ((runAll Multipart.zero acts).Read len).2.toClose =
      (runAll Multipart.zero acts).toClose.map OsFile.closedOnce := by
    rw [hst]; exact h1
  refine ⟨?_, ?_, ?_, htc, ?_⟩
  · simp only [Multipart.exhausted, Bool.and_eq_true] at hex
    exact hex.1
  · have := runAll_toClose Multipart.zero acts
    simpa [Multipart.zero] using this
  · simp only [Multipart.ReadCloses, hex, if_true, h2, List.range_eq_range']
  · intro f hf
    rw [htc] at hf
    obtain ⟨g, _, rfl⟩ := List.mem_map.mp hf
    simp [OsFile.closedOnce]

set_option maxRecDepth 1000000 in
theorem Read_EOF_closes_all_witness :
    ((runAll Multipart.zero
        [(zeroBlock, Action.addFileFromDisk (oneFile [⟨str "xyz", none⟩] none) (str "file")
          (str "a.txt")),
         (zeroBlock, Action.done), (zeroBlock, Action.read 4096), (zeroBlock, Action.read 1),
         (zeroBlock, Action.read 4096), (zeroBlock, Action.read 4096),
         (zeroBlock, Action.read 4096), (zeroBlock, Action.read 4096)]).Read 8).1.2
      = some GoError.EOF ∧
    ((runAll Multipart.zero
        [(zeroBlock, Action.addFileFromDisk (oneFile [⟨str "xyz", none⟩] none) (str "file")
          (str "a.txt")),
         (zeroBlock, Action.done), (zeroBlock, Action.read 4096), (zeroBlock, Action.read 1),
         (zeroBlock, Action.read 4096), (zeroBlock, Action.read 4096),
         (zeroBlock, Action.read 4096), (zeroBlock, Action.read 4096)]).Read 8).2.toClose
      = [⟨[⟨str "xyz", none⟩], none, 1⟩] :=
  ⟨by decide,
   (Read_EOF_closes_all
      [(zeroBlock, Action.addFileFromDisk (oneFile [⟨str "xyz", none⟩] none) (str "file")
          (str "a.txt")),
         (zeroBlock, Action.done), (zeroBlock, Action.read 4096), (zeroBlock, Action.read 1),
         (zeroBlock, Action.read 4096), (zeroBlock, Action.read 4096),
         (zeroBlock, Action.read 4096), (zeroBlock, Action.read 4096)] 8 (by decide)).2.2.2.1⟩

/-! ## The end of a source -/

theorem bytesReader_Read_EOF (r : BytesReader) (len : Nat)
    (h : (r.Read len).1.2 = some GoError.EOF) : (r.Read len).1.1 = [] := by
  unfold BytesReader.Read at h ⊢
  split
  · rfl
  · rename_i hh
    rw [if_neg hh] at h
    simp at h

theorem extReader_Read_EOF (r : ExtReader) (len : Nat) (hp : r.plainEOF = true)
    (h : (r.Read len).1.2 = some GoError.EOF) : (r.Read len).1.1 = [] := by
  cases r with
  | nil => rfl
  | cons a rest =>
    simp only [ExtReader.plainEOF, List.all_cons, Bool.and_eq_true, decide_eq_true_eq] at hp
    simp only [ExtReader.Read] at h ⊢
    by_cases hle : a.data.length ≤ len
    · rw [if_pos hle] at h ⊢
      exact hp.1 h
    · rw [if_neg hle] at h
      simp at h

theorem leaf_Read_EOF (l : Leaf) (len : Nat) (hp : l.plainEOF = true)
    (h : (l.Read len).1.2 = some GoError.EOF) : (l.Read len).1.1 = [] := by
  cases l with
  | bytesReader r => exact bytesReader_Read_EOF r len h
  | external r => exact extReader_Read_EOF r len hp h

theorem multiReaderRead_EOF (ls : List Leaf) (len : Nat) (hp : ls.all Leaf.plainEOF = true)
    (h : (multiReaderRead ls len).1.2 = some GoError.EOF) :
    (multiReaderRead ls len).1.1 = [] := by
  induction ls with
  | nil => rfl
  | cons r rest ih =>
    simp only [List.all_cons, Bool.and_eq_true] at hp
    have hr := leaf_Read_EOF r len hp.1
    unfold multiReaderRead at h ⊢
    rcases hread : r.Read len with ⟨⟨out, err⟩, r'⟩
    rw [hread] at hr h
    simp only at hr h ⊢
    by_cases hc : out.length > 0 ∨ err ≠ some GoError.EOF
    · rw [if_pos hc] at h ⊢
      simp only at h ⊢
      by_cases he : err = some GoError.EOF
      · have := hr he
        rw [this] at hc
        simp [he] at hc
      · simp [he] at h
    · rw [if_neg hc] at h ⊢
      exact ih hp.2 h

theorem reader_Read_EOF (e : Reader) (len : Nat) (hp : e.plainEOF = true)
    (h : (e.Read len).1.2 = some GoError.EOF) : (e.Read len).1.1 = [] := by
  cases e with
  | bytesReader r => exact bytesReader_Read_EOF r len h
  | multiReader ls => exact multiReaderRead_EOF ls len hp h

set_option maxRecDepth 1000000 in
/-- C18, at a failing input: after `AddFile("f", "n", r)` with a reader `r` that
returns its two bytes together with `io.EOF`, `Done`, and one `Read` that delivers
the header block, the cursor is on the source, the source reports `io.EOF` on the
forwarded read, and `Read` returns the two bytes (not zero bytes) with a nil
error. -/
theorem Read_EOF_with_bytes_counterexample :
    (((Multipart.zero.AddFile zeroBlock (str "f") (str "n")
        [⟨str "xy", some GoError.EOF⟩]).Done zeroBlock).Read 4096).2.closed = true ∧
    (((Multipart.zero.AddFile zeroBlock (str "f") (str "n")
        [⟨str "xy", some GoError.EOF⟩]).Done zeroBlock).Read 4096).2.ReadSource = some 0 ∧
    ((((Multipart.zero.AddFile zeroBlock (str "f") (str "n")
        [⟨str "xy", some GoError.EOF⟩]).Done zeroBlock).Read 4096).2.fields.get? 0).map
      (fun e => (e.Read 4096).1) = some (str "xy", some GoError.EOF) ∧
    ((((Multipart.zero.AddFile zeroBlock (str "f") (str "n")
        [⟨str "xy", some GoError.EOF⟩]).Done zeroBlock).Read 4096).2.Read 4096).1
      = (str "xy", none) ∧
    ((((Multipart.zero.AddFile zeroBlock (str "f") (str "n")
        [⟨str "xy", some GoError.EOF⟩]).Done zeroBlock).Read 4096).2.Read 4096).1.1 ≠ [] := by
  decide

/-- C18, amended: on a finalized body whose cursor is on a source, when that
source reports `io.EOF` on the forwarded read, `Read` returns the bytes the source
returned with it and a nil error, and advances the cursor by exactly one; the
bytes are none when the readers of the source report the end of their stream
without bytes (an in-memory source, a file); and `Read` returns `io.EOF` only when
the body is finalized and the cursor is past the last source at the start of the
call. -/
theorem Read_absorbs_EOF (m : Multipart) (len : Nat) (e : Reader) (hc : m.closed = true)
    (hget : m.fields.get? m.writingIdx = some e)
    (heof : (e.Read len).1.2 = some GoError.EOF) :
    (m.Read len).1 = ((e.Read len).1.1, none) ∧
    (m.Read len).2.writingIdx = m.writingIdx + 1 ∧
    (e.plainEOF = true → (m.Read len).1 = ([], none)) ∧
    (∀ (m' : Multipart) (len' : Nat), (m'.Read len').1.2 = some GoError.EOF →
      m'.closed = true ∧ m'.fields.length ≤ m'.writingIdx) := by
  have hlt : m.writingIdx < m.fields.length := by
    rw [List.get?_eq_getElem?] at hget
    exact (List.getElem?_eq_some.mp hget).1
  have hread : m.Read len = (((e.Read len).1.1, none),
      { m with fields := m.fields.set m.writingIdx (e.Read len).2,
               writingIdx := m.writingIdx + 1 }) := by
    unfold Multipart.Read
    simp only [hc, Bool.not_true, Bool.false_eq_true, if_false, ge_iff_le, Nat.not_le.mpr hlt,
      hget]
    rcases hr : e.Read len with ⟨⟨out, err⟩, e'⟩
    rw [hr] at heof
    simp only at heof ⊢
    simp [heof]
  refine ⟨by rw [hread], by rw [hread], ?_, ?_⟩
  · intro hp
    rw [hread, reader_Read_EOF e len hp heof]
  · intro m' len' h'
    obtain ⟨hex, _, _⟩ := Read_eq_EOF m' len' h'
    simpa [Multipart.exhausted] using hex

theorem Read_absorbs_EOF_witness :
    (Multipart.zero.Done zeroBlock).closed = true ∧
    (Reader.bytesReader ⟨terminator (randomBoundary zeroBlock), 68⟩).plainEOF = true ∧
    ({ Multipart.zero.Done zeroBlock with
        fields := [Reader.bytesReader ⟨terminator (randomBoundary zeroBlock), 68⟩] }.Read 16).1
      = ([], none) :=
  ⟨rfl, rfl,
   (Read_absorbs_EOF
      { Multipart.zero.Done zeroBlock with
        fields := [Reader.bytesReader ⟨terminator (randomBoundary zeroBlock), 68⟩] }
      16 (Reader.bytesReader ⟨terminator (randomBoundary zeroBlock), 68⟩) rfl rfl
      (by decide)).2.2.1 rfl⟩

/-! ## How often a file is closed -/

theorem forall₂_closeCalls_comp (k n : Nat) (l1 l2 l3 : List OsFile)
    (h1 : List.Forall₂ (fun f f' => f'.closeCalls ≤ f.closeCalls + k) l1 l2)
    (h2 : List.Forall₂ (fun f f' => f'.closeCalls ≤ f.closeCalls + n) l2 l3) :
    List.Forall₂ (fun f f' => f'.closeCalls ≤ f.closeCalls + (k + n)) l1 l3 := by
  induction h1 generalizing l3 with
  | nil => cases h2; exact List.Forall₂.nil
  | cons hab _ ih =>
    cases h2 with
    | cons hbc hrest => exact List.Forall₂.cons (by omega) (ih _ hrest)

theorem Read_closeCalls_bound (m : Multipart) (len : Nat) :
    List.Forall₂ (fun f f' => f'.closeCalls ≤ f.closeCalls + (if m.exhausted then 1 else 0))
      m.toClose (m.Read len).2.toClose := by
  cases hex : m.exhausted with
  | false =>
    rw [(Read_of_not_exhausted m len hex).1]
    exact List.forall₂_same.mpr (fun x _ => by simp)
  | true =>
    simp only [if_true]
    rw [Read_of_exhausted m len hex]
    have := closeLoop_bound m.toClose
    rcases hcl : closeLoop m.toClose with ⟨_ | e, files⟩ <;> rw [hcl] at this <;> exact this

theorem readMany_cons (m : Multipart) (len : Nat) (lens : List Nat) :
    readMany m (len :: lens) = readMany (m.Read len).2 lens := rfl

theorem readMany_append (m : Multipart) (lens : List Nat) (len : Nat) :
    readMany m (lens ++ [len]) = ((readMany m lens).Read len).2 := by
  simp [readMany, List.foldl_append]

/-- Over a sequence of `Read` calls, `Close` is called on each owned file at most
as many times as there are calls that find the body exhausted. -/
theorem readMany_closeCalls_bound (m : Multipart) (lens : List Nat) :
    List.Forall₂ (fun f f' => f'.closeCalls ≤ f.closeCalls + exhaustedReads m lens)
      m.toClose (readMany m lens).toClose := by
  induction lens generalizing m with
  | nil => exact List.forall₂_same.mpr (fun x _ => by simp [exhaustedReads])
  | cons len lens ih =>
    rw [readMany_cons]
    exact forall₂_closeCalls_comp _ _ _ _ _ (Read_closeCalls_bound m len) (ih (m.Read len).2)

/-- Once a `Read` on an exhausted body has met a failed `Close`, the first file is
closed, every later loop fails on it, and `io.EOF` is never returned. -/
theorem no_EOF_of_stuck (m : Multipart) (lens : List Nat) (len : Nat) (hex : m.exhausted = true)
    (hst : ∃ f rest, m.toClose = f :: rest ∧ f.closeCalls ≠ 0) :
    ((readMany m lens).Read len).1.2 ≠ some GoError.EOF := by
  induction lens generalizing m with
  | nil =>
    obtain ⟨f, rest, hf, hne⟩ := hst
    simp only [readMany, List.foldl_nil]
    rw [Read_of_exhausted m len hex, hf, closeLoop_of_closed f rest hne]
    simp
  | cons l lens ih =>
    obtain ⟨f, rest, hf, hne⟩ := hst
    rw [readMany_cons]
    have hread : m.Read l = (([], none), { m with toClose := f.closedOnce :: rest }) := by
      rw [Read_of_exhausted m l hex, hf, closeLoop_of_closed f rest hne]
    rw [hread]
    exact ih _ (by simpa [Multipart.exhausted] using hex)
      ⟨f.closedOnce, rest, rfl, by simp [OsFile.closedOnce]⟩

/-- Over a sequence of `Read` calls that ends with the first `io.EOF`, `Close` is
called exactly once on each owned file. -/
theorem readMany_first_EOF (m : Multipart) (lens : List Nat) (len : Nat)
    (h1 : some GoError.EOF ∉ readErrs m lens)
    (h2 : ((readMany m lens).Read len).1.2 = some GoError.EOF) :
    (readMany m (lens ++ [len])).toClose = m.toClose.map OsFile.closedOnce := by
  induction lens generalizing m with
  | nil =>
    obtain ⟨_, hcl, hst⟩ := Read_eq_EOF m len h2
    simp only [List.nil_append, readMany, List.foldl_cons, List.foldl_nil]
    rw [hst]
    exact (closeLoop_none _ 0 hcl).1
  | cons l lens ih =>
    simp only [readErrs, List.mem_cons, not_or] at h1
    rw [readMany_cons] at h2
    rw [List.cons_append, readMany_cons]
    cases hex : m.exhausted with
    | false =>
      rw [ih (m.Read l).2 h1.2 h2, (Read_of_not_exhausted m l hex).1]
    | true =>
      exfalso
      have hread := Read_of_exhausted m l hex
      rcases hcl : closeLoop m.toClose with ⟨_ | e, files⟩
      · rw [hcl] at hread
        exact h1.1 (by rw [hread])
      · have hsome := closeLoop_some m.toClose e (by rw [hcl])
        rw [hcl] at hread hsome
        rw [hread] at h2
        exact no_EOF_of_stuck _ lens len (by simpa [Multipart.exhausted] using hex) hsome h2

theorem Read_exhausted_stable (m : Multipart) (len : Nat) (h : m.exhausted = true) :
    (m.Read len).2.exhausted = true ∧ (m.Read len).2.toClose = (closeLoop m.toClose).2 := by
  rw [Read_of_exhausted m len h]
  rcases closeLoop m.toClose with ⟨_ | e, files⟩
  · exact ⟨by simpa [Multipart.exhausted] using h, rfl⟩
  · exact ⟨by simpa [Multipart.exhausted] using h, rfl⟩

/-- One run of the loop calls `Close` on the first file, and goes on to the other
files only when that call was the first on the file and returned nil. -/
theorem closeLoop_cons (f : OsFile) (rest : List OsFile) :
    (closeLoop (f :: rest)).2 =
      f.closedOnce ::
        (if f.closeCalls = 0 ∧ f.closeErr = none then (closeLoop rest).2 else rest) := by
  rw [closeLoop, Close_eq]
  by_cases hz : f.closeCalls = 0
  · cases he : f.closeErr with
    | none => simp [hz, he]
    | some e => simp [hz, he]
  · simp [hz]

theorem closedOnce_add (f : OsFile) (k : Nat) :
    { f.closedOnce with closeCalls := f.closedOnce.closeCalls + k } =
      ({ f with closeCalls := f.closeCalls + (1 + k) } : OsFile) := by
  simp only [OsFile.closedOnce, Nat.add_assoc]

/-- The owned files after a sequence of `Read` calls, when there is at least one:
`Close` has been called on the first file once by each call that found the body
exhausted; the other files are as the first such call left them, and that call
went on to them only when the first file had not been closed before and its
`Close` returned nil. -/
theorem readMany_toClose_cons (m : Multipart) (lens : List Nat) (f : OsFile)
    (rest : List OsFile) (h : m.toClose = f :: rest) :
    (readMany m lens).toClose =
      { f with closeCalls := f.closeCalls + exhaustedReads m lens } ::
        (if 0 < exhaustedReads m lens ∧ f.closeCalls = 0 ∧ f.closeErr = none
          then (closeLoop rest).2 else rest) := by
  induction lens generalizing m f rest with
  | nil => simp [readMany, exhaustedReads, h]
  | cons len lens ih =>
    rw [readMany_cons]
    cases hex : m.exhausted with
    | false =>
      have hk : exhaustedReads m (len :: lens) = exhaustedReads (m.Read len).2 lens := by
        simp [exhaustedReads, hex]
      rw [hk]
      exact ih (m.Read len).2 f rest (by rw [(Read_of_not_exhausted m len hex).1, h])
    | true =>
      have hk : exhaustedReads m (len :: lens) = 1 + exhaustedReads (m.Read len).2 lens := by
        simp [exhaustedReads, hex]
      have hto := (Read_exhausted_stable m len hex).2
      rw [h, closeLoop_cons] at hto
      rw [hk, ih (m.Read len).2 _ _ hto, closedOnce_add]
      have hne : f.closedOnce.closeCalls ≠ 0 := by simp [OsFile.closedOnce]
      have hpos : 0 < 1 + exhaustedReads (m.Read len).2 lens := by omega
      simp only [hne, false_and, and_false, if_false, hpos, true_and]

theorem readMany_toClose_nil (m : Multipart) (lens : List Nat) (h : m.toClose = []) :
    (readMany m lens).toClose = [] := by
  have := readMany_closeCalls_bound m lens
  rw [h] at this
  exact List.forall₂_nil_left_iff.mp this

theorem readMany_handles (m : Multipart) (lens : List Nat) :
    (readMany m lens).toClose.map OsFile.handle = m.toClose.map OsFile.handle := by
  induction lens generalizing m with
  | nil => rfl
  | cons len lens ih =>
    rw [readMany_cons, ih]
    cases hex : m.exhausted with
    | false => rw [(Read_of_not_exhausted m len hex).1]
    | true => rw [(Read_exhausted_stable m len hex).2, closeLoop_handles]

set_option maxRecDepth 1000000 in
/-- C13, at a failing input: after `AddFileFromDisk`, `Done` and five calls of
`Read` (4096-byte buffers), the fifth of which returns `io.EOF` and closes the
file, a sixth call of `Read` calls `Close` on the file a second time. -/
theorem Close_twice_counterexample :
    ((Multipart.zero.AddFileFromDisk (oneFile [] none) zeroBlock (str "file")
        (str "a.txt")).2.Done zeroBlock).closed = true ∧
    readErrs ((Multipart.zero.AddFileFromDisk (oneFile [] none) zeroBlock (str "file")
        (str "a.txt")).2.Done zeroBlock) [4096, 4096, 4096, 4096, 4096, 4096]
      = [none, none, none, none, some GoError.EOF, none] ∧
    ((Multipart.zero.AddFileFromDisk (oneFile [] none) zeroBlock (str "file")
        (str "a.txt")).2.Done zeroBlock).toClose.map OsFile.closeCalls = [0] ∧
    (readMany ((Multipart.zero.AddFileFromDisk (oneFile [] none) zeroBlock (str "file")
        (str "a.txt")).2.Done zeroBlock)
        [4096, 4096, 4096, 4096, 4096, 4096]).toClose.map OsFile.closeCalls = [2] := by
  decide

/-- C13, amended: over every sequence of `Read` calls on a body, `Close` is called
on each owned file at most as many times as there are calls that find the body
exhausted (finalized, cursor past the last source), so at most once when there is
at most one such call, and exactly once over a sequence that ends with the first
`Read` returning `io.EOF`. The calls are not limited to the first exhaustion: on
the first owned file `Close` is called exactly once by every call of `Read` that
finds the body exhausted; on the other owned files it is called at most once over
the whole sequence, by the loop of the first such call, which goes on to them only
when the first file had not been closed before and its `Close` returned nil; a
body that owns no file closes none; no file is added, removed or replaced. -/
theorem Close_calls (m : Multipart) (lens : List Nat) (len : Nat) :
    List.Forall₂ (fun f f' => f'.closeCalls ≤ f.closeCalls + exhaustedReads m lens)
      m.toClose (readMany m lens).toClose ∧
    (exhaustedReads m lens ≤ 1 →
      List.Forall₂ (fun f f' => f'.closeCalls ≤ f.closeCalls + 1)
        m.toClose (readMany m lens).toClose) ∧
    (some GoError.EOF ∉ readErrs m lens →
      ((readMany m lens).Read len).1.2 = some GoError.EOF →
      (readMany m (lens ++ [len])).toClose = m.toClose.map OsFile.closedOnce) ∧
    (∀ f rest, m.toClose = f :: rest →
      (readMany m lens).toClose =
        { f with closeCalls := f.closeCalls + exhaustedReads m lens } ::
          (if 0 < exhaustedReads m lens ∧ f.closeCalls = 0 ∧ f.closeErr = none
            then (closeLoop rest).2 else rest) ∧
      List.Forall₂ (fun g g' => g'.closeCalls ≤ g.closeCalls + 1)
        rest (readMany m lens).toClose.tail) ∧
    (m.toClose = [] → (readMany m lens).toClose = []) ∧
    (readMany m lens).toClose.map OsFile.handle = m.toClose.map OsFile.handle := by
  refine ⟨readMany_closeCalls_bound m lens, ?_, readMany_first_EOF m lens len, ?_,
    readMany_toClose_nil m lens, readMany_handles m lens⟩
  · intro h
    exact (readMany_closeCalls_bound m lens).imp (fun _ _ hab => by omega)
  · intro f rest h
    refine ⟨readMany_toClose_cons m lens f rest h, ?_⟩
    rw [readMany_toClose_cons m lens f rest h, List.tail_cons]
    split
    · exact closeLoop_bound rest
    · exact List.forall₂_same.mpr (fun x _ => Nat.le_succ _)

set_option maxRecDepth 1000000 in
theorem Close_calls_witness :
    exhaustedReads ((Multipart.zero.AddFileFromDisk (oneFile [] none) zeroBlock (str "file")
        (str "a.txt")).2.Done zeroBlock) [4096, 4096, 4096, 4096, 4096] ≤ 1 ∧
    some GoError.EOF ∉ readErrs ((Multipart.zero.AddFileFromDisk (oneFile [] none) zeroBlock
        (str "file") (str "a.txt")).2.Done zeroBlock) [4096, 4096, 4096, 4096] ∧
    ((readMany ((Multipart.zero.AddFileFromDisk (oneFile [] none) zeroBlock
        (str "file") (str "a.txt")).2.Done zeroBlock) [4096, 4096, 4096, 4096]).Read 4096).1.2
      = some GoError.EOF ∧
    List.Forall₂ (fun f f' => f'.closeCalls ≤ f.closeCalls + 1)
      ((Multipart.zero.AddFileFromDisk (oneFile [] none) zeroBlock (str "file")
        (str "a.txt")).2.Done zeroBlock).toClose
      (readMany ((Multipart.zero.AddFileFromDisk (oneFile [] none) zeroBlock (str "file")
        (str "a.txt")).2.Done zeroBlock) [4096, 4096, 4096, 4096, 4096]).toClose ∧
    (readMany ((Multipart.zero.AddFileFromDisk (oneFile [] none) zeroBlock (str "file")
        (str "a.txt")).2.Done zeroBlock) ([4096, 4096, 4096, 4096] ++ [4096])).toClose =
      ((Multipart.zero.AddFileFromDisk (oneFile [] none) zeroBlock (str "file")
        (str "a.txt")).2.Done zeroBlock).toClose.map OsFile.closedOnce ∧
    (((Multipart.zero.AddFileFromDisk (oneFile [] none) zeroBlock (str "a")
        (str "a.txt")).2.AddFileFromDisk (oneFile [] none) zeroBlock (str "b")
        (str "b.txt")).2.Done zeroBlock).toClose = [⟨[], none, 0⟩, ⟨[], none, 0⟩] ∧
    exhaustedReads (((Multipart.zero.AddFileFromDisk (oneFile [] none) zeroBlock (str "a")
        (str "a.txt")).2.AddFileFromDisk (oneFile [] none) zeroBlock (str "b")
        (str "b.txt")).2.Done zeroBlock)
        [4096, 4096, 4096, 4096, 4096, 4096, 4096, 4096, 4096] = 3 ∧
    (readMany (((Multipart.zero.AddFileFromDisk (oneFile [] none) zeroBlock (str "a")
        (str "a.txt")).2.AddFileFromDisk (oneFile [] none) zeroBlock (str "b")
        (str "b.txt")).2.Done zeroBlock)
        [4096, 4096, 4096, 4096, 4096, 4096, 4096, 4096, 4096]).toClose =
      [⟨[], none, 3⟩, ⟨[], none, 1⟩] ∧
    (readMany (Multipart.zero.Done zeroBlock) [4096, 4096, 4096]).toClose = [] :=
  ⟨by decide, by decide, by decide,
   (Close_calls ((Multipart.zero.AddFileFromDisk (oneFile [] none) zeroBlock (str "file")
        (str "a.txt")).2.Done zeroBlock) [4096, 4096, 4096, 4096, 4096] 4096).2.1 (by decide),
   (Close_calls ((Multipart.zero.AddFileFromDisk (oneFile [] none) zeroBlock (str "file")
        (str "a.txt")).2.Done zeroBlock) [4096, 4096, 4096, 4096] 4096).2.2.1 (by decide)
        (by decide),
   by decide, by decide,
   ((Close_calls (((Multipart.zero.AddFileFromDisk (oneFile [] none) zeroBlock (str "a")
        (str "a.txt")).2.AddFileFromDisk (oneFile [] none) zeroBlock (str "b")
        (str "b.txt")).2.Done zeroBlock)
        [4096, 4096, 4096, 4096, 4096, 4096, 4096, 4096, 4096] 4096).2.2.2.1
        ⟨[], none, 0⟩ [⟨[], none, 0⟩] (by decide)).1.trans (by decide),
   (Close_calls (Multipart.zero.Done zeroBlock) [4096, 4096, 4096] 4096).2.2.2.2.1
        (by decide)⟩

end Multipartx
